import Mathlib

/-!
# SParGeL: batch partition and optical-depth octree

A shallow embedding of `Application::Initialise` / `Application::Run`
(thread clamps and the file partition), of `OpticalDepthOctree`
(`Insert`, `Construct`, `TraverseTree`, `Walk`, `GetOctantContainingPoint`,
`IsLeafNode`, `Intersects`), of `Application::FindOpticalDepth` and
`Application::Analyse`, of the point array of `Generator::CalculateVelocity`
and of `DiscAnalyser::Center`, followed by the properties proved about them.

Conventions of the embedding.
* A `FLOAT` value is a rational number.  The functions with the suffix `F`
  (`InsertF`, `ConstructF`, `IntersectsF`, `TraverseTreeF`, `WalkF`,
  `FindOpticalDepthF`) take the rounding `fl` of `FLOAT` arithmetic as their
  first argument and apply it after every sum, difference and product of the
  source; `binary64` is the rounding of `double` to the nearest, ties to
  even, with subnormal numbers and without overflow.  `Insert`,
  `Construct`, `Intersects` and `TraverseTree` are also given without the
  suffix, in exact arithmetic (`fl = id`); the properties stated with them do
  not depend on rounding or are stated at values that `double` represents.
* The `int` members `mNumThreads`, `mMaxThreads`, `mFilesPerThread`,
  `mRemainder` and the locals `pos`, `start`, `end` are mathematical integers:
  the file count is bounded by the argument count, so no value leaves the
  `int` range.
* A recursive C++ function whose recursion depth is not bounded by its
  arguments takes a `fuel` argument bounding the call depth and returns
  `none` when the bound is hit.
* An access outside a container (`at`, `operator[]`) and a division of
  integers by zero return `none`.
* Library functions whose result the sources do not fix (`std::sort` among
  equal keys, `Vec3::Norm`) are parameters.
* The worker threads of `Run` take their steps one after another in an order
  given by a schedule; the read and the write of `++mFilesAnalysed` are two
  steps.
-/

namespace SParGeL

/-! ## Application: thread clamps and file partition -/

/-- The thread set-up of `Application::Initialise` (Application.cpp 53-59):
`mNumThreads` is read from the `THREADS` parameter, `mMaxThreads` from
`std::thread::hardware_concurrency()`; the function fails when no hardware
thread is detected, and otherwise a negative or too large `mNumThreads` is
replaced by `mMaxThreads`.  The result is `mNumThreads`. -/
def Initialise (THREADS : Int) (hardware_concurrency : Int) : Option Int :=
  let mNumThreads := THREADS
  let mMaxThreads := hardware_concurrency
  if mMaxThreads ≤ 0 then none
  else
    some (if mNumThreads < 0 ∨ mNumThreads > mMaxThreads then mMaxThreads else mNumThreads)

/-- The dispatch loop of `Application::Run` (Application.cpp 155-163): the
first argument is the number of iterations left, then `pos`,
`mFilesPerThread` and `mRemainder`.  Each iteration emits the `(start, end)`
pair handed to `Application::Analyse`. -/
def RunLoop : Nat → Int → Int → Int → List (Int × Int)
  | 0, _, _, _ => []
  | n + 1, pos, mFilesPerThread, mRemainder =>
    let start := pos
    let «end» := pos + mFilesPerThread + (if mRemainder > 0 then 1 else 0)
    (start, «end») :: RunLoop n «end» mFilesPerThread (mRemainder - 1)

/-- The batch set-up of `Application::Run` (Application.cpp 141-163) for
`mFiles.size() = N` and the `mNumThreads` left by `Initialise`: the clamp to
the file count, the two divisions (a zero divisor is a failure) and the
dispatch loop.  The result lists the `(start, end)` pairs of the workers
`0 .. mNumThreads - 1` in dispatch order. -/
def Run (N : Nat) (mNumThreads : Int) : Option (List (Int × Int)) :=
  let mNumThreads := if (N : Int) < mNumThreads then (N : Int) else mNumThreads
  if mNumThreads = 0 then none
  else
    let mFilesPerThread := (N : Int) / mNumThreads
    let mRemainder := (N : Int) % mNumThreads
    some (RunLoop mNumThreads.toNat 0 mFilesPerThread mRemainder)

/-! ## OpticalDepthOctree -/

/-- A `Vec3` of `FLOAT` components, with exact rational components. -/
structure Vec3 where
  x : ℚ
  y : ℚ
  z : ℚ
deriving DecidableEq

/-- The `Vec3 * FLOAT` operator used in `HalfDimension * 0.5`. -/
def Vec3.scale (v : Vec3) (s : ℚ) : Vec3 := ⟨v.x * s, v.y * s, v.z * s⟩

/-- The payload of a tree node: the fields `pos`, `dens`, `temp` that
`Construct` fills in. -/
structure OpticalDepthPoint where
  pos : Vec3
  dens : ℚ
  temp : ℚ
deriving DecidableEq

/-- The fields of a `Particle` that the tree passes read or write. -/
structure Particle where
  ID : Int
  X : Vec3
  V : Vec3
  M : ℚ
  D : ℚ
  T : ℚ
  R : ℚ
  RealSigma : ℚ
  RealTau : ℚ
deriving DecidableEq

/-- A node of the optical-depth octree: `Origin`, `HalfDimension`, `Data`
(`none` for `NULL`) and the insertion counter `TotalPoints`.  The eight
`Children` slots are filled together by `Insert`, so a node either has all
eight slots `NULL` (`leaf`) or all eight slots set (`inner`).  The `_Next` and
`_More` links are written but never read by `Insert` and `TraverseTree`
and are left out. -/
inductive OpticalDepthOctree where
  | leaf (Origin HalfDimension : Vec3) (Data : Option OpticalDepthPoint) (TotalPoints : Int)
  | inner (Origin HalfDimension : Vec3) (Data : Option OpticalDepthPoint) (TotalPoints : Int)
      (Children : Fin 8 → OpticalDepthOctree)

namespace OpticalDepthOctree

/-- Field `Origin`. -/
def Origin : OpticalDepthOctree → Vec3
  | leaf O _ _ _ => O
  | inner O _ _ _ _ => O

/-- Field `HalfDimension`. -/
def HalfDimension : OpticalDepthOctree → Vec3
  | leaf _ HD _ _ => HD
  | inner _ HD _ _ _ => HD

/-- Field `Data`, `none` for `NULL`. -/
def Data : OpticalDepthOctree → Option OpticalDepthPoint
  | leaf _ _ D _ => D
  | inner _ _ D _ _ => D

/-- Slot `Children[i]`, `none` for `NULL`. -/
def Children : OpticalDepthOctree → Fin 8 → Option OpticalDepthOctree
  | leaf _ _ _ _, _ => none
  | inner _ _ _ _ C, i => some (C i)

/-- Embedding of `OpticalDepthOctree::IsLeafNode`
(OpticalDepthOctree.cpp 157-159): `Children[0] == NULL`. -/
def IsLeafNode (t : OpticalDepthOctree) : Bool := (t.Children 0).isNone

/-- Modelled from the spec: the class declaration (OpticalDepthOctree.h) is
missing, and with it the initial values of the members `Data` and
`TotalPoints`, which the constructor (OpticalDepthOctree.cpp 18-27) does not
set.  The constructor stores `Origin` and `HalfDimension` and sets the eight
`Children` to `NULL`; by the spec a new node is a leaf with no payload, and
its insertion counter starts at 0, so that the test `TotalPoints > 1` after
the increment in `Insert` holds from the second insertion on. -/
def new (O HD : Vec3) : OpticalDepthOctree := leaf O HD none 0

/-- Embedding of `OpticalDepthOctree::GetOctantContainingPoint`
(OpticalDepthOctree.cpp 148-155), for a node with the given `Origin`. -/
def GetOctantContainingPoint (Origin Point : Vec3) : Nat :=
  let Result := 0
  let Result := if Point.x ≥ Origin.x then Result ||| 4 else Result
  let Result := if Point.y ≥ Origin.y then Result ||| 2 else Result
  let Result := if Point.z ≥ Origin.z then Result ||| 1 else Result
  Result

/-- The value `NewOrigin` of child `i` in `Insert` (OpticalDepthOctree.cpp 78-81). -/
def NewOrigin (Origin HalfDimension : Vec3) (i : Nat) : Vec3 :=
  { x := Origin.x + HalfDimension.x * (if i &&& 4 ≠ 0 then 0.5 else -0.5)
    y := Origin.y + HalfDimension.y * (if i &&& 2 ≠ 0 then 0.5 else -0.5)
    z := Origin.z + HalfDimension.z * (if i &&& 1 ≠ 0 then 0.5 else -0.5) }

/-- Embedding of `OpticalDepthOctree::Insert` (OpticalDepthOctree.cpp 67-105).
The first argument is the fuel, a bound on the depth of the recursion; an
index outside `Children[0..7]` is a failure.  The result is the node after the
call. -/
def Insert : Nat → OpticalDepthOctree → OpticalDepthPoint → Option OpticalDepthOctree
  | 0, _, _ => none
  | _ + 1, leaf O HD none TotalPoints, Point => some (leaf O HD (some Point) (TotalPoints + 1))
  | fuel + 1, leaf O HD (some OldPoint) TotalPoints, Point =>
    if TotalPoints + 1 > 1 then
      let Children : Fin 8 → OpticalDepthOctree :=
        fun i => new (NewOrigin O HD i) (HD.scale 0.5)
      if h1 : GetOctantContainingPoint O OldPoint.pos < 8 then
        (Insert fuel (Children ⟨_, h1⟩) OldPoint).bind fun c1 =>
          let Children := Function.update Children ⟨_, h1⟩ c1
          if h2 : GetOctantContainingPoint O Point.pos < 8 then
            (Insert fuel (Children ⟨_, h2⟩) Point).bind fun c2 =>
              some (inner O HD none (TotalPoints + 1) (Function.update Children ⟨_, h2⟩ c2))
          else none
      else none
    else some (leaf O HD (some OldPoint) (TotalPoints + 1))
  | fuel + 1, inner O HD Data TotalPoints Children, Point =>
    if h : GetOctantContainingPoint O Point.pos < 8 then
      (Insert fuel (Children ⟨_, h⟩) Point).bind fun c =>
        some (inner O HD Data (TotalPoints + 1) (Function.update Children ⟨_, h⟩ c))
    else none

/-- A sequence of `Insert` calls on the same tree, in list order. -/
def InsertAll (fuel : Nat) : OpticalDepthOctree → List OpticalDepthPoint → Option OpticalDepthOctree
  | t, [] => some t
  | t, p :: ps => (Insert fuel t p).bind fun t1 => InsertAll fuel t1 ps

/-- The point `Construct` makes of a particle (OpticalDepthOctree.cpp 45-47). -/
def point (P : Particle) : OpticalDepthPoint := { pos := P.X, dens := P.D, temp := P.T }

/-- Embedding of `OpticalDepthOctree::Construct` (OpticalDepthOctree.cpp 40-50):
one point per particle, inserted into `this` in list order. -/
def Construct (fuel : Nat) (t : OpticalDepthOctree) (Particles : List Particle) :
    Option OpticalDepthOctree :=
  InsertAll fuel t (Particles.map point)

/-- Embedding of `OpticalDepthOctree::LinkTree` (OpticalDepthOctree.cpp 107-117):
the nodes of the tree in pre-order. -/
def LinkTree : OpticalDepthOctree → List OpticalDepthOctree
  | leaf O HD D tp => [leaf O HD D tp]
  | inner O HD D tp C => inner O HD D tp C :: (List.finRange 8).flatMap fun i => LinkTree (C i)

/-- The payloads found by walking all nodes in `LinkTree` order and reading
`Data` at each leaf. -/
def LeafPayloads (t : OpticalDepthOctree) : List OpticalDepthPoint :=
  ((LinkTree t).filter IsLeafNode).filterMap Data

/-- Embedding of `OpticalDepthOctree::Intersects` (OpticalDepthOctree.cpp 161-176). -/
def Intersects (Cell : OpticalDepthOctree) (ParticlePos : Vec3) : Bool :=
  let x := ParticlePos.x
  let y := ParticlePos.y
  let l := Cell.Origin.x - Cell.HalfDimension.x
  let r := Cell.Origin.x + Cell.HalfDimension.x
  let b := Cell.Origin.y - Cell.HalfDimension.y
  let t := Cell.Origin.y + Cell.HalfDimension.y
  if x > l ∧ x < r ∧ y > b ∧ y < t then true else false

/-- Embedding of `OpticalDepthOctree::TraverseTree`
(OpticalDepthOctree.cpp 119-146).  The pair is `(Sigma, Tau)`; the constant
`AU_TO_CM` (Definitions.h) and `OpacityTable::GetKappar` are parameters. -/
def TraverseTree (AU_TO_CM : ℚ) (GetKappar : ℚ → ℚ → ℚ) :
    OpticalDepthOctree → Vec3 → ℚ × ℚ → ℚ × ℚ
  | leaf O HD Data tp, ParticlePos, (Sigma, Tau) =>
    if !Intersects (leaf O HD Data tp) ParticlePos then (Sigma, Tau)
    else
      match Data with
      | none => (Sigma, Tau)
      | some d =>
        if d.pos.z < ParticlePos.z then (Sigma, Tau)
        else
          let dens := d.dens
          let temp := d.temp
          (Sigma + dens * HD.z * 2.0 * AU_TO_CM,
           Tau + dens * GetKappar dens temp * HD.z * 2.0 * AU_TO_CM)
  | inner O HD Data tp Children, ParticlePos, acc =>
    if !Intersects (inner O HD Data tp Children) ParticlePos then acc
    else
      (List.finRange 8).foldl
        (fun a i => TraverseTree AU_TO_CM GetKappar (Children i) ParticlePos a) acc

/-! ## Auxiliary definitions -/

/-- Closed bounding box `Origin ± HalfDimension` on the three axes. -/
def InBox (O HD P : Vec3) : Prop :=
  (O.x - HD.x ≤ P.x ∧ P.x ≤ O.x + HD.x) ∧ (O.y - HD.y ≤ P.y ∧ P.y ≤ O.y + HD.y) ∧
    (O.z - HD.z ≤ P.z ∧ P.z ≤ O.z + HD.z)

instance (O HD P : Vec3) : Decidable (InBox O HD P) := by unfold InBox; infer_instance

/-- Payloads of the leaves, by recursion on the tree. -/
def leafData : OpticalDepthOctree → List OpticalDepthPoint
  | leaf _ _ D _ => D.toList
  | inner _ _ _ _ C => (List.finRange 8).flatMap fun i => leafData (C i)

/-- Geometry of a tree: the insertion counter of a leaf is not negative, a
stored payload lies in the closed box of its leaf and was counted, and every
child is the octant of its parent selected by its index. -/
def Geom : OpticalDepthOctree → Prop
  | leaf O HD D tp => 0 ≤ tp ∧ ∀ q, D = some q → InBox O HD q.pos ∧ 1 ≤ tp
  | inner O HD _ _ C =>
    ∀ i : Fin 8, (C i).Origin = NewOrigin O HD i ∧ (C i).HalfDimension = HD.scale 0.5 ∧ Geom (C i)

/-- No node of the tree has both a payload and children. -/
def NoPayloadInside : OpticalDepthOctree → Prop
  | leaf _ _ _ _ => True
  | inner _ _ D _ C => D = none ∧ ∀ i : Fin 8, NoPayloadInside (C i)

/-- The point `O + (±d, ±d, ±d)`; `true` selects `+d` on that axis. -/
def corner (O : Vec3) (d : ℚ) (s : Bool × Bool × Bool) : Vec3 :=
  { x := O.x + (if s.1 then d else -d)
    y := O.y + (if s.2.1 then d else -d)
    z := O.z + (if s.2.2 then d else -d) }

/-- Two positions are separated at scale `n` in a box of half-extent `HD`:
on some axis they are further apart than the side of a box halved `n` times. -/
def Separated (n : Nat) (HD a b : Vec3) : Prop :=
  2 * HD.x < 2 ^ n * |a.x - b.x| ∨ 2 * HD.y < 2 ^ n * |a.y - b.y| ∨ 2 * HD.z < 2 ^ n * |a.z - b.z|

/-- The octant of a point as an index into `Children`. -/
def octant (O P : Vec3) : Fin 8 :=
  if h : GetOctantContainingPoint O P < 8 then ⟨GetOctantContainingPoint O P, h⟩ else 0

/-- The octree made by `Application::FindOpticalDepth`
(Application.cpp 378-381). -/
def FindOpticalDepth_octree : OpticalDepthOctree :=
  new ⟨0.0, 0.0, 0.0⟩ ⟨1024.0, 1024.0, 1024.0⟩

/-- Three particles of densities 1, 2, 3 and temperatures 10, 20, 30 at the
common `(x, y)` with `z = 1, 1/2, -1/2`. -/
def scenarioParticles (x y : ℚ) : List Particle :=
  [ { ID := 1, X := ⟨x, y, 1⟩, V := ⟨0, 0, 0⟩, M := 1, D := 1, T := 10, R := 0,
      RealSigma := 0, RealTau := 0 },
    { ID := 2, X := ⟨x, y, 1 / 2⟩, V := ⟨0, 0, 0⟩, M := 1, D := 2, T := 20, R := 0,
      RealSigma := 0, RealTau := 0 },
    { ID := 3, X := ⟨x, y, -1 / 2⟩, V := ⟨0, 0, 0⟩, M := 1, D := 3, T := 30, R := 0,
      RealSigma := 0, RealTau := 0 } ]

/-- The leaves that hold a payload, in `LinkTree` order, each with its payload
and its `HalfDimension.z`. -/
def PayloadCells (t : OpticalDepthOctree) : List (OpticalDepthPoint × ℚ) :=
  ((LinkTree t).filter IsLeafNode).filterMap fun n => n.Data.map fun d => (d, n.HalfDimension.z)

/-- The leaves whose payload `TraverseTree` adds to the accumulators for the
query position, in visiting order, each with its payload and its
`HalfDimension.z`. -/
def Contributing : OpticalDepthOctree → Vec3 → List (OpticalDepthPoint × ℚ)
  | leaf O HD Data tp, ParticlePos =>
    if !Intersects (leaf O HD Data tp) ParticlePos then []
    else
      match Data with
      | none => []
      | some d => if d.pos.z < ParticlePos.z then [] else [(d, HD.z)]
  | inner O HD Data tp Children, ParticlePos =>
    if !Intersects (inner O HD Data tp Children) ParticlePos then []
    else (List.finRange 8).flatMap fun i => Contributing (Children i) ParticlePos

/-- Column-density term of one contributing leaf. -/
def sigmaTerm (AU_TO_CM : ℚ) (c : OpticalDepthPoint × ℚ) : ℚ :=
  c.1.dens * c.2 * 2.0 * AU_TO_CM

/-- Optical-depth term of one contributing leaf. -/
def tauTerm (AU_TO_CM : ℚ) (GetKappar : ℚ → ℚ → ℚ) (c : OpticalDepthPoint × ℚ) : ℚ :=
  c.1.dens * GetKappar c.1.dens c.1.temp * c.2 * 2.0 * AU_TO_CM

end OpticalDepthOctree

/-- Number of workers before worker `i` that were handed one extra file when
the remainder counter started at `r`. -/
def extraBefore (r : Int) (i : Nat) : Int := min (i : Int) (max r 0)

/-! ## Application: FindOpticalDepth and Analyse -/

/-- The loop `for (i = 0; i < src.size(); ++i) dst[i + offset] = src[i]`; the
second argument is the index `i + offset` of the next write. -/
def writeFrom {α : Type} : List α → Nat → List α → List α
  | dst, _, [] => dst
  | dst, k, a :: src => writeFrom (dst.set k a) (k + 1) src

/-- What a worker does with a file: the call of `Read` and the pass through
the rest of the pipeline of `Application::Analyse`. -/
inductive AnalyseEvent where
  | Read (i : Int)
  | Pipeline (i : Int)
deriving DecidableEq

/-- The loop of `Application::Analyse` (Application.cpp 180-231): the first
argument is the number of iterations left, then the loop variable `i`, the
events so far and `mFilesAnalysed`.  `mFiles.at(i)` outside `0 .. N-1` throws
(`none`); a failed `Read` leaves the loop. -/
def AnalyseLoop (N : Nat) (mGeneratorNull : Bool) (Read : Int → Bool) :
    Nat → Int → List AnalyseEvent × Int → Option (List AnalyseEvent × Int)
  | 0, _, s => some s
  | n + 1, i, (events, mFilesAnalysed) =>
    if i < 0 ∨ (N : Int) ≤ i then none
    else if mGeneratorNull then
      if !Read i then some (events ++ [AnalyseEvent.Read i], mFilesAnalysed)
      else
        AnalyseLoop N mGeneratorNull Read n (i + 1)
          (events ++ [AnalyseEvent.Read i, AnalyseEvent.Pipeline i], mFilesAnalysed + 1)
    else
      AnalyseLoop N mGeneratorNull Read n (i + 1)
        (events ++ [AnalyseEvent.Pipeline i], mFilesAnalysed + 1)

/-- Embedding of `Application::Analyse(task, start, end)` (Application.cpp 179-232)
for `mFiles.size() = N`: `mGeneratorNull` is `mGenerator == NULL`, `Read i` the
result of `mFiles.at(i)->Read()`.  The result is the list of events of this
worker and the value of `mFilesAnalysed` after it. -/
def Analyse (N : Nat) (mGeneratorNull : Bool) (Read : Int → Bool) (mFilesAnalysed : Int)
    (start «end» : Int) : Option (List AnalyseEvent × Int) :=
  AnalyseLoop N mGeneratorNull Read («end» - start).toNat start ([], mFilesAnalysed)

/-! ## Generator: the points of the gravity octree -/

/-- The sink fields that the passes read or write. -/
structure Sink where
  ID : Int
  X : Vec3
  V : Vec3
  M : ℚ
  R : ℚ
deriving DecidableEq

/-- A point of the gravity octree: position and mass. -/
structure OctreePoint where
  position : Vec3
  mass : ℚ
deriving DecidableEq

/-- The two insertion loops of `Generator::CalculateVelocity`
(Generator.cpp 253-272).  The array `mOctreePoints` has
`mParticles.size() + mSinks.size()` entries, here filled with the value `init`
of a default-constructed `OctreePoint`; each loop writes `mOctreePoints[i]`
and inserts the pointer `mOctreePoints + i`.  The result is the array and the
indices of the inserted pointers, in order, when the first acceleration query
is made. -/
def CalculateVelocity_points (init : OctreePoint) (mParticles : List Particle)
    (mSinks : List Sink) : List OctreePoint × List Nat :=
  let mOctreePoints := List.replicate (mParticles.length + mSinks.length) init
  let mOctreePoints :=
    writeFrom mOctreePoints 0 (mParticles.map fun p => { position := p.X, mass := p.M })
  let inserted := List.range mParticles.length
  let mOctreePoints :=
    writeFrom mOctreePoints 0 (mSinks.map fun s => { position := s.X, mass := s.M })
  let inserted := inserted ++ List.range mSinks.length
  (mOctreePoints, inserted)

/-! ## DiscAnalyser: centering -/

/-- The operator `Vec3 - Vec3`. -/
def Vec3.sub (a b : Vec3) : Vec3 := ⟨a.x - b.x, a.y - b.y, a.z - b.z⟩

/-- The operator `Vec3 + Vec3`. -/
def Vec3.add (a b : Vec3) : Vec3 := ⟨a.x + b.x, a.y + b.y, a.z + b.z⟩

/-- The operator `Vec3 / FLOAT`. -/
def Vec3.div (v : Vec3) (s : ℚ) : Vec3 := ⟨v.x / s, v.y / s, v.z / s⟩

/-- The unchecked access `v[i]` with an `int` index: `none` outside
`0 .. size-1`. -/
def index? {α : Type} (v : List α) (i : Int) : Option α :=
  if i < 0 then none else v[i.toNat]?

/-- The loop over the densest particles in `DiscAnalyser::Center`
(DiscAnalyser.cpp 45-50): the first argument is the number of iterations
left, then `i` and `(dX, dV, total_mass)`; `dens_sorted.at(i)` outside the
list throws (`none`). -/
def CenterDensestLoop (dens_sorted : List Particle) :
    Nat → Nat → Vec3 × Vec3 × ℚ → Option (Vec3 × Vec3 × ℚ)
  | 0, _, s => some s
  | n + 1, i, (dX, dV, total_mass) =>
    match dens_sorted[i]? with
    | none => none
    | some p =>
      CenterDensestLoop dens_sorted n (i + 1)
        (dX.add (p.X.scale p.M), dV.add (p.V.scale p.M), total_mass + p.M)

/-- The early-return test of `DiscAnalyser::Center` (DiscAnalyser.cpp 31-32). -/
def CenterReturnsEarly (Norm : Vec3 → ℚ) (sink : List Sink) (sinkIndex : Int)
    (posCenter : Vec3) (densest : Int) : Bool :=
  decide (Norm posCenter = 0.0) && (decide (sinkIndex < 0) || decide (sinkIndex ≥ sink.length))
    && decide (densest = 0)

/-- Embedding of `DiscAnalyser::Center` (DiscAnalyser.cpp 22-88).  `Norm` is
`Vec3::Norm`, the second argument `std::sort` with the given comparator and
`CENTER_DENSEST_NUM` the parameter of that name.  The result is the pair of
lists given to `SetParticles` and `SetSinks` (the lists as they were on the
early return), and `none` when an index is out of range. -/
def Center (Norm : Vec3 → ℚ)
    (sort : (Particle → Particle → Bool) → List Particle → List Particle)
    (CENTER_DENSEST_NUM : Int) (part : List Particle) (sink : List Sink) (sinkIndex : Int)
    (posCenter : Vec3) (densest : Int) : Option (List Particle × List Sink) :=
  let dX0 : Vec3 := ⟨0.0, 0.0, 0.0⟩
  let dV0 : Vec3 := ⟨0.0, 0.0, 0.0⟩
  if CenterReturnsEarly Norm sink sinkIndex posCenter densest then some (part, sink)
  else
    let centre : Option (Vec3 × Vec3) :=
      if densest ≠ 0 then
        let dens_sorted := sort (fun a b => decide (b.D < a.D)) part
        let n_part := max 1 CENTER_DENSEST_NUM
        (CenterDensestLoop dens_sorted n_part.toNat 0 (dX0, dV0, 0.0)).map fun r =>
          (r.1.div r.2.2, r.2.1.div r.2.2)
      else
        let dX : Option Vec3 :=
          if Norm posCenter = 0.0 then (index? sink sinkIndex).map fun s => s.X
          else some posCenter
        dX.bind fun dX =>
          if dX.z = 0.0 then
            (index? sink sinkIndex).map fun s => (({ dX with z := s.X.z } : Vec3), dV0)
          else some (dX, dV0)
    centre.bind fun c =>
      let dX := c.1
      let dV := c.2
      let part := part.map fun p =>
        let newX := p.X.sub dX
        let newV := p.V.sub dV
        { p with X := newX, R := Norm newX, V := newV }
      let sink := sink.map fun s =>
        let newX := s.X.sub dX
        { s with X := newX, R := Norm newX }
      (index? sink 0).map fun _ => (part, sink)

/-! ## Auxiliary definitions: later properties -/

/-- Insertion sort by the comparator, one of the results `std::sort` may give. -/
def insertionSortBy (cmp : Particle → Particle → Bool) (l : List Particle) : List Particle :=
  l.insertionSort fun a b => cmp a b = true

/-- The sum of the absolute values of the components, a norm on `Vec3` with
rational values. -/
def Vec3.norm1 (v : Vec3) : ℚ := |v.x| + |v.y| + |v.z|

/-- The events of a worker that reads and processes the `n` files from
`start` on. -/
def processedEvents (start : Int) (n : Nat) : List AnalyseEvent :=
  (List.range n).flatMap fun d =>
    [AnalyseEvent.Read (start + d), AnalyseEvent.Pipeline (start + d)]

namespace OpticalDepthOctree

/-- Every child of the tree is the octant of its parent selected by its index:
half the half-extent, origin at `NewOrigin`. -/
def Octants : OpticalDepthOctree → Prop
  | leaf _ _ _ _ => True
  | inner O HD _ _ C =>
    ∀ i : Fin 8, (C i).Origin = NewOrigin O HD i ∧ (C i).HalfDimension = HD.scale 0.5 ∧
      Octants (C i)

/-- Following the words of the claim on `Walk`: the payload-bearing leaves, in
`LinkTree` order, whose `(x, y)` rectangle strictly contains the `(x, y)` of
the query and whose payload `z` is at least the `z` of the query, each with
its payload and its `HalfDimension.z`.  No pruning on internal nodes. -/
def SpecColumnCells (t : OpticalDepthOctree) (q : Vec3) : List (OpticalDepthPoint × ℚ) :=
  ((LinkTree t).filter IsLeafNode).filterMap fun n =>
    n.Data.bind fun d =>
      if (n.Origin.x - n.HalfDimension.x < q.x ∧ q.x < n.Origin.x + n.HalfDimension.x ∧
          n.Origin.y - n.HalfDimension.y < q.y ∧ q.y < n.Origin.y + n.HalfDimension.y) ∧
          d.pos.z ≥ q.z then
        some (d, n.HalfDimension.z)
      else none

/-- The list `SpecColumnCells`, by recursion on the tree. -/
def specCells : OpticalDepthOctree → Vec3 → List (OpticalDepthPoint × ℚ)
  | leaf O HD D _, q =>
    match D with
    | none => []
    | some d =>
      if (O.x - HD.x < q.x ∧ q.x < O.x + HD.x ∧ O.y - HD.y < q.y ∧ q.y < O.y + HD.y) ∧
          d.pos.z ≥ q.z then
        [(d, HD.z)]
      else []
  | inner _ _ _ _ C, q => (List.finRange 8).flatMap fun i => specCells (C i) q

end OpticalDepthOctree

/-! ## FLOAT arithmetic -/

/-- The least `B`, counted from the given one, with `n < 2 ^ 2 ^ B`; the first
argument bounds the number of steps. -/
def bitBound (n : Nat) : Nat → Nat → Nat
  | 0, B => B
  | fuel + 1, B =>
    bif Nat.blt n (Nat.pow 2 (Nat.pow 2 B)) then B else bitBound n fuel (Nat.succ B)

/-- Binary search for the largest exponent `k1 ≥ k` with `2 ^ k1 ≤ n` among
`k .. k + 2 ^ b - 1`. -/
def log2Search (n : Nat) : Nat → Nat → Nat
  | 0, k => k
  | b + 1, k =>
    bif Nat.ble (Nat.pow 2 (Nat.add k (Nat.pow 2 b))) n then
      log2Search n b (Nat.add k (Nat.pow 2 b))
    else log2Search n b k

/-- The position of the highest set bit: for `n ≥ 1` the `k` with
`2 ^ k ≤ n < 2 ^ (k + 1)`. -/
def log2 (n : Nat) : Nat := log2Search n (bitBound n n 0) 0

/-- The exponent of the binade of `n / d` for `n, d ≥ 1`: the integer `k` with
`2 ^ k ≤ n / d < 2 ^ (k + 1)`. -/
def floorLog2 (n d : Nat) : Int :=
  let a := log2 n
  let b := log2 d
  bif Nat.ble b a then
    bif Nat.ble (Nat.mul (Nat.pow 2 (Nat.sub a b)) d) n then Int.ofNat (Nat.sub a b)
    else Int.subNatNat (Nat.sub a b) 1
  else
    bif Nat.ble d (Nat.mul (Nat.pow 2 (Nat.sub b a)) n) then Int.negOfNat (Nat.sub b a)
    else Int.negOfNat (Nat.succ (Nat.sub b a))

/-- The integer nearest to `n / d`, the even one of the two when `n / d` is
half-way between them. -/
def roundHalfEven (n d : Nat) : Nat :=
  let q := Nat.div n d
  let r := Nat.mod n d
  bif Nat.blt (Nat.mul 2 r) d then q
  else bif Nat.blt d (Nat.mul 2 r) then Nat.succ q
  else bif Nat.beq (Nat.mod q 2) 0 then q else Nat.succ q

/-- Rounding of the positive rational `n / d` to binary64: the unit in the last
place is `2 ^ e` with `e` the exponent of the binade less 52, and not below
`-1074`, the exponent of the least subnormal number. -/
def binary64Abs (n d : Nat) : ℚ :=
  match max (floorLog2 n d - 52) (-1074) with
  | Int.ofNat s => ((Nat.mul (roundHalfEven n (Nat.mul d (Nat.pow 2 s))) (Nat.pow 2 s) : Nat) : ℚ)
  | Int.negSucc s =>
    mkRat (roundHalfEven (Nat.mul n (Nat.pow 2 (Nat.succ s))) d) (Nat.pow 2 (Nat.succ s))

/-- The value of a rational in `double` arithmetic: rounding to the nearest
IEEE 754 binary64 number, ties to even (53 significant bits, subnormal numbers
down to `2 ^ -1074`).  The typedef `FLOAT` is declared in Definitions.h, which
is not part of the sources at hand; it is taken to be `double`.  Rounding to
infinity above the largest finite number is not modelled: the exponent is not
bounded above, and no property below uses a value of that size. -/
def binary64 (x : ℚ) : ℚ :=
  match x.num with
  | Int.ofNat 0 => 0
  | Int.ofNat (n + 1) => binary64Abs (n + 1) x.den
  | Int.negSucc n => -binary64Abs (n + 1) x.den

/-- The `Vec3 * FLOAT` operator used in `HalfDimension * 0.5`, each product
rounded by `fl`. -/
def Vec3.scaleF (fl : ℚ → ℚ) (v : Vec3) (s : ℚ) : Vec3 := ⟨fl (v.x * s), fl (v.y * s), fl (v.z * s)⟩

namespace OpticalDepthOctree

/-! ## OpticalDepthOctree in FLOAT arithmetic

The functions with the suffix `F` are the embeddings of the functions of the
same name with every `FLOAT` operation of the source (a product, a sum, a
difference) followed by the rounding `fl`; comparisons and negations are exact.
With `fl = id` they are the functions without the suffix. -/

/-- The value `NewOrigin` of child `i` in `Insert` (OpticalDepthOctree.cpp 78-81)
in FLOAT arithmetic: the product `HalfDimension.x * (±0.5)` is rounded, then
the sum of `+=`. -/
def NewOriginF (fl : ℚ → ℚ) (Origin HalfDimension : Vec3) (i : Nat) : Vec3 :=
  { x := fl (Origin.x + fl (HalfDimension.x * (if i &&& 4 ≠ 0 then 0.5 else -0.5)))
    y := fl (Origin.y + fl (HalfDimension.y * (if i &&& 2 ≠ 0 then 0.5 else -0.5)))
    z := fl (Origin.z + fl (HalfDimension.z * (if i &&& 1 ≠ 0 then 0.5 else -0.5))) }

/-- Embedding of `OpticalDepthOctree::Insert` (OpticalDepthOctree.cpp 67-105) in
FLOAT arithmetic.  The second argument is the fuel, a bound on the depth of
the recursion; an index outside `Children[0..7]` is a failure.  The result is
the node after the call. -/
def InsertF (fl : ℚ → ℚ) :
    Nat → OpticalDepthOctree → OpticalDepthPoint → Option OpticalDepthOctree
  | 0, _, _ => none
  | _ + 1, leaf O HD none TotalPoints, Point => some (leaf O HD (some Point) (TotalPoints + 1))
  | fuel + 1, leaf O HD (some OldPoint) TotalPoints, Point =>
    if TotalPoints + 1 > 1 then
      let Children : Fin 8 → OpticalDepthOctree :=
        fun i => new (NewOriginF fl O HD i) (HD.scaleF fl 0.5)
      if h1 : GetOctantContainingPoint O OldPoint.pos < 8 then
        (InsertF fl fuel (Children ⟨_, h1⟩) OldPoint).bind fun c1 =>
          let Children := Function.update Children ⟨_, h1⟩ c1
          if h2 : GetOctantContainingPoint O Point.pos < 8 then
            (InsertF fl fuel (Children ⟨_, h2⟩) Point).bind fun c2 =>
              some (inner O HD none (TotalPoints + 1) (Function.update Children ⟨_, h2⟩ c2))
          else none
      else none
    else some (leaf O HD (some OldPoint) (TotalPoints + 1))
  | fuel + 1, inner O HD Data TotalPoints Children, Point =>
    if h : GetOctantContainingPoint O Point.pos < 8 then
      (InsertF fl fuel (Children ⟨_, h⟩) Point).bind fun c =>
        some (inner O HD Data (TotalPoints + 1) (Function.update Children ⟨_, h⟩ c))
    else none

/-- A sequence of `Insert` calls on the same tree, in list order, in FLOAT
arithmetic. -/
def InsertAllF (fl : ℚ → ℚ) (fuel : Nat) :
    OpticalDepthOctree → List OpticalDepthPoint → Option OpticalDepthOctree
  | t, [] => some t
  | t, p :: ps => (InsertF fl fuel t p).bind fun t1 => InsertAllF fl fuel t1 ps

/-- Embedding of `OpticalDepthOctree::Construct` (OpticalDepthOctree.cpp 40-50)
in FLOAT arithmetic: one point per particle, inserted into `this` in list
order. -/
def ConstructF (fl : ℚ → ℚ) (fuel : Nat) (t : OpticalDepthOctree) (Particles : List Particle) :
    Option OpticalDepthOctree :=
  InsertAllF fl fuel t (Particles.map point)

/-- Embedding of `OpticalDepthOctree::Intersects` (OpticalDepthOctree.cpp 161-176)
in FLOAT arithmetic: the four edges are rounded. -/
def IntersectsF (fl : ℚ → ℚ) (Cell : OpticalDepthOctree) (ParticlePos : Vec3) : Bool :=
  let x := ParticlePos.x
  let y := ParticlePos.y
  let l := fl (Cell.Origin.x - Cell.HalfDimension.x)
  let r := fl (Cell.Origin.x + Cell.HalfDimension.x)
  let b := fl (Cell.Origin.y - Cell.HalfDimension.y)
  let t := fl (Cell.Origin.y + Cell.HalfDimension.y)
  if x > l ∧ x < r ∧ y > b ∧ y < t then true else false

/-- Embedding of `OpticalDepthOctree::TraverseTree`
(OpticalDepthOctree.cpp 119-146) in FLOAT arithmetic.  The pair is
`(Sigma, Tau)`; the products of `dens * HalfDimension.z * 2.0 * AU_TO_CM` are
taken from left to right, each rounded, then the sum of `+=`. -/
def TraverseTreeF (fl : ℚ → ℚ) (AU_TO_CM : ℚ) (GetKappar : ℚ → ℚ → ℚ) :
    OpticalDepthOctree → Vec3 → ℚ × ℚ → ℚ × ℚ
  | leaf O HD Data tp, ParticlePos, (Sigma, Tau) =>
    if !IntersectsF fl (leaf O HD Data tp) ParticlePos then (Sigma, Tau)
    else
      match Data with
      | none => (Sigma, Tau)
      | some d =>
        if d.pos.z < ParticlePos.z then (Sigma, Tau)
        else
          let dens := d.dens
          let temp := d.temp
          (fl (Sigma + fl (fl (fl (dens * HD.z) * 2.0) * AU_TO_CM)),
           fl (Tau + fl (fl (fl (fl (dens * GetKappar dens temp) * HD.z) * 2.0) * AU_TO_CM)))
  | inner O HD Data tp Children, ParticlePos, acc =>
    if !IntersectsF fl (inner O HD Data tp Children) ParticlePos then acc
    else
      (List.finRange 8).foldl
        (fun a i => TraverseTreeF fl AU_TO_CM GetKappar (Children i) ParticlePos a) acc

/-- Embedding of `OpticalDepthOctree::Walk` (OpticalDepthOctree.cpp 52-65) in
FLOAT arithmetic. -/
def WalkF (fl : ℚ → ℚ) (AU_TO_CM : ℚ) (GetKappar : ℚ → ℚ → ℚ) (t : OpticalDepthOctree)
    (Particles : List Particle) : List Particle :=
  Particles.map fun P =>
    let Pos := P.X
    let r := TraverseTreeF fl AU_TO_CM GetKappar t Pos (0.0, 0.0)
    { P with RealSigma := r.1, RealTau := r.2 }

/-- The cells on the way of the point `P` from the node `(O, HD)` down `n`
levels are computed without rounding: at each level the halved half-extent and
the origins of the eight children are the exact values, and so on in the child
that holds `P`. -/
def ExactCells (fl : ℚ → ℚ) : Nat → Vec3 → Vec3 → Vec3 → Prop
  | 0, _, _, _ => True
  | n + 1, O, HD, P =>
    HD.scaleF fl 0.5 = HD.scale 0.5 ∧ (∀ i : Fin 8, NewOriginF fl O HD i = NewOrigin O HD i) ∧
      ExactCells fl n (NewOrigin O HD (octant O P)) (HD.scale 0.5) P

instance ExactCells.instDecidable (fl : ℚ → ℚ) :
    ∀ (n : Nat) (O HD P : Vec3), Decidable (ExactCells fl n O HD P)
  | 0, _, _, _ => isTrue trivial
  | n + 1, O, HD, P =>
    have := ExactCells.instDecidable fl n (NewOrigin O HD (octant O P)) (HD.scale 0.5) P
    inferInstanceAs (Decidable (_ ∧ _ ∧ _))

/-- The four edges that `Intersects` computes for the node are the exact
values. -/
def ExactEdges (fl : ℚ → ℚ) (n : OpticalDepthOctree) : Prop :=
  fl (n.Origin.x - n.HalfDimension.x) = n.Origin.x - n.HalfDimension.x ∧
  fl (n.Origin.x + n.HalfDimension.x) = n.Origin.x + n.HalfDimension.x ∧
  fl (n.Origin.y - n.HalfDimension.y) = n.Origin.y - n.HalfDimension.y ∧
  fl (n.Origin.y + n.HalfDimension.y) = n.Origin.y + n.HalfDimension.y

instance (fl : ℚ → ℚ) (n : OpticalDepthOctree) : Decidable (ExactEdges fl n) := by
  unfold ExactEdges; infer_instance

/-- Insertion counters as `Insert` leaves them: the counter of a leaf is not
negative, and at least 1 when the leaf holds a payload. -/
def Counted : OpticalDepthOctree → Prop
  | leaf _ _ D tp => 0 ≤ tp ∧ (D ≠ none → 1 ≤ tp)
  | inner _ _ _ _ C => ∀ i : Fin 8, Counted (C i)

/-- Every internal node has a payload in some leaf below it. -/
def InnerNonEmpty : OpticalDepthOctree → Prop
  | leaf _ _ _ _ => True
  | inner O HD D tp C => leafData (inner O HD D tp C) ≠ [] ∧ ∀ i : Fin 8, InnerNonEmpty (C i)

/-- The column-density term of one leaf in FLOAT arithmetic. -/
def sigmaTermF (fl : ℚ → ℚ) (AU_TO_CM : ℚ) (c : OpticalDepthPoint × ℚ) : ℚ :=
  fl (fl (fl (c.1.dens * c.2) * 2.0) * AU_TO_CM)

/-- The optical-depth term of one leaf in FLOAT arithmetic. -/
def tauTermF (fl : ℚ → ℚ) (AU_TO_CM : ℚ) (GetKappar : ℚ → ℚ → ℚ) (c : OpticalDepthPoint × ℚ) :
    ℚ :=
  fl (fl (fl (fl (c.1.dens * GetKappar c.1.dens c.1.temp) * c.2) * 2.0) * AU_TO_CM)

/-- The leaves whose payload `TraverseTree` adds to the accumulators in FLOAT
arithmetic, in visiting order, each with its payload and its
`HalfDimension.z`. -/
def ContributingF (fl : ℚ → ℚ) : OpticalDepthOctree → Vec3 → List (OpticalDepthPoint × ℚ)
  | leaf O HD Data tp, ParticlePos =>
    if !IntersectsF fl (leaf O HD Data tp) ParticlePos then []
    else
      match Data with
      | none => []
      | some d => if d.pos.z < ParticlePos.z then [] else [(d, HD.z)]
  | inner O HD Data tp Children, ParticlePos =>
    if !IntersectsF fl (inner O HD Data tp Children) ParticlePos then []
    else (List.finRange 8).flatMap fun i => ContributingF fl (Children i) ParticlePos

end OpticalDepthOctree

namespace OpticalDepthOctree

/-- The cell `Insert` reaches from the leaf `(Origin, HalfDimension)` after `n`
levels of its descent with the payload `old` and the new point `p`
(OpticalDepthOctree.cpp 85-96: the child of the payload's octant, with
`NewOrigin` and `HalfDimension * 0.5`), as long as both points fall in the
same octant of every cell on the way; `none` when they part earlier. -/
def descendF (fl : ℚ → ℚ) (old p : Vec3) : Nat → Vec3 × Vec3 → Option (Vec3 × Vec3)
  | 0, c => some c
  | n + 1, (O, HD) =>
    if octant O p = octant O old then
      descendF fl old p n (NewOriginF fl O HD (octant O old), HD.scaleF fl 0.5)
    else none

instance (n : Nat) (HD a b : Vec3) : Decidable (Separated n HD a b) := by
  unfold Separated; infer_instance

/-- The least positive `double`, `2 ^ -1074`. -/
def minSubnormal : ℚ := mkRat 1 (2 ^ 1074)

end OpticalDepthOctree

/-! ## Application: the workers of `Run` side by side -/

/-- A worker thread inside `Application::Analyse(task, start, end)`: the loop
variable `i`, the bound `end`, the value of `mFilesAnalysed` that
`++mFilesAnalysed` has read and not yet written back (`none` outside the
increment), whether the thread is still inside the function, and its events
so far. -/
structure AnalyseThread where
  i : Int
  «end» : Int
  loaded : Option Int
  running : Bool
  events : List AnalyseEvent

/-- One step of a worker thread on the shared member `mFilesAnalysed`
(Application.cpp 180-231).  `++mFilesAnalysed` on a plain member is a read
followed by a write, and nothing in the sources orders the accesses of
different threads, so the two are separate steps: a thread outside the
increment runs one iteration of the loop up to the read of `mFilesAnalysed`
(loop test, `Read`, pipeline), a thread inside the increment writes the value
it has read plus one and moves to the next `i`.  A thread that has left the
function does nothing; `mFiles.at(i)` outside `0 .. N-1` throws (`none`). -/
def AnalyseStep (N : Nat) (mGeneratorNull : Bool) (Read : Int → Bool) (th : AnalyseThread)
    (mFilesAnalysed : Int) : Option (AnalyseThread × Int) :=
  if !th.running then some (th, mFilesAnalysed)
  else
    match th.loaded with
    | some v => some ({ th with loaded := none, i := th.i + 1 }, v + 1)
    | none =>
      if ¬ th.i < th.«end» then some ({ th with running := false }, mFilesAnalysed)
      else if th.i < 0 ∨ (N : Int) ≤ th.i then none
      else if mGeneratorNull then
        if !Read th.i then
          some ({ th with running := false, events := th.events ++ [AnalyseEvent.Read th.i] },
            mFilesAnalysed)
        else
          some ({ th with
                  loaded := some mFilesAnalysed
                  events := th.events ++ [AnalyseEvent.Read th.i, AnalyseEvent.Pipeline th.i] },
            mFilesAnalysed)
      else
        some ({ th with
                loaded := some mFilesAnalysed
                events := th.events ++ [AnalyseEvent.Pipeline th.i] },
          mFilesAnalysed)

/-- The threads that `Application::Run` starts (Application.cpp 155-163), one
per dispatched range, all on the same object; an index beyond the ranges
stands for no thread. -/
def startThreads (ranges : List (Int × Int)) : Nat → AnalyseThread :=
  fun w =>
    match ranges[w]? with
    | some r => { i := r.1, «end» := r.2, loaded := none, running := true, events := [] }
    | none => { i := 0, «end» := 0, loaded := none, running := false, events := [] }

/-- The threads of `Run` between their start and the join, under a schedule:
the list names, step by step, the thread that takes the next step.  The state
is the threads and the shared `mFilesAnalysed`. -/
def RunThreads (N : Nat) (mGeneratorNull : Bool) (Read : Int → Bool) :
    List Nat → (Nat → AnalyseThread) × Int → Option ((Nat → AnalyseThread) × Int)
  | [], s => some s
  | w :: schedule, (threads, mFilesAnalysed) =>
    (AnalyseStep N mGeneratorNull Read (threads w) mFilesAnalysed).bind fun r =>
      RunThreads N mGeneratorNull Read schedule (Function.update threads w r.1, r.2)

/-- The events of a worker that has left `Analyse` with no generator, when `k`
is the first index of its range whose `Read` fails, or `end`. -/
def finishedEvents (start «end» k : Int) : List AnalyseEvent :=
  processedEvents start (k - start).toNat ++ (if k < «end» then [AnalyseEvent.Read k] else [])

/-- What holds of a worker thread of the range `start .. end-1` at every moment
when `k` is the first index whose `Read` fails, or `end`. -/
def ThreadOK (start «end» k : Int) (th : AnalyseThread) : Prop :=
  th.«end» = «end» ∧
    if th.running then
      match th.loaded with
      | none => start ≤ th.i ∧ th.i ≤ k ∧ th.events = processedEvents start (th.i - start).toNat
      | some _ =>
        start ≤ th.i ∧ th.i < k ∧ th.events = processedEvents start (th.i + 1 - start).toNat
    else th.loaded = none ∧ th.events = finishedEvents start «end» k

/-- A worker thread that cannot throw: its loop variable is not negative and
its bound is at most the number of files. -/
def ThreadSafe (N : Nat) (th : AnalyseThread) : Prop := 0 ≤ th.i ∧ th.«end» ≤ N

/-! ## Helper lemmas: partition -/

theorem RunLoop_length (n : Nat) (pos f r : Int) : (RunLoop n pos f r).length = n := by
  induction n generalizing pos r with
  | zero => simp [RunLoop]
  | succ n ih => simp [RunLoop, ih]

theorem RunLoop_getElem? (n : Nat) (f : Int) :
    ∀ (pos r : Int) (i : Nat), i < n →
      (RunLoop n pos f r)[i]? =
        some (pos + i * f + extraBefore r i, pos + (i + 1) * f + extraBefore r (i + 1)) := by
  induction n with
  | zero => intro pos r i hi; omega
  | succ n ih =>
    intro pos r i hi
    cases i with
    | zero =>
      simp only [RunLoop, List.getElem?_cons_zero, extraBefore]
      congr 1
      refine Prod.ext ?_ ?_
      · simp
      · simp only [Nat.cast_zero, zero_add, one_mul, Nat.cast_one]
        split_ifs with h <;> omega
    | succ j =>
      simp only [RunLoop, List.getElem?_cons_succ]
      rw [ih _ _ j (by omega)]
      congr 1
      have e1 : (if r > 0 then (1 : Int) else 0) + extraBefore (r - 1) j = extraBefore r (j + 1) := by
        simp only [extraBefore]; push_cast; split_ifs with h <;> omega
      have e2 : (if r > 0 then (1 : Int) else 0) + extraBefore (r - 1) (j + 1)
          = extraBefore r (j + 1 + 1) := by
        simp only [extraBefore]; push_cast; split_ifs with h <;> omega
      refine Prod.ext ?_ ?_
      · simp only; push_cast; linear_combination e1
      · simp only; push_cast; linear_combination e2

theorem extraBefore_nonneg (r : Int) (i : Nat) : 0 ≤ extraBefore r i := by
  simp only [extraBefore]; omega

theorem extraBefore_mono (r : Int) (i : Nat) : extraBefore r i ≤ extraBefore r (i + 1) := by
  simp only [extraBefore]; push_cast; omega

/-- Every index between the first start and the last end of the dispatch loop
lies in the range of exactly one iteration. -/
theorem RunLoop_cover (n : Nat) (f : Int) (hf : 0 ≤ f) :
    ∀ (pos r x : Int), pos ≤ x → x < pos + n * f + extraBefore r n →
      ∃! i : Nat, ∃ rg : Int × Int, (RunLoop n pos f r)[i]? = some rg ∧ rg.1 ≤ x ∧ x < rg.2 := by
  induction n with
  | zero =>
    intro pos r x h1 h2
    simp [extraBefore] at h2
    omega
  | succ n ih =>
    intro pos r x h1 h2
    have hstep : (if r > 0 then (1 : Int) else 0) + extraBefore (r - 1) n = extraBefore r (n + 1) := by
      simp only [extraBefore]; push_cast; split_ifs with h <;> omega
    by_cases hx : x < pos + f + (if r > 0 then 1 else 0)
    · refine ⟨0, ⟨(pos, pos + f + (if r > 0 then 1 else 0)), by simp [RunLoop], h1, hx⟩, ?_⟩
      rintro i ⟨rg, hrg, h3, h4⟩
      cases i with
      | zero => rfl
      | succ j =>
        exfalso
        simp only [RunLoop, List.getElem?_cons_succ] at hrg
        have hj : j < n := by
          have := (List.getElem?_eq_some_iff.1 hrg).1
          simpa [RunLoop_length] using this
        rw [RunLoop_getElem? n f _ _ j hj] at hrg
        have := extraBefore_nonneg (r - 1) j
        have hjf : (0 : Int) ≤ j * f := by positivity
        cases hrg
        simp only at h3
        omega
    · push_neg at hx
      have h2' : x < (pos + f + (if r > 0 then 1 else 0)) + n * f + extraBefore (r - 1) n := by
        have : ((n + 1 : Nat) : Int) * f = n * f + f := by push_cast; ring
        rw [this] at h2
        omega
      obtain ⟨j, ⟨rg, hrg, h3, h4⟩, huniq⟩ := ih _ (r - 1) x hx h2'
      refine ⟨j + 1, ⟨rg, by simpa [RunLoop] using hrg, h3, h4⟩, ?_⟩
      rintro i ⟨rg', hrg', h5, h6⟩
      cases i with
      | zero =>
        exfalso
        simp [RunLoop] at hrg'
        cases hrg'
        simp only at h6
        omega
      | succ k =>
        simp only [RunLoop, List.getElem?_cons_succ] at hrg'
        have := huniq k ⟨rg', hrg', h5, h6⟩
        omega

theorem Run_eq (N : Nat) (W : Int) (hW1 : 1 ≤ W) (hWN : W ≤ N) :
    Run N W = some (RunLoop W.toNat 0 ((N : Int) / W) ((N : Int) % W)) := by
  have h1 : ¬ ((N : Int) < W) := by omega
  have h2 : W ≠ 0 := by omega
  simp [Run, h1, h2]

theorem extraBefore_rem (N : Nat) (W : Int) (hW1 : 1 ≤ W) :
    extraBefore ((N : Int) % W) W.toNat = (N : Int) % W := by
  have h1 := Int.emod_nonneg (N : Int) (show W ≠ 0 by omega)
  have h2 := Int.emod_lt_of_pos (N : Int) (show 0 < W by omega)
  simp only [extraBefore]
  have : ((W.toNat : Nat) : Int) = W := Int.toNat_of_nonneg (by omega)
  rw [this]; omega

/-! ## Helper lemmas: octree -/

namespace OpticalDepthOctree

theorem GetOctantContainingPoint_lt (O P : Vec3) : GetOctantContainingPoint O P < 8 := by
  unfold GetOctantContainingPoint
  simp only
  split_ifs <;> decide

theorem octant_eq (O P : Vec3) :
    octant O P = ⟨GetOctantContainingPoint O P, GetOctantContainingPoint_lt O P⟩ :=
  dif_pos (GetOctantContainingPoint_lt O P)

theorem octant_val (O P : Vec3) : ((octant O P : Fin 8) : Nat) = GetOctantContainingPoint O P := by
  rw [octant_eq]

theorem octant_bit_x (O P : Vec3) : (GetOctantContainingPoint O P &&& 4 ≠ 0) ↔ O.x ≤ P.x := by
  unfold GetOctantContainingPoint
  by_cases hx : O.x ≤ P.x <;> by_cases hy : O.y ≤ P.y <;> by_cases hz : O.z ≤ P.z <;>
    simp only [hx, hy, hz, if_true, if_false, ge_iff_le] <;>
    first
      | exact iff_of_true (by decide) trivial
      | exact iff_of_false (by decide) not_false

theorem octant_bit_y (O P : Vec3) : (GetOctantContainingPoint O P &&& 2 ≠ 0) ↔ O.y ≤ P.y := by
  unfold GetOctantContainingPoint
  by_cases hx : O.x ≤ P.x <;> by_cases hy : O.y ≤ P.y <;> by_cases hz : O.z ≤ P.z <;>
    simp only [hx, hy, hz, if_true, if_false, ge_iff_le] <;>
    first
      | exact iff_of_true (by decide) trivial
      | exact iff_of_false (by decide) not_false

theorem octant_bit_z (O P : Vec3) : (GetOctantContainingPoint O P &&& 1 ≠ 0) ↔ O.z ≤ P.z := by
  unfold GetOctantContainingPoint
  by_cases hx : O.x ≤ P.x <;> by_cases hy : O.y ≤ P.y <;> by_cases hz : O.z ≤ P.z <;>
    simp only [hx, hy, hz, if_true, if_false, ge_iff_le] <;>
    first
      | exact iff_of_true (by decide) trivial
      | exact iff_of_false (by decide) not_false

theorem InBox_child (O HD P : Vec3) (h : InBox O HD P) :
    InBox (NewOrigin O HD (octant O P)) (HD.scale 0.5) P := by
  obtain ⟨⟨hx1, hx2⟩, ⟨hy1, hy2⟩, ⟨hz1, hz2⟩⟩ := h
  have bx := octant_bit_x O P
  have bY := octant_bit_y O P
  have bz := octant_bit_z O P
  simp only [InBox, NewOrigin, Vec3.scale, octant_val]
  refine ⟨?_, ?_, ?_⟩
  · by_cases c : O.x ≤ P.x
    · rw [if_pos (bx.2 c)]; constructor <;> linarith
    · rw [if_neg (fun hh => c (bx.1 hh))]; constructor <;> linarith
  · by_cases c : O.y ≤ P.y
    · rw [if_pos (bY.2 c)]; constructor <;> linarith
    · rw [if_neg (fun hh => c (bY.1 hh))]; constructor <;> linarith
  · by_cases c : O.z ≤ P.z
    · rw [if_pos (bz.2 c)]; constructor <;> linarith
    · rw [if_neg (fun hh => c (bz.1 hh))]; constructor <;> linarith

theorem not_Separated_zero (O HD a b : Vec3) (ha : InBox O HD a) (hb : InBox O HD b) :
    ¬ Separated 0 HD a b := by
  obtain ⟨⟨ax1, ax2⟩, ⟨ay1, ay2⟩, ⟨az1, az2⟩⟩ := ha
  obtain ⟨⟨bx1, bx2⟩, ⟨by1, by2⟩, ⟨bz1, bz2⟩⟩ := hb
  simp only [Separated, pow_zero, one_mul, not_or, not_lt]
  refine ⟨?_, ?_, ?_⟩ <;> rw [abs_le] <;> constructor <;> linarith

theorem Separated_child (n : Nat) (HD a b : Vec3) (h : Separated (n + 1) HD a b) :
    Separated n (HD.scale 0.5) a b := by
  simp only [Separated, Vec3.scale, pow_succ] at h ⊢
  rcases h with h | h | h
  · left; linarith
  · right; left; linarith
  · right; right; linarith

theorem exists_Separated (HD a b : Vec3) (h : a ≠ b) : ∃ n, Separated n HD a b := by
  have key : ∀ (H u v : ℚ), u ≠ v → ∃ n : Nat, 2 * H < 2 ^ n * |u - v| := by
    intro H u v huv
    have hpos : 0 < |u - v| := abs_pos.2 (sub_ne_zero.2 huv)
    obtain ⟨n, hn⟩ := pow_unbounded_of_one_lt (2 * H / |u - v|) (by norm_num : (1 : ℚ) < 2)
    exact ⟨n, by rwa [div_lt_iff₀ hpos] at hn⟩
  have hne : a.x ≠ b.x ∨ a.y ≠ b.y ∨ a.z ≠ b.z := by
    by_contra hc
    push_neg at hc
    apply h
    cases a; cases b
    simp_all
  rcases hne with hx | hy | hz
  · obtain ⟨n, hn⟩ := key HD.x _ _ hx
    exact ⟨n, Or.inl hn⟩
  · obtain ⟨n, hn⟩ := key HD.y _ _ hy
    exact ⟨n, Or.inr (Or.inl hn)⟩
  · obtain ⟨n, hn⟩ := key HD.z _ _ hz
    exact ⟨n, Or.inr (Or.inr hn)⟩

/-! ### Unfolding `Insert` -/

theorem Insert_leaf_none (fuel : Nat) (O HD : Vec3) (tp : Int) (p : OpticalDepthPoint) :
    Insert (fuel + 1) (leaf O HD none tp) p = some (leaf O HD (some p) (tp + 1)) := rfl

theorem Insert_new (fuel : Nat) (O HD : Vec3) (p : OpticalDepthPoint) :
    Insert (fuel + 1) (new O HD) p = some (leaf O HD (some p) 1) := rfl

theorem Insert_leaf_some (fuel : Nat) (O HD : Vec3) (old : OpticalDepthPoint) (tp : Int)
    (htp : 1 ≤ tp) (p : OpticalDepthPoint) :
    Insert (fuel + 1) (leaf O HD (some old) tp) p =
      (Insert fuel (new (NewOrigin O HD (octant O old.pos)) (HD.scale 0.5)) old).bind fun c1 =>
        (Insert fuel
          (Function.update (fun i : Fin 8 => new (NewOrigin O HD i) (HD.scale 0.5))
            (octant O old.pos) c1 (octant O p.pos)) p).bind fun c2 =>
          some (inner O HD none (tp + 1)
            (Function.update
              (Function.update (fun i : Fin 8 => new (NewOrigin O HD i) (HD.scale 0.5))
                (octant O old.pos) c1) (octant O p.pos) c2)) := by
  have h : tp + 1 > 1 := by omega
  rw [octant_eq O old.pos, octant_eq O p.pos]
  simp only [Insert, h, if_true, GetOctantContainingPoint_lt, dite_true]

theorem Insert_inner (fuel : Nat) (O HD : Vec3) (D : Option OpticalDepthPoint) (tp : Int)
    (C : Fin 8 → OpticalDepthOctree) (p : OpticalDepthPoint) :
    Insert (fuel + 1) (inner O HD D tp C) p =
      (Insert fuel (C (octant O p.pos)) p).bind fun c =>
        some (inner O HD D (tp + 1) (Function.update C (octant O p.pos) c)) := by
  rw [octant_eq O p.pos]
  simp only [Insert, GetOctantContainingPoint_lt, dite_true]

/-- More fuel does not change a result. -/
theorem Insert_mono (fuel : Nat) :
    ∀ (t : OpticalDepthOctree) (p : OpticalDepthPoint) (t1 : OpticalDepthOctree),
      Insert fuel t p = some t1 → Insert (fuel + 1) t p = some t1 := by
  induction fuel with
  | zero => intro t p t1 h; simp [Insert] at h
  | succ f ih =>
    intro t p t1 h
    cases t with
    | leaf O HD D tp =>
      cases D with
      | none => rw [Insert_leaf_none] at h ⊢; exact h
      | some old =>
        by_cases htp : 1 ≤ tp
        · rw [Insert_leaf_some _ _ _ _ _ htp] at h ⊢
          obtain ⟨c1, hc1, h⟩ := Option.bind_eq_some.1 h
          obtain ⟨c2, hc2, h⟩ := Option.bind_eq_some.1 h
          rw [ih _ _ _ hc1, Option.some_bind, ih _ _ _ hc2, Option.some_bind]
          exact h
        · have hn : ¬ (tp + 1 > 1) := by omega
          simp only [Insert, hn, if_false] at h ⊢
          exact h
    | inner O HD D tp C =>
      rw [Insert_inner] at h ⊢
      obtain ⟨c, hc, h⟩ := Option.bind_eq_some.1 h
      rw [ih _ _ _ hc, Option.some_bind]
      exact h

theorem Insert_mono_le {f1 f2 : Nat} (hle : f1 ≤ f2) (t : OpticalDepthOctree)
    (p : OpticalDepthPoint) (t1 : OpticalDepthOctree) (h : Insert f1 t p = some t1) :
    Insert f2 t p = some t1 := by
  induction hle with
  | refl => exact h
  | step _ ih => exact Insert_mono _ _ _ _ ih

/-! ### Payloads of the leaves as a multiset -/

theorem coe_leafData_inner (O HD : Vec3) (D : Option OpticalDepthPoint) (tp : Int)
    (C : Fin 8 → OpticalDepthOctree) :
    ((leafData (inner O HD D tp C) : List OpticalDepthPoint) : Multiset OpticalDepthPoint) =
      ∑ i : Fin 8, ((leafData (C i) : List OpticalDepthPoint) : Multiset OpticalDepthPoint) := by
  simp only [leafData]
  rw [← Multiset.coe_bind]
  rfl

theorem sum_update_children {M : Type} [AddCommMonoid M] (C : Fin 8 → OpticalDepthOctree)
    (g : OpticalDepthOctree → M) (k : Fin 8) (c : OpticalDepthOctree) :
    ∑ i : Fin 8, g (Function.update C k c i) + g (C k) = ∑ i : Fin 8, g (C i) + g c := by
  have h1 : ∀ i, g (Function.update C k c i) = Function.update (fun j => g (C j)) k (g c) i := by
    intro i
    by_cases h : i = k
    · subst h; simp
    · simp [Function.update_noteq h]
  simp only [h1]
  rw [Finset.sum_update_of_mem (Finset.mem_univ k), Finset.sdiff_singleton_eq_erase,
    ← Finset.add_sum_erase Finset.univ (fun j => g (C j)) (Finset.mem_univ k)]
  abel

theorem LeafPayloads_eq_leafData : ∀ t : OpticalDepthOctree, LeafPayloads t = leafData t := by
  intro t
  induction t with
  | leaf O HD D tp =>
    cases D <;> simp [LeafPayloads, LinkTree, leafData, IsLeafNode, Children, Data]
  | inner O HD D tp C ih =>
    have ih1 : ∀ i, ((LinkTree (C i)).filter IsLeafNode).filterMap Data = leafData (C i) := ih
    simp only [LeafPayloads, LinkTree, leafData]
    rw [List.filter_cons_of_neg (by simp [IsLeafNode, Children]), List.filter_flatMap,
      List.filterMap_flatMap]
    simp only [ih1]

/-! ### Geometry is kept by `Insert` -/

theorem Geom_new (O HD : Vec3) : Geom (new O HD) := by
  refine ⟨le_rfl, ?_⟩
  intro q hq; cases hq

theorem Geom_inner_new (O HD : Vec3) (D : Option OpticalDepthPoint) (tp : Int) :
    Geom (inner O HD D tp fun i : Fin 8 => new (NewOrigin O HD i) (HD.scale 0.5)) := by
  intro i
  exact ⟨rfl, rfl, Geom_new _ _⟩

theorem Geom_update (O HD : Vec3) (D D1 : Option OpticalDepthPoint) (tp tp1 : Int)
    (C : Fin 8 → OpticalDepthOctree) (k : Fin 8) (c : OpticalDepthOctree)
    (hC : Geom (inner O HD D tp C)) (ho : c.Origin = NewOrigin O HD k)
    (hh : c.HalfDimension = HD.scale 0.5) (hg : Geom c) :
    Geom (inner O HD D1 tp1 (Function.update C k c)) := by
  intro i
  by_cases h : i = k
  · subst h; simp only [Function.update_same]; exact ⟨ho, hh, hg⟩
  · simp only [Function.update_noteq h]; exact hC i

theorem Geom_leaf_some (O HD : Vec3) (p : OpticalDepthPoint) (tp : Int) (hp : InBox O HD p.pos)
    (htp : 1 ≤ tp) : Geom (leaf O HD (some p) tp) := by
  refine ⟨by omega, ?_⟩
  intro q hq
  cases hq
  exact ⟨hp, htp⟩

/-- A second point put into an occupied leaf: when the two positions are
separated at some scale, the subdivision stops after finitely many levels and
the result holds exactly the two points. -/
theorem Insert_occupied (n : Nat) :
    ∀ (O HD : Vec3) (old p : OpticalDepthPoint) (tp : Int),
      InBox O HD old.pos → InBox O HD p.pos → 1 ≤ tp → Separated n HD old.pos p.pos →
      ∃ (fuel : Nat) (t1 : OpticalDepthOctree),
        Insert fuel (leaf O HD (some old) tp) p = some t1 ∧ t1.Origin = O ∧
          t1.HalfDimension = HD ∧ Geom t1 ∧
          ((leafData t1 : List OpticalDepthPoint) : Multiset OpticalDepthPoint) = p ::ₘ old ::ₘ 0 := by
  induction n with
  | zero =>
    intro O HD old p tp ho hp _ hs
    exact absurd hs (not_Separated_zero O HD _ _ ho hp)
  | succ n ih =>
    intro O HD old p tp ho hp htp hs
    have hzero : ∑ i : Fin 8, ((leafData ((fun i : Fin 8 => new (NewOrigin O HD i) (HD.scale 0.5)) i)
        : List OpticalDepthPoint) : Multiset OpticalDepthPoint) = 0 := by
      simp [new, leafData]
    by_cases hk : octant O p.pos = octant O old.pos
    · have hp1 : InBox (NewOrigin O HD (octant O old.pos)) (HD.scale 0.5) p.pos := by
        rw [← hk]; exact InBox_child O HD _ hp
      obtain ⟨f, t2, hf, ho2, hh2, hg2, hl2⟩ :=
        ih (NewOrigin O HD (octant O old.pos)) (HD.scale 0.5) old p 1
          (InBox_child O HD _ ho) hp1 le_rfl (Separated_child n HD _ _ hs)
      obtain ⟨f1, rfl⟩ : ∃ f1, f = f1 + 1 := by
        cases f with
        | zero => simp [Insert] at hf
        | succ f1 => exact ⟨f1, rfl⟩
      have hI : Insert (f1 + 1 + 1) (leaf O HD (some old) tp) p =
          some (inner O HD none (tp + 1)
            (Function.update
              (Function.update (fun i : Fin 8 => new (NewOrigin O HD i) (HD.scale 0.5))
                (octant O old.pos)
                (leaf (NewOrigin O HD (octant O old.pos)) (HD.scale 0.5) (some old) 1))
              (octant O old.pos) t2)) := by
        rw [Insert_leaf_some _ _ _ _ _ htp, Insert_new, Option.some_bind, hk,
          Function.update_same, hf, Option.some_bind]
      refine ⟨f1 + 1 + 1, _, hI, rfl, rfl, ?_, ?_⟩
      · exact Geom_update O HD none none (tp + 1) (tp + 1) _ _ t2
          (Geom_update O HD none none (tp + 1) (tp + 1) _ _ _ (Geom_inner_new O HD none (tp + 1))
            rfl rfl (Geom_leaf_some _ _ _ _ (InBox_child O HD _ ho) le_rfl))
          ho2 hh2 hg2
      · rw [coe_leafData_inner, Function.update_idem]
        have := sum_update_children (fun i : Fin 8 => new (NewOrigin O HD i) (HD.scale 0.5))
          (fun t => ((leafData t : List OpticalDepthPoint) : Multiset OpticalDepthPoint))
          (octant O old.pos) t2
        simp only [hzero, zero_add] at this
        rw [← hl2, ← this]
        simp [new, leafData]
    · have hI : Insert 2 (leaf O HD (some old) tp) p =
          some (inner O HD none (tp + 1)
            (Function.update
              (Function.update (fun i : Fin 8 => new (NewOrigin O HD i) (HD.scale 0.5))
                (octant O old.pos)
                (leaf (NewOrigin O HD (octant O old.pos)) (HD.scale 0.5) (some old) 1))
              (octant O p.pos)
              (leaf (NewOrigin O HD (octant O p.pos)) (HD.scale 0.5) (some p) 1))) := by
        rw [Insert_leaf_some _ _ _ _ _ htp, Insert_new, Option.some_bind,
          Function.update_noteq hk, Insert_new, Option.some_bind]
      refine ⟨2, _, hI, rfl, rfl, ?_, ?_⟩
      · exact Geom_update O HD none none (tp + 1) (tp + 1) _ _ _
          (Geom_update O HD none none (tp + 1) (tp + 1) _ _ _ (Geom_inner_new O HD none (tp + 1))
            rfl rfl (Geom_leaf_some _ _ _ _ (InBox_child O HD _ ho) le_rfl))
          rfl rfl (Geom_leaf_some _ _ _ _ (InBox_child O HD _ hp) le_rfl)
      · rw [coe_leafData_inner]
        have h1 := sum_update_children (fun i : Fin 8 => new (NewOrigin O HD i) (HD.scale 0.5))
          (fun t => ((leafData t : List OpticalDepthPoint) : Multiset OpticalDepthPoint))
          (octant O old.pos) (leaf (NewOrigin O HD (octant O old.pos)) (HD.scale 0.5) (some old) 1)
        have h2 := sum_update_children
          (Function.update (fun i : Fin 8 => new (NewOrigin O HD i) (HD.scale 0.5))
            (octant O old.pos) (leaf (NewOrigin O HD (octant O old.pos)) (HD.scale 0.5) (some old) 1))
          (fun t => ((leafData t : List OpticalDepthPoint) : Multiset OpticalDepthPoint))
          (octant O p.pos) (leaf (NewOrigin O HD (octant O p.pos)) (HD.scale 0.5) (some p) 1)
        simp only [hzero, zero_add] at h1
        simp only [Function.update_noteq hk] at h2
        have e0 : ((leafData (new (NewOrigin O HD (octant O old.pos)) (HD.scale 0.5))
            : List OpticalDepthPoint) : Multiset OpticalDepthPoint) = 0 := by simp [new, leafData]
        have e1 : ((leafData (new (NewOrigin O HD (octant O p.pos)) (HD.scale 0.5))
            : List OpticalDepthPoint) : Multiset OpticalDepthPoint) = 0 := by simp [new, leafData]
        rw [e0, add_zero] at h1
        rw [e1, add_zero, h1] at h2
        rw [h2]
        simp only [leafData, Option.toList_some, Multiset.coe_singleton]
        rw [add_comm]
        rfl

/-- A point inside the box of a tree whose position differs from every stored
position is inserted with enough fuel; the box and the geometry are kept and
the leaves gain exactly that point. -/
theorem Insert_exists :
    ∀ t : OpticalDepthOctree, Geom t → ∀ p : OpticalDepthPoint,
      InBox t.Origin t.HalfDimension p.pos → (∀ q ∈ leafData t, q.pos ≠ p.pos) →
      ∃ (fuel : Nat) (t1 : OpticalDepthOctree),
        Insert fuel t p = some t1 ∧ t1.Origin = t.Origin ∧
          t1.HalfDimension = t.HalfDimension ∧ Geom t1 ∧
          ((leafData t1 : List OpticalDepthPoint) : Multiset OpticalDepthPoint) =
            p ::ₘ ((leafData t : List OpticalDepthPoint) : Multiset OpticalDepthPoint) := by
  intro t
  induction t with
  | leaf O HD D tp =>
    intro hg p hp hne
    cases D with
    | none =>
      refine ⟨1, _, Insert_leaf_none 0 O HD tp p, rfl, rfl, ?_, ?_⟩
      · exact Geom_leaf_some O HD p (tp + 1) hp (by have := hg.1; omega)
      · simp [leafData]
    | some old =>
      obtain ⟨hbo, htp⟩ := hg.2 old rfl
      have hd : old.pos ≠ p.pos := hne old (by simp [leafData])
      obtain ⟨n, hn⟩ := exists_Separated HD old.pos p.pos hd
      obtain ⟨f, t1, hf, ho1, hh1, hg1, hl1⟩ := Insert_occupied n O HD old p tp hbo hp htp hn
      refine ⟨f, t1, hf, ho1, hh1, hg1, ?_⟩
      rw [hl1]
      simp [leafData]
  | inner O HD D tp C ih =>
    intro hg p hp hne
    obtain ⟨hko, hkh, hkg⟩ := hg (octant O p.pos)
    have hpk : InBox (C (octant O p.pos)).Origin (C (octant O p.pos)).HalfDimension p.pos := by
      rw [hko, hkh]; exact InBox_child O HD _ hp
    have hnek : ∀ q ∈ leafData (C (octant O p.pos)), q.pos ≠ p.pos := by
      intro q hq
      apply hne q
      simp only [leafData, List.mem_flatMap]
      exact ⟨octant O p.pos, List.mem_finRange _, hq⟩
    obtain ⟨f, c, hf, ho1, hh1, hg1, hl1⟩ := ih (octant O p.pos) hkg p hpk hnek
    have hI : Insert (f + 1) (inner O HD D tp C) p =
        some (inner O HD D (tp + 1) (Function.update C (octant O p.pos) c)) := by
      rw [Insert_inner, hf, Option.some_bind]
    refine ⟨f + 1, _, hI, rfl, rfl, ?_, ?_⟩
    · exact Geom_update O HD D D tp (tp + 1) C _ c hg (ho1.trans hko) (hh1.trans hkh) hg1
    · rw [coe_leafData_inner, coe_leafData_inner]
      have h := sum_update_children C
        (fun t => ((leafData t : List OpticalDepthPoint) : Multiset OpticalDepthPoint))
        (octant O p.pos) c
      simp only [hl1] at h
      have h2 : ∑ i : Fin 8, ((leafData (Function.update C (octant O p.pos) c i)
            : List OpticalDepthPoint) : Multiset OpticalDepthPoint)
            + ((leafData (C (octant O p.pos)) : List OpticalDepthPoint) : Multiset OpticalDepthPoint)
          = (p ::ₘ ∑ i : Fin 8, ((leafData (C i) : List OpticalDepthPoint)
              : Multiset OpticalDepthPoint))
            + ((leafData (C (octant O p.pos)) : List OpticalDepthPoint)
              : Multiset OpticalDepthPoint) := by
        rw [h, Multiset.cons_add, Multiset.add_cons]
      exact add_right_cancel h2

theorem InsertAll_mono_le {f1 f2 : Nat} (hle : f1 ≤ f2) :
    ∀ (pts : List OpticalDepthPoint) (t t1 : OpticalDepthOctree),
      InsertAll f1 t pts = some t1 → InsertAll f2 t pts = some t1 := by
  intro pts
  induction pts with
  | nil => intro t t1 h; simpa [InsertAll] using h
  | cons p ps ih =>
    intro t t1 h
    simp only [InsertAll] at h ⊢
    obtain ⟨t2, h2, h3⟩ := Option.bind_eq_some.1 h
    rw [Insert_mono_le hle _ _ _ h2, Option.some_bind]
    exact ih _ _ h3

/-- A list of points with pairwise distinct positions, all inside the box of
the tree and none at a stored position, is inserted with enough fuel, and the
leaves gain exactly those points. -/
theorem InsertAll_exists :
    ∀ (pts : List OpticalDepthPoint) (t : OpticalDepthOctree), Geom t →
      (∀ p ∈ pts, InBox t.Origin t.HalfDimension p.pos) →
      pts.Pairwise (fun a b => a.pos ≠ b.pos) →
      (∀ q ∈ leafData t, ∀ p ∈ pts, q.pos ≠ p.pos) →
      ∃ (fuel : Nat) (t1 : OpticalDepthOctree),
        InsertAll fuel t pts = some t1 ∧ t1.Origin = t.Origin ∧
          t1.HalfDimension = t.HalfDimension ∧ Geom t1 ∧
          ((leafData t1 : List OpticalDepthPoint) : Multiset OpticalDepthPoint) =
            (pts : Multiset OpticalDepthPoint) +
              ((leafData t : List OpticalDepthPoint) : Multiset OpticalDepthPoint) := by
  intro pts
  induction pts with
  | nil =>
    intro t hg _ _ _
    exact ⟨0, t, rfl, rfl, rfl, hg, by simp⟩
  | cons p ps ih =>
    intro t hg hbox hpw hne
    rw [List.pairwise_cons] at hpw
    obtain ⟨f1, t2, hf1, ho2, hh2, hg2, hl2⟩ :=
      Insert_exists t hg p (hbox p (List.mem_cons_self _ _))
        (fun q hq => hne q hq p (List.mem_cons_self _ _))
    have hmem : ∀ q, q ∈ leafData t2 ↔ q = p ∨ q ∈ leafData t := by
      intro q
      rw [← Multiset.mem_coe, hl2, Multiset.mem_cons, Multiset.mem_coe]
    obtain ⟨f2, t1, hf2, ho1, hh1, hg1, hl1⟩ := ih t2 hg2
      (fun q hq => by rw [ho2, hh2]; exact hbox q (List.mem_cons_of_mem _ hq))
      hpw.2
      (fun q hq r hr => by
        rcases (hmem q).1 hq with rfl | hq1
        · exact hpw.1 r hr
        · exact hne q hq1 r (List.mem_cons_of_mem _ hr))
    refine ⟨max f1 f2, t1, ?_, ho1.trans ho2, hh1.trans hh2, hg1, ?_⟩
    · simp only [InsertAll]
      rw [Insert_mono_le (le_max_left f1 f2) _ _ _ hf1, Option.some_bind]
      exact InsertAll_mono_le (le_max_right f1 f2) _ _ _ hf2
    · rw [hl1, hl2, ← Multiset.cons_coe, Multiset.cons_add, Multiset.add_cons]

/-! ### The leaf invariant is kept by `Insert` -/

theorem NoPayloadInside_update (O HD : Vec3) (tp tp1 : Int) (C : Fin 8 → OpticalDepthOctree)
    (k : Fin 8) (c : OpticalDepthOctree) (hC : NoPayloadInside (inner O HD none tp C))
    (hc : NoPayloadInside c) : NoPayloadInside (inner O HD none tp1 (Function.update C k c)) := by
  refine ⟨rfl, fun i => ?_⟩
  by_cases h : i = k
  · subst h; simpa using hc
  · simpa [Function.update_noteq h] using hC.2 i

theorem Insert_NoPayloadInside (fuel : Nat) :
    ∀ (t : OpticalDepthOctree) (p : OpticalDepthPoint) (t1 : OpticalDepthOctree),
      NoPayloadInside t → Insert fuel t p = some t1 → NoPayloadInside t1 := by
  induction fuel with
  | zero => intro t p t1 _ h; simp [Insert] at h
  | succ f ih =>
    intro t p t1 hinv h
    cases t with
    | leaf O HD D tp =>
      cases D with
      | none =>
        rw [Insert_leaf_none] at h
        cases h
        trivial
      | some old =>
        by_cases htp : 1 ≤ tp
        · rw [Insert_leaf_some _ _ _ _ _ htp] at h
          obtain ⟨c1, hc1, h⟩ := Option.bind_eq_some.1 h
          obtain ⟨c2, hc2, h⟩ := Option.bind_eq_some.1 h
          cases h
          have hkids : NoPayloadInside
              (inner O HD none tp fun i : Fin 8 => new (NewOrigin O HD i) (HD.scale 0.5)) :=
            ⟨rfl, fun _ => trivial⟩
          have h1 := NoPayloadInside_update O HD tp tp _ (octant O old.pos) c1 hkids
            (ih (new (NewOrigin O HD (octant O old.pos)) (HD.scale 0.5)) old c1
              (by simp [new, NoPayloadInside]) hc1)
          exact NoPayloadInside_update O HD tp (tp + 1) _ (octant O p.pos) c2 h1
            (ih _ _ _ (h1.2 _) hc2)
        · have hn : ¬ (tp + 1 > 1) := by omega
          simp only [Insert, hn, if_false] at h
          cases h
          trivial
    | inner O HD D tp C =>
      rw [Insert_inner] at h
      obtain ⟨c, hc, h⟩ := Option.bind_eq_some.1 h
      cases h
      obtain ⟨hD, hC⟩ := hinv
      subst hD
      exact NoPayloadInside_update O HD tp (tp + 1) C _ c ⟨rfl, hC⟩ (ih _ _ _ (hC _) hc)

theorem InsertAll_NoPayloadInside (fuel : Nat) :
    ∀ (pts : List OpticalDepthPoint) (t t1 : OpticalDepthOctree),
      NoPayloadInside t → InsertAll fuel t pts = some t1 → NoPayloadInside t1 := by
  intro pts
  induction pts with
  | nil => intro t t1 hinv h; simp only [InsertAll] at h; cases h; exact hinv
  | cons p ps ih =>
    intro t t1 hinv h
    simp only [InsertAll] at h
    obtain ⟨t2, h2, h3⟩ := Option.bind_eq_some.1 h
    exact ih _ _ (Insert_NoPayloadInside fuel _ _ _ hinv h2) h3

theorem NoPayloadInside_LinkTree :
    ∀ t : OpticalDepthOctree, NoPayloadInside t →
      ∀ n ∈ LinkTree t, n.Data ≠ none → ∀ i : Fin 8, n.Children i = none := by
  intro t
  induction t with
  | leaf O HD D tp =>
    intro _ n hn _ i
    simp only [LinkTree, List.mem_singleton] at hn
    subst hn
    rfl
  | inner O HD D tp C ih =>
    intro hinv n hn hD i
    simp only [LinkTree, List.mem_cons, List.mem_flatMap] at hn
    rcases hn with rfl | ⟨j, _, hj⟩
    · exact absurd hinv.1 hD
    · exact ih j (hinv.2 j) n hj hD i

/-! ### `TraverseTree` as a sum over the contributing leaves -/

theorem TraverseTree_not_Intersects (AU_TO_CM : ℚ) (GetKappar : ℚ → ℚ → ℚ)
    (t : OpticalDepthOctree) (q : Vec3) (acc : ℚ × ℚ) (h : Intersects t q = false) :
    TraverseTree AU_TO_CM GetKappar t q acc = acc := by
  cases t with
  | leaf O HD D tp => obtain ⟨S, T⟩ := acc; simp [TraverseTree, h]
  | inner O HD D tp C => simp [TraverseTree, h]

theorem Intersects_eq_false_iff (t : OpticalDepthOctree) (q : Vec3) :
    Intersects t q = false ↔
      ¬ (t.Origin.x - t.HalfDimension.x < q.x ∧ q.x < t.Origin.x + t.HalfDimension.x ∧
          t.Origin.y - t.HalfDimension.y < q.y ∧ q.y < t.Origin.y + t.HalfDimension.y) := by
  simp only [Intersects, gt_iff_lt]
  split_ifs with h <;> simp [h]

theorem GetOctantContainingPoint_eq_sum (O P : Vec3) :
    GetOctantContainingPoint O P =
      (if P.x ≥ O.x then 4 else 0) + (if P.y ≥ O.y then 2 else 0) +
        (if P.z ≥ O.z then 1 else 0) := by
  unfold GetOctantContainingPoint
  by_cases hx : P.x ≥ O.x <;> by_cases hy : P.y ≥ O.y <;> by_cases hz : P.z ≥ O.z <;>
    simp only [hx, hy, hz, if_true, if_false] <;> rfl

theorem TraverseTree_eq_sum (AU_TO_CM : ℚ) (GetKappar : ℚ → ℚ → ℚ) :
    ∀ (t : OpticalDepthOctree) (q : Vec3) (acc : ℚ × ℚ),
      TraverseTree AU_TO_CM GetKappar t q acc =
        (acc.1 + ((Contributing t q).map (sigmaTerm AU_TO_CM)).sum,
         acc.2 + ((Contributing t q).map (tauTerm AU_TO_CM GetKappar)).sum) := by
  intro t
  induction t with
  | leaf O HD D tp =>
    rintro q ⟨S, T⟩
    simp only [TraverseTree, Contributing]
    split_ifs with h1
    · simp
    · cases D with
      | none => simp
      | some d =>
        simp only
        split_ifs with h2
        · simp
        · simp [sigmaTerm, tauTerm]
  | inner O HD D tp C ih =>
    intro q acc
    simp only [TraverseTree, Contributing]
    split_ifs with h1
    · simp
    · have key : ∀ (l : List (Fin 8)) (a : ℚ × ℚ),
          l.foldl (fun a i => TraverseTree AU_TO_CM GetKappar (C i) q a) a =
            (a.1 + ((l.flatMap fun i => Contributing (C i) q).map (sigmaTerm AU_TO_CM)).sum,
             a.2 + ((l.flatMap fun i => Contributing (C i) q).map
                (tauTerm AU_TO_CM GetKappar)).sum) := by
        intro l
        induction l with
        | nil => intro a; simp
        | cons i l ihl =>
          intro a
          simp only [List.foldl_cons, List.flatMap_cons, List.map_append, List.sum_append]
          rw [ihl, ih i q a]
          simp only [add_assoc]
      exact key _ acc

end OpticalDepthOctree

/-! ## Helper lemmas: FindOpticalDepth, Analyse, Center -/

theorem processedEvents_succ (start : Int) (n : Nat) :
    processedEvents start (n + 1) =
      [AnalyseEvent.Read start, AnalyseEvent.Pipeline start] ++ processedEvents (start + 1) n := by
  simp only [processedEvents, List.range_succ_eq_map, List.flatMap_cons, List.flatMap_map]
  congr 1
  · simp
  · apply List.flatMap_congr
    intro d _
    simp only [Function.comp, Nat.cast_succ]
    rw [show start + ((d : Int) + 1) = start + 1 + d by ring]

theorem AnalyseLoop_reads_succeed (N : Nat) (Read : Int → Bool) (n : Nat) :
    ∀ (m : Nat) (i : Int) (events : List AnalyseEvent) (cnt : Int),
      0 ≤ i → i + n ≤ N → (∀ j, i ≤ j → j < i + n → Read j = true) →
      AnalyseLoop N true Read (n + m) i (events, cnt) =
        AnalyseLoop N true Read m (i + n) (events ++ processedEvents i n, cnt + n) := by
  induction n with
  | zero =>
    intro m i events cnt _ _ _
    simp [processedEvents]
  | succ n ih =>
    intro m i events cnt h0 hN hok
    have hb : ¬ (i < 0 ∨ (N : Int) ≤ i) := by push_cast at hN; omega
    have hr : Read i = true := hok i le_rfl (by push_cast; omega)
    have e : n + 1 + m = (n + m) + 1 := by omega
    rw [e]
    simp only [AnalyseLoop, hb, if_false, if_true, hr, Bool.not_true, Bool.false_eq_true]
    rw [ih m (i + 1) _ _ (by omega) (by push_cast at hN ⊢; omega)
      (fun j h1 h2 => hok j (by omega) (by push_cast; omega))]
    have e1 : i + 1 + (n : Int) = i + ((n + 1 : Nat) : Int) := by push_cast; ring
    have e2 : cnt + 1 + (n : Int) = cnt + ((n + 1 : Nat) : Int) := by push_cast; ring
    rw [processedEvents_succ, e1, e2, List.append_assoc]

theorem zero_literal : (0.0 : ℚ) = 0 := by norm_num

theorem Vec3.sub_zero_vec (v : Vec3) : v.sub ⟨0.0, 0.0, 0.0⟩ = v := by
  cases v
  norm_num [Vec3.sub]

/-! ## Helper lemmas: octree invariants for any returning `Insert` -/

namespace OpticalDepthOctree

theorem Insert_Origin (fuel : Nat) (t : OpticalDepthOctree) (p : OpticalDepthPoint)
    (t1 : OpticalDepthOctree) (h : Insert fuel t p = some t1) :
    t1.Origin = t.Origin ∧ t1.HalfDimension = t.HalfDimension := by
  cases fuel with
  | zero => simp [Insert] at h
  | succ f =>
    cases t with
    | leaf O HD D tp =>
      cases D with
      | none =>
        rw [Insert_leaf_none] at h
        cases h
        exact ⟨rfl, rfl⟩
      | some old =>
        by_cases htp : 1 ≤ tp
        · rw [Insert_leaf_some _ _ _ _ _ htp] at h
          obtain ⟨c1, _, h⟩ := Option.bind_eq_some.1 h
          obtain ⟨c2, _, h⟩ := Option.bind_eq_some.1 h
          cases h
          exact ⟨rfl, rfl⟩
        · have hn : ¬ (tp + 1 > 1) := by omega
          simp only [Insert, hn, if_false] at h
          cases h
          exact ⟨rfl, rfl⟩
    | inner O HD D tp C =>
      rw [Insert_inner] at h
      obtain ⟨c, _, h⟩ := Option.bind_eq_some.1 h
      cases h
      exact ⟨rfl, rfl⟩

theorem InsertAll_Origin (fuel : Nat) :
    ∀ (pts : List OpticalDepthPoint) (t t1 : OpticalDepthOctree),
      InsertAll fuel t pts = some t1 →
        t1.Origin = t.Origin ∧ t1.HalfDimension = t.HalfDimension := by
  intro pts
  induction pts with
  | nil => intro t t1 h; simp only [InsertAll] at h; cases h; exact ⟨rfl, rfl⟩
  | cons p ps ih =>
    intro t t1 h
    simp only [InsertAll] at h
    obtain ⟨t2, h2, h3⟩ := Option.bind_eq_some.1 h
    obtain ⟨a, b⟩ := Insert_Origin fuel t p t2 h2
    obtain ⟨c, d⟩ := ih t2 t1 h3
    exact ⟨c.trans a, d.trans b⟩

theorem Octants_update (O HD : Vec3) (D D1 : Option OpticalDepthPoint) (tp tp1 : Int)
    (C : Fin 8 → OpticalDepthOctree) (k : Fin 8) (c : OpticalDepthOctree)
    (hC : Octants (inner O HD D tp C)) (ho : c.Origin = NewOrigin O HD k)
    (hh : c.HalfDimension = HD.scale 0.5) (hg : Octants c) :
    Octants (inner O HD D1 tp1 (Function.update C k c)) := by
  intro i
  by_cases h : i = k
  · subst h; simp only [Function.update_same]; exact ⟨ho, hh, hg⟩
  · simp only [Function.update_noteq h]; exact hC i

theorem Octants_inner_new (O HD : Vec3) (D : Option OpticalDepthPoint) (tp : Int) :
    Octants (inner O HD D tp fun i : Fin 8 => new (NewOrigin O HD i) (HD.scale 0.5)) := by
  intro i
  exact ⟨rfl, rfl, trivial⟩

theorem Insert_Octants (fuel : Nat) :
    ∀ (t : OpticalDepthOctree) (p : OpticalDepthPoint) (t1 : OpticalDepthOctree),
      Octants t → Insert fuel t p = some t1 → Octants t1 := by
  induction fuel with
  | zero => intro t p t1 _ h; simp [Insert] at h
  | succ f ih =>
    intro t p t1 hinv h
    cases t with
    | leaf O HD D tp =>
      cases D with
      | none =>
        rw [Insert_leaf_none] at h
        cases h
        trivial
      | some old =>
        by_cases htp : 1 ≤ tp
        · rw [Insert_leaf_some _ _ _ _ _ htp] at h
          obtain ⟨c1, hc1, h⟩ := Option.bind_eq_some.1 h
          obtain ⟨c2, hc2, h⟩ := Option.bind_eq_some.1 h
          cases h
          have ho1 := Insert_Origin f _ _ _ hc1
          have h1 : Octants (inner O HD none tp
              (Function.update (fun i : Fin 8 => new (NewOrigin O HD i) (HD.scale 0.5))
                (octant O old.pos) c1)) :=
            Octants_update O HD none none tp tp _ (octant O old.pos) c1
              (Octants_inner_new O HD none tp) ho1.1 ho1.2
              (ih (new (NewOrigin O HD (octant O old.pos)) (HD.scale 0.5)) old c1 trivial hc1)
          have ho2 := Insert_Origin f _ _ _ hc2
          exact Octants_update O HD none none tp (tp + 1) _ (octant O p.pos) c2 h1
            (ho2.1.trans (h1 _).1) (ho2.2.trans (h1 _).2.1) (ih _ _ _ (h1 _).2.2 hc2)
        · have hn : ¬ (tp + 1 > 1) := by omega
          simp only [Insert, hn, if_false] at h
          cases h
          trivial
    | inner O HD D tp C =>
      rw [Insert_inner] at h
      obtain ⟨c, hc, h⟩ := Option.bind_eq_some.1 h
      cases h
      have ho := Insert_Origin f _ _ _ hc
      exact Octants_update O HD D D tp (tp + 1) C _ c hinv (ho.1.trans (hinv _).1)
        (ho.2.trans (hinv _).2.1) (ih _ _ _ (hinv _).2.2 hc)

theorem InsertAll_Octants (fuel : Nat) :
    ∀ (pts : List OpticalDepthPoint) (t t1 : OpticalDepthOctree),
      Octants t → InsertAll fuel t pts = some t1 → Octants t1 := by
  intro pts
  induction pts with
  | nil => intro t t1 hinv h; simp only [InsertAll] at h; cases h; exact hinv
  | cons p ps ih =>
    intro t t1 hinv h
    simp only [InsertAll] at h
    obtain ⟨t2, h2, h3⟩ := Option.bind_eq_some.1 h
    exact ih _ _ (Insert_Octants fuel _ _ _ hinv h2) h3

theorem Insert_Geom (fuel : Nat) :
    ∀ (t : OpticalDepthOctree) (p : OpticalDepthPoint) (t1 : OpticalDepthOctree),
      Geom t → InBox t.Origin t.HalfDimension p.pos → Insert fuel t p = some t1 → Geom t1 := by
  induction fuel with
  | zero => intro t p t1 _ _ h; simp [Insert] at h
  | succ f ih =>
    intro t p t1 hg hp h
    cases t with
    | leaf O HD D tp =>
      cases D with
      | none =>
        rw [Insert_leaf_none] at h
        cases h
        exact Geom_leaf_some O HD p (tp + 1) hp (by have := hg.1; omega)
      | some old =>
        obtain ⟨hbo, htp⟩ := hg.2 old rfl
        rw [Insert_leaf_some _ _ _ _ _ htp] at h
        obtain ⟨c1, hc1, h⟩ := Option.bind_eq_some.1 h
        obtain ⟨c2, hc2, h⟩ := Option.bind_eq_some.1 h
        cases h
        have ho1 := Insert_Origin f _ _ _ hc1
        have hg1 : Geom c1 :=
          ih (new (NewOrigin O HD (octant O old.pos)) (HD.scale 0.5)) old c1 (Geom_new _ _)
            (InBox_child O HD _ hbo) hc1
        have h1 : Geom (inner O HD none tp
            (Function.update (fun i : Fin 8 => new (NewOrigin O HD i) (HD.scale 0.5))
              (octant O old.pos) c1)) :=
          Geom_update O HD none none tp tp _ (octant O old.pos) c1
            (Geom_inner_new O HD none tp) ho1.1 ho1.2 hg1
        have ho2 := Insert_Origin f _ _ _ hc2
        have hpk : InBox
            (Function.update (fun i : Fin 8 => new (NewOrigin O HD i) (HD.scale 0.5))
              (octant O old.pos) c1 (octant O p.pos)).Origin
            (Function.update (fun i : Fin 8 => new (NewOrigin O HD i) (HD.scale 0.5))
              (octant O old.pos) c1 (octant O p.pos)).HalfDimension p.pos := by
          rw [(h1 _).1, (h1 _).2.1]
          exact InBox_child O HD _ hp
        exact Geom_update O HD none none tp (tp + 1) _ (octant O p.pos) c2 h1
          (ho2.1.trans (h1 _).1) (ho2.2.trans (h1 _).2.1) (ih _ _ _ (h1 _).2.2 hpk hc2)
    | inner O HD D tp C =>
      rw [Insert_inner] at h
      obtain ⟨c, hc, h⟩ := Option.bind_eq_some.1 h
      cases h
      have ho := Insert_Origin f _ _ _ hc
      have hpk : InBox (C (octant O p.pos)).Origin (C (octant O p.pos)).HalfDimension p.pos := by
        rw [(hg _).1, (hg _).2.1]
        exact InBox_child O HD _ hp
      exact Geom_update O HD D D tp (tp + 1) C _ c hg (ho.1.trans (hg _).1)
        (ho.2.trans (hg _).2.1) (ih _ _ _ (hg _).2.2 hpk hc)

theorem InsertAll_Geom (fuel : Nat) :
    ∀ (pts : List OpticalDepthPoint) (t t1 : OpticalDepthOctree),
      Geom t → (∀ p ∈ pts, InBox t.Origin t.HalfDimension p.pos) →
      InsertAll fuel t pts = some t1 → Geom t1 := by
  intro pts
  induction pts with
  | nil => intro t t1 hg _ h; simp only [InsertAll] at h; cases h; exact hg
  | cons p ps ih =>
    intro t t1 hg hbox h
    simp only [InsertAll] at h
    obtain ⟨t2, h2, h3⟩ := Option.bind_eq_some.1 h
    obtain ⟨a, b⟩ := Insert_Origin fuel t p t2 h2
    exact ih t2 t1 (Insert_Geom fuel t p t2 hg (hbox p (List.mem_cons_self _ _)) h2)
      (fun q hq => by rw [a, b]; exact hbox q (List.mem_cons_of_mem _ hq)) h3

theorem Geom_LinkTree :
    ∀ t : OpticalDepthOctree, Geom t → ∀ n ∈ LinkTree t,
      (n.IsLeafNode = true → ∀ q, n.Data = some q → InBox n.Origin n.HalfDimension q.pos) ∧
      (∀ (i : Fin 8) (c : OpticalDepthOctree), n.Children i = some c →
        c.Origin = NewOrigin n.Origin n.HalfDimension i ∧
          c.HalfDimension = n.HalfDimension.scale 0.5) := by
  intro t
  induction t with
  | leaf O HD D tp =>
    intro hg n hn
    simp only [LinkTree, List.mem_singleton] at hn
    subst hn
    refine ⟨fun _ q hq => (hg.2 q hq).1, ?_⟩
    intro i c hc
    simp [Children] at hc
  | inner O HD D tp C ih =>
    intro hg n hn
    simp only [LinkTree, List.mem_cons, List.mem_flatMap] at hn
    rcases hn with rfl | ⟨j, _, hj⟩
    · refine ⟨fun hl => ?_, ?_⟩
      · simp [IsLeafNode, Children] at hl
      · intro i c hc
        simp only [Children, Option.some.injEq] at hc
        subst hc
        exact ⟨(hg i).1, (hg i).2.1⟩
    · exact ih j (hg j).2.2 n hj

theorem bit_x_iff : ∀ i : Fin 8, ((i : Nat) &&& 4 ≠ 0) ↔ (i : Nat) / 4 % 2 = 1 := by decide

theorem bit_y_iff : ∀ i : Fin 8, ((i : Nat) &&& 2 ≠ 0) ↔ (i : Nat) / 2 % 2 = 1 := by decide

theorem bit_z_iff : ∀ i : Fin 8, ((i : Nat) &&& 1 ≠ 0) ↔ (i : Nat) % 2 = 1 := by decide

theorem NewOrigin_eq (O HD : Vec3) (i : Fin 8) :
    NewOrigin O HD i =
      { x := O.x + (if (i : Nat) / 4 % 2 = 1 then 1 else -1) * (HD.x / 2)
        y := O.y + (if (i : Nat) / 2 % 2 = 1 then 1 else -1) * (HD.y / 2)
        z := O.z + (if (i : Nat) % 2 = 1 then 1 else -1) * (HD.z / 2) } := by
  have hx := bit_x_iff i
  have hy := bit_y_iff i
  have hz := bit_z_iff i
  simp only [NewOrigin, Vec3.mk.injEq]
  refine ⟨?_, ?_, ?_⟩
  · by_cases c : (i : Nat) / 4 % 2 = 1
    · rw [if_pos (hx.2 c), if_pos c]; norm_num; ring
    · rw [if_neg (fun hh => c (hx.1 hh)), if_neg c]; norm_num; ring
  · by_cases c : (i : Nat) / 2 % 2 = 1
    · rw [if_pos (hy.2 c), if_pos c]; norm_num; ring
    · rw [if_neg (fun hh => c (hy.1 hh)), if_neg c]; norm_num; ring
  · by_cases c : (i : Nat) % 2 = 1
    · rw [if_pos (hz.2 c), if_pos c]; norm_num; ring
    · rw [if_neg (fun hh => c (hz.1 hh)), if_neg c]; norm_num; ring

/-! ### The walk prunes no leaf that passes the footprint test -/

theorem Intersects_iff (t : OpticalDepthOctree) (q : Vec3) :
    Intersects t q = true ↔
      (t.Origin.x - t.HalfDimension.x < q.x ∧ q.x < t.Origin.x + t.HalfDimension.x ∧
        t.Origin.y - t.HalfDimension.y < q.y ∧ q.y < t.Origin.y + t.HalfDimension.y) := by
  simp only [Intersects, gt_iff_lt]
  split_ifs with h <;> simp [h]

theorem Intersects_child (O HD : Vec3) (D : Option OpticalDepthPoint) (tp : Int)
    (C : Fin 8 → OpticalDepthOctree) (i : Fin 8) (c : OpticalDepthOctree) (q : Vec3)
    (ho : c.Origin = NewOrigin O HD i) (hh : c.HalfDimension = HD.scale 0.5)
    (h : Intersects c q = true) : Intersects (inner O HD D tp C) q = true := by
  rw [Intersects_iff] at h ⊢
  rw [ho, hh, NewOrigin_eq] at h
  simp only [Vec3.scale, Origin, HalfDimension] at h ⊢
  obtain ⟨h1, h2, h3, h4⟩ := h
  have e : (0.5 : ℚ) = 1 / 2 := by norm_num
  rw [e] at h1 h2 h3 h4
  refine ⟨?_, ?_, ?_, ?_⟩
  · split_ifs at h1 h2 <;> linarith
  · split_ifs at h1 h2 <;> linarith
  · split_ifs at h3 h4 <;> linarith
  · split_ifs at h3 h4 <;> linarith

theorem SpecColumnCells_eq_specCells :
    ∀ (t : OpticalDepthOctree) (q : Vec3), SpecColumnCells t q = specCells t q := by
  intro t q
  induction t with
  | leaf O HD D tp =>
    cases D with
    | none => simp [SpecColumnCells, LinkTree, specCells, IsLeafNode, Children, Data]
    | some d =>
      simp only [SpecColumnCells, LinkTree, specCells]
      rw [List.filter_cons_of_pos (by simp [IsLeafNode, Children])]
      simp only [List.filter_nil, List.filterMap_cons, Data, Option.some_bind, Origin,
        HalfDimension]
      split_ifs <;> simp
  | inner O HD D tp C ih =>
    simp only [SpecColumnCells, LinkTree, specCells]
    rw [List.filter_cons_of_neg (by simp [IsLeafNode, Children]), List.filter_flatMap,
      List.filterMap_flatMap]
    apply List.flatMap_congr
    intro i _
    exact ih i

theorem specCells_of_not_Intersects :
    ∀ (t : OpticalDepthOctree) (q : Vec3), Octants t → Intersects t q = false →
      specCells t q = [] := by
  intro t q
  induction t with
  | leaf O HD D tp =>
    intro _ h
    have hn := (Intersects_eq_false_iff _ q).1 h
    simp only [Origin, HalfDimension] at hn
    cases D with
    | none => rfl
    | some d => simp [specCells, hn]
  | inner O HD D tp C ih =>
    intro hoct h
    simp only [specCells, List.flatMap_eq_nil_iff]
    intro i _
    apply ih i (hoct i).2.2
    by_contra hc
    have ht : Intersects (C i) q = true := by simpa using hc
    have := Intersects_child O HD D tp C i (C i) q (hoct i).1 (hoct i).2.1 ht
    rw [h] at this
    exact Bool.false_ne_true this

theorem Contributing_eq_specCells :
    ∀ (t : OpticalDepthOctree) (q : Vec3), Octants t → Contributing t q = specCells t q := by
  intro t q
  induction t with
  | leaf O HD D tp =>
    intro _
    by_cases h : Intersects (leaf O HD D tp) q = true
    · have hp := (Intersects_iff _ q).1 h
      simp only [Origin, HalfDimension] at hp
      cases D with
      | none => simp [Contributing, specCells]
      | some d =>
        simp only [Contributing, specCells, h, Bool.not_true, Bool.false_eq_true, if_false, hp,
          true_and, ge_iff_le]
        by_cases hz : d.pos.z < q.z
        · simp [hz, not_le.2 hz]
        · simp [hz, not_lt.1 hz]
    · have hf : Intersects (leaf O HD D tp) q = false := by simpa using h
      rw [specCells_of_not_Intersects (leaf O HD D tp) q trivial hf]
      simp [Contributing, hf]
  | inner O HD D tp C ih =>
    intro hoct
    by_cases h : Intersects (inner O HD D tp C) q = true
    · simp only [Contributing, specCells, h, Bool.not_true, Bool.false_eq_true, if_false]
      apply List.flatMap_congr
      intro i _
      exact ih i (hoct i).2.2
    · have hf : Intersects (inner O HD D tp C) q = false := by simpa using h
      rw [specCells_of_not_Intersects _ q hoct hf]
      simp [Contributing, hf]

end OpticalDepthOctree

namespace OpticalDepthOctree

/-! ## Helper lemmas: `Insert` in FLOAT arithmetic -/

theorem InsertF_leaf_none (fl : ℚ → ℚ) (fuel : Nat) (O HD : Vec3) (tp : Int)
    (p : OpticalDepthPoint) :
    InsertF fl (fuel + 1) (leaf O HD none tp) p = some (leaf O HD (some p) (tp + 1)) := rfl

theorem InsertF_new (fl : ℚ → ℚ) (fuel : Nat) (O HD : Vec3) (p : OpticalDepthPoint) :
    InsertF fl (fuel + 1) (new O HD) p = some (leaf O HD (some p) 1) := rfl

theorem InsertF_leaf_some (fl : ℚ → ℚ) (fuel : Nat) (O HD : Vec3) (old : OpticalDepthPoint)
    (tp : Int) (htp : 1 ≤ tp) (p : OpticalDepthPoint) :
    InsertF fl (fuel + 1) (leaf O HD (some old) tp) p =
      (InsertF fl fuel (new (NewOriginF fl O HD (octant O old.pos)) (HD.scaleF fl 0.5)) old).bind
        fun c1 =>
        (InsertF fl fuel
          (Function.update (fun i : Fin 8 => new (NewOriginF fl O HD i) (HD.scaleF fl 0.5))
            (octant O old.pos) c1 (octant O p.pos)) p).bind fun c2 =>
          some (inner O HD none (tp + 1)
            (Function.update
              (Function.update (fun i : Fin 8 => new (NewOriginF fl O HD i) (HD.scaleF fl 0.5))
                (octant O old.pos) c1) (octant O p.pos) c2)) := by
  have h : tp + 1 > 1 := by omega
  rw [octant_eq O old.pos, octant_eq O p.pos]
  simp only [InsertF, h, if_true, GetOctantContainingPoint_lt, dite_true]

theorem InsertF_leaf_uncounted (fl : ℚ → ℚ) (fuel : Nat) (O HD : Vec3) (old : OpticalDepthPoint)
    (tp : Int) (htp : ¬ 1 ≤ tp) (p : OpticalDepthPoint) :
    InsertF fl (fuel + 1) (leaf O HD (some old) tp) p = some (leaf O HD (some old) (tp + 1)) := by
  have hn : ¬ (tp + 1 > 1) := by omega
  simp only [InsertF, hn, if_false]

theorem InsertF_inner (fl : ℚ → ℚ) (fuel : Nat) (O HD : Vec3) (D : Option OpticalDepthPoint)
    (tp : Int) (C : Fin 8 → OpticalDepthOctree) (p : OpticalDepthPoint) :
    InsertF fl (fuel + 1) (inner O HD D tp C) p =
      (InsertF fl fuel (C (octant O p.pos)) p).bind fun c =>
        some (inner O HD D (tp + 1) (Function.update C (octant O p.pos) c)) := by
  rw [octant_eq O p.pos]
  simp only [InsertF, GetOctantContainingPoint_lt, dite_true]

/-- More fuel does not change a result. -/
theorem InsertF_mono (fl : ℚ → ℚ) (fuel : Nat) :
    ∀ (t : OpticalDepthOctree) (p : OpticalDepthPoint) (t1 : OpticalDepthOctree),
      InsertF fl fuel t p = some t1 → InsertF fl (fuel + 1) t p = some t1 := by
  induction fuel with
  | zero => intro t p t1 h; simp [InsertF] at h
  | succ f ih =>
    intro t p t1 h
    cases t with
    | leaf O HD D tp =>
      cases D with
      | none => rw [InsertF_leaf_none] at h ⊢; exact h
      | some old =>
        by_cases htp : 1 ≤ tp
        · rw [InsertF_leaf_some _ _ _ _ _ _ htp] at h ⊢
          obtain ⟨c1, hc1, h⟩ := Option.bind_eq_some.1 h
          obtain ⟨c2, hc2, h⟩ := Option.bind_eq_some.1 h
          rw [ih _ _ _ hc1, Option.some_bind, ih _ _ _ hc2, Option.some_bind]
          exact h
        · rw [InsertF_leaf_uncounted _ _ _ _ _ _ htp] at h ⊢
          exact h
    | inner O HD D tp C =>
      rw [InsertF_inner] at h ⊢
      obtain ⟨c, hc, h⟩ := Option.bind_eq_some.1 h
      rw [ih _ _ _ hc, Option.some_bind]
      exact h

theorem InsertF_mono_le (fl : ℚ → ℚ) {f1 f2 : Nat} (hle : f1 ≤ f2) (t : OpticalDepthOctree)
    (p : OpticalDepthPoint) (t1 : OpticalDepthOctree) (h : InsertF fl f1 t p = some t1) :
    InsertF fl f2 t p = some t1 := by
  induction hle with
  | refl => exact h
  | step _ ih => exact InsertF_mono fl _ _ _ _ ih

theorem InsertAllF_mono_le (fl : ℚ → ℚ) {f1 f2 : Nat} (hle : f1 ≤ f2) :
    ∀ (pts : List OpticalDepthPoint) (t t1 : OpticalDepthOctree),
      InsertAllF fl f1 t pts = some t1 → InsertAllF fl f2 t pts = some t1 := by
  intro pts
  induction pts with
  | nil => intro t t1 h; simpa [InsertAllF] using h
  | cons p ps ih =>
    intro t t1 h
    simp only [InsertAllF] at h ⊢
    obtain ⟨t2, h2, h3⟩ := Option.bind_eq_some.1 h
    rw [InsertF_mono_le fl hle _ _ _ h2, Option.some_bind]
    exact ih _ _ h3

/-! ### The leaves gain exactly the inserted point -/

theorem Counted_new (O HD : Vec3) : Counted (new O HD) := by
  refine ⟨le_rfl, ?_⟩
  intro h; exact absurd rfl h

theorem Counted_update (O HD : Vec3) (D D1 : Option OpticalDepthPoint) (tp tp1 : Int)
    (C : Fin 8 → OpticalDepthOctree) (k : Fin 8) (c : OpticalDepthOctree)
    (hC : Counted (inner O HD D tp C)) (hc : Counted c) :
    Counted (inner O HD D1 tp1 (Function.update C k c)) := by
  intro i
  by_cases h : i = k
  · subst h; simpa using hc
  · simpa [Function.update_noteq h] using hC i

theorem coe_leafData_update (O HD : Vec3) (D D1 : Option OpticalDepthPoint) (tp tp1 : Int)
    (C : Fin 8 → OpticalDepthOctree) (k : Fin 8) (c : OpticalDepthOctree) (p : OpticalDepthPoint)
    (hc : ((leafData c : List OpticalDepthPoint) : Multiset OpticalDepthPoint) =
      p ::ₘ ((leafData (C k) : List OpticalDepthPoint) : Multiset OpticalDepthPoint)) :
    ((leafData (inner O HD D1 tp1 (Function.update C k c)) : List OpticalDepthPoint)
        : Multiset OpticalDepthPoint) =
      p ::ₘ ((leafData (inner O HD D tp C) : List OpticalDepthPoint)
        : Multiset OpticalDepthPoint) := by
  rw [coe_leafData_inner, coe_leafData_inner]
  have h := sum_update_children C
    (fun t => ((leafData t : List OpticalDepthPoint) : Multiset OpticalDepthPoint)) k c
  simp only [hc] at h
  have h2 : ∑ i : Fin 8, ((leafData (Function.update C k c i)
        : List OpticalDepthPoint) : Multiset OpticalDepthPoint)
        + ((leafData (C k) : List OpticalDepthPoint) : Multiset OpticalDepthPoint)
      = (p ::ₘ ∑ i : Fin 8, ((leafData (C i) : List OpticalDepthPoint)
          : Multiset OpticalDepthPoint))
        + ((leafData (C k) : List OpticalDepthPoint) : Multiset OpticalDepthPoint) := by
    rw [h, Multiset.cons_add, Multiset.add_cons]
  exact add_right_cancel h2

theorem coe_leafData_inner_new (O HD : Vec3) (D : Option OpticalDepthPoint) (tp : Int)
    (f : Fin 8 → Vec3) (H : Vec3) :
    ((leafData (inner O HD D tp fun i : Fin 8 => new (f i) H) : List OpticalDepthPoint)
        : Multiset OpticalDepthPoint) = 0 := by
  rw [coe_leafData_inner]
  simp [new, leafData]

/-- Whatever the rounding, an `Insert` that returns keeps the counters and adds
exactly the inserted point to the payloads of the leaves. -/
theorem InsertF_conserves (fl : ℚ → ℚ) (fuel : Nat) :
    ∀ (t : OpticalDepthOctree) (p : OpticalDepthPoint) (t1 : OpticalDepthOctree),
      Counted t → InsertF fl fuel t p = some t1 →
      Counted t1 ∧
        ((leafData t1 : List OpticalDepthPoint) : Multiset OpticalDepthPoint) =
          p ::ₘ ((leafData t : List OpticalDepthPoint) : Multiset OpticalDepthPoint) := by
  induction fuel with
  | zero => intro t p t1 _ h; simp [InsertF] at h
  | succ f ih =>
    intro t p t1 hc h
    cases t with
    | leaf O HD D tp =>
      cases D with
      | none =>
        rw [InsertF_leaf_none] at h
        cases h
        refine ⟨⟨by have := hc.1; omega, fun _ => by have := hc.1; omega⟩, ?_⟩
        simp [leafData]
      | some old =>
        have htp : 1 ≤ tp := hc.2 (by simp)
        rw [InsertF_leaf_some _ _ _ _ _ _ htp] at h
        obtain ⟨c1, hc1, h⟩ := Option.bind_eq_some.1 h
        obtain ⟨c2, hc2, h⟩ := Option.bind_eq_some.1 h
        cases h
        have hkids : Counted (inner O HD none tp
            fun i : Fin 8 => new (NewOriginF fl O HD i) (HD.scaleF fl 0.5)) :=
          fun i => Counted_new _ _
        obtain ⟨hcc1, hl1⟩ := ih _ _ _ (Counted_new _ _) hc1
        have hC1 := Counted_update O HD none none tp tp _ (octant O old.pos) c1 hkids hcc1
        obtain ⟨hcc2, hl2⟩ := ih _ _ _ (hC1 _) hc2
        refine ⟨Counted_update O HD none none tp (tp + 1) _ (octant O p.pos) c2 hC1 hcc2, ?_⟩
        rw [coe_leafData_update O HD none none tp (tp + 1) _ (octant O p.pos) c2 p hl2,
          coe_leafData_update O HD none none tp tp _ (octant O old.pos) c1 old hl1,
          coe_leafData_inner_new]
        simp [leafData]
    | inner O HD D tp C =>
      rw [InsertF_inner] at h
      obtain ⟨c, hc1, h⟩ := Option.bind_eq_some.1 h
      cases h
      obtain ⟨hcc, hl⟩ := ih _ _ _ (hc _) hc1
      exact ⟨Counted_update O HD D D tp (tp + 1) C _ c hc hcc,
        coe_leafData_update O HD D D tp (tp + 1) C _ c p hl⟩

theorem InsertAllF_conserves (fl : ℚ → ℚ) (fuel : Nat) :
    ∀ (pts : List OpticalDepthPoint) (t t1 : OpticalDepthOctree),
      Counted t → InsertAllF fl fuel t pts = some t1 →
      Counted t1 ∧
        ((leafData t1 : List OpticalDepthPoint) : Multiset OpticalDepthPoint) =
          (pts : Multiset OpticalDepthPoint) +
            ((leafData t : List OpticalDepthPoint) : Multiset OpticalDepthPoint) := by
  intro pts
  induction pts with
  | nil =>
    intro t t1 hc h
    simp only [InsertAllF] at h
    cases h
    exact ⟨hc, by simp⟩
  | cons p ps ih =>
    intro t t1 hc h
    simp only [InsertAllF] at h
    obtain ⟨t2, h2, h3⟩ := Option.bind_eq_some.1 h
    obtain ⟨hc2, hl2⟩ := InsertF_conserves fl fuel t p t2 hc h2
    obtain ⟨hc1, hl1⟩ := ih t2 t1 hc2 h3
    refine ⟨hc1, ?_⟩
    rw [hl1, hl2, ← Multiset.cons_coe, Multiset.cons_add, Multiset.add_cons]

/-! ### Exact cells: the FLOAT tree is the tree of exact arithmetic -/

theorem InsertF_new_eq (fl : ℚ → ℚ) (fuel : Nat) (O HD : Vec3) (p : OpticalDepthPoint) :
    InsertF fl fuel (new O HD) p = Insert fuel (new O HD) p := by
  cases fuel <;> rfl

/-- When the cells on the way of the point are computed without rounding,
`Insert` in FLOAT arithmetic is `Insert` in exact arithmetic. -/
theorem InsertF_eq_Insert (fl : ℚ → ℚ) (fuel : Nat) :
    ∀ (t : OpticalDepthOctree) (p : OpticalDepthPoint),
      Octants t → ExactCells fl fuel t.Origin t.HalfDimension p.pos →
      InsertF fl fuel t p = Insert fuel t p := by
  induction fuel with
  | zero => intro t p _ _; rfl
  | succ f ih =>
    intro t p hoct hex
    cases t with
    | leaf O HD D tp =>
      cases D with
      | none => rfl
      | some old =>
        by_cases htp : 1 ≤ tp
        · obtain ⟨hH, hO, hrest⟩ := hex
          simp only [Origin, HalfDimension] at hH hO hrest
          have hkids : (fun i : Fin 8 => new (NewOriginF fl O HD i) (HD.scaleF fl 0.5)) =
              fun i : Fin 8 => new (NewOrigin O HD i) (HD.scale 0.5) := by
            funext i; rw [hO i, hH]
          rw [InsertF_leaf_some _ _ _ _ _ _ htp, Insert_leaf_some _ _ _ _ _ htp, hkids, hO, hH,
            InsertF_new_eq]
          cases f with
          | zero => rfl
          | succ g =>
            rw [Insert_new, Option.some_bind, Option.some_bind]
            have hnode : InsertF fl (g + 1)
                (Function.update (fun i : Fin 8 => new (NewOrigin O HD i) (HD.scale 0.5))
                  (octant O old.pos)
                  (leaf (NewOrigin O HD (octant O old.pos)) (HD.scale 0.5) (some old) 1)
                  (octant O p.pos)) p =
                Insert (g + 1)
                (Function.update (fun i : Fin 8 => new (NewOrigin O HD i) (HD.scale 0.5))
                  (octant O old.pos)
                  (leaf (NewOrigin O HD (octant O old.pos)) (HD.scale 0.5) (some old) 1)
                  (octant O p.pos)) p := by
              by_cases hk : octant O p.pos = octant O old.pos
              · rw [hk, Function.update_same]
                apply ih (leaf (NewOrigin O HD (octant O old.pos)) (HD.scale 0.5) (some old) 1) p
                  trivial
                simp only [Origin, HalfDimension]
                rw [← hk]; exact hrest
              · rw [Function.update_noteq hk]
                exact InsertF_new_eq fl _ _ _ _
            rw [hnode]
        · have hn : ¬ (tp + 1 > 1) := by omega
          rw [InsertF_leaf_uncounted _ _ _ _ _ _ htp]
          simp only [Insert, hn, if_false]
    | inner O HD D tp C =>
      obtain ⟨_, _, hrest⟩ := hex
      simp only [Origin, HalfDimension] at hrest
      rw [InsertF_inner, Insert_inner]
      have hchild : InsertF fl f (C (octant O p.pos)) p = Insert f (C (octant O p.pos)) p := by
        apply ih _ _ (hoct _).2.2
        rw [(hoct _).1, (hoct _).2.1]
        exact hrest
      rw [hchild]

theorem InsertAllF_eq_InsertAll (fl : ℚ → ℚ) (fuel : Nat) :
    ∀ (pts : List OpticalDepthPoint) (t : OpticalDepthOctree),
      Octants t → (∀ p ∈ pts, ExactCells fl fuel t.Origin t.HalfDimension p.pos) →
      InsertAllF fl fuel t pts = InsertAll fuel t pts := by
  intro pts
  induction pts with
  | nil => intro t _ _; rfl
  | cons p ps ih =>
    intro t hoct hex
    simp only [InsertAllF, InsertAll]
    rw [InsertF_eq_Insert fl fuel t p hoct (hex p (List.mem_cons_self _ _))]
    cases hI : Insert fuel t p with
    | none => rfl
    | some t2 =>
      simp only [Option.some_bind]
      obtain ⟨ho, hh⟩ := Insert_Origin fuel t p t2 hI
      apply ih t2 (Insert_Octants fuel t p t2 hoct hI)
      intro q hq
      rw [ho, hh]
      exact hex q (List.mem_cons_of_mem _ hq)

theorem ExactCells_id : ∀ (n : Nat) (O HD P : Vec3), ExactCells id n O HD P := by
  intro n
  induction n with
  | zero => intro _ _ _; trivial
  | succ n ih =>
    intro O HD P
    exact ⟨rfl, fun _ => rfl, ih _ _ _⟩

/-- With `fl = id` the FLOAT tree is the tree of exact arithmetic. -/
theorem InsertF_id (fuel : Nat) (t : OpticalDepthOctree) (p : OpticalDepthPoint)
    (hoct : Octants t) : InsertF id fuel t p = Insert fuel t p :=
  InsertF_eq_Insert id fuel t p hoct (ExactCells_id _ _ _ _)

/-! ### `Insert` that never returns -/

/-- A second point with the octant of the stored one is handed, with the
stored one, to the child of that octant. -/
theorem InsertF_same_octant (fl : ℚ → ℚ) (O HD : Vec3) (old p : OpticalDepthPoint) (tp : Int)
    (htp : 1 ≤ tp) (hk : octant O p.pos = octant O old.pos)
    (hchild : ∀ fuel, InsertF fl fuel
      (leaf (NewOriginF fl O HD (octant O old.pos)) (HD.scaleF fl 0.5) (some old) 1) p = none) :
    ∀ fuel, InsertF fl fuel (leaf O HD (some old) tp) p = none := by
  intro fuel
  cases fuel with
  | zero => rfl
  | succ f =>
    rw [InsertF_leaf_some _ _ _ _ _ _ htp]
    cases f with
    | zero => rfl
    | succ g =>
      rw [InsertF_new, Option.some_bind, hk, Function.update_same, hchild]
      rfl

/-- Two points of the same octant in a cell whose child of that octant is the
cell itself: `Insert` of the second returns for no fuel. -/
theorem InsertF_fixed_cell (fl : ℚ → ℚ) (O HD : Vec3) (old p : OpticalDepthPoint)
    (hk : octant O p.pos = octant O old.pos)
    (hO : NewOriginF fl O HD (octant O old.pos) = O) (hH : HD.scaleF fl 0.5 = HD) :
    ∀ (fuel : Nat) (tp : Int), 1 ≤ tp → InsertF fl fuel (leaf O HD (some old) tp) p = none := by
  intro fuel
  induction fuel with
  | zero => intro _ _; rfl
  | succ f ih =>
    intro tp htp
    rw [InsertF_leaf_some _ _ _ _ _ _ htp]
    cases f with
    | zero => rfl
    | succ g =>
      rw [InsertF_new, Option.some_bind, hk, Function.update_same, hO, hH, ih 1 le_rfl]
      rfl

end OpticalDepthOctree

namespace OpticalDepthOctree

/-! ### Depth of the recursion in exact cells -/

theorem Geom_Octants : ∀ t : OpticalDepthOctree, Geom t → Octants t := by
  intro t
  induction t with
  | leaf O HD D tp => intro _; trivial
  | inner O HD D tp C ih =>
    intro hg i
    exact ⟨(hg i).1, (hg i).2.1, ih i (hg i).2.2⟩

theorem Geom_Counted : ∀ t : OpticalDepthOctree, Geom t → Counted t := by
  intro t
  induction t with
  | leaf O HD D tp =>
    intro hg
    refine ⟨hg.1, fun hD => ?_⟩
    obtain ⟨q, hq⟩ := Option.ne_none_iff_exists'.1 hD
    exact (hg.2 q hq).2
  | inner O HD D tp C ih =>
    intro hg i
    exact ih i (hg i).2.2

theorem InBox_parent (O HD P : Vec3) (i : Fin 8)
    (h : InBox (NewOrigin O HD i) (HD.scale 0.5) P) : InBox O HD P := by
  rw [NewOrigin_eq] at h
  simp only [InBox, Vec3.scale] at h ⊢
  have e : (0.5 : ℚ) = 1 / 2 := by norm_num
  rw [e] at h
  obtain ⟨⟨hx1, hx2⟩, ⟨hy1, hy2⟩, ⟨hz1, hz2⟩⟩ := h
  refine ⟨⟨?_, ?_⟩, ⟨?_, ?_⟩, ⟨?_, ?_⟩⟩
  · split_ifs at hx1 hx2 <;> linarith
  · split_ifs at hx1 hx2 <;> linarith
  · split_ifs at hy1 hy2 <;> linarith
  · split_ifs at hy1 hy2 <;> linarith
  · split_ifs at hz1 hz2 <;> linarith
  · split_ifs at hz1 hz2 <;> linarith

theorem Geom_leafData_InBox :
    ∀ t : OpticalDepthOctree, Geom t → ∀ q ∈ leafData t, InBox t.Origin t.HalfDimension q.pos := by
  intro t
  induction t with
  | leaf O HD D tp =>
    intro hg q hq
    cases D with
    | none => simp [leafData] at hq
    | some d =>
      simp only [leafData, Option.toList_some, List.mem_singleton] at hq
      subst hq
      exact (hg.2 q rfl).1
  | inner O HD D tp C ih =>
    intro hg q hq
    simp only [leafData, List.mem_flatMap] at hq
    obtain ⟨i, _, hqi⟩ := hq
    have := ih i (hg i).2.2 q hqi
    rw [(hg i).1, (hg i).2.1] at this
    exact InBox_parent O HD q.pos i this

theorem InnerNonEmpty_update (O HD : Vec3) (D1 : Option OpticalDepthPoint) (tp1 : Int)
    (C : Fin 8 → OpticalDepthOctree) (k : Fin 8) (c : OpticalDepthOctree)
    (hC : ∀ i : Fin 8, InnerNonEmpty (C i)) (hc : InnerNonEmpty c)
    (hne : leafData (inner O HD D1 tp1 (Function.update C k c)) ≠ []) :
    InnerNonEmpty (inner O HD D1 tp1 (Function.update C k c)) := by
  refine ⟨hne, fun i => ?_⟩
  by_cases h : i = k
  · subst h; simpa using hc
  · simpa [Function.update_noteq h] using hC i

theorem leafData_ne_nil_of_coe (l : List OpticalDepthPoint) (p : OpticalDepthPoint)
    (m : Multiset OpticalDepthPoint) (h : (l : Multiset OpticalDepthPoint) = p ::ₘ m) : l ≠ [] := by
  intro hl
  subst hl
  exact Multiset.cons_ne_zero h.symm

/-- Whatever the rounding, an `Insert` that returns leaves a payload below
every internal node. -/
theorem InsertF_InnerNonEmpty (fl : ℚ → ℚ) (fuel : Nat) :
    ∀ (t : OpticalDepthOctree) (p : OpticalDepthPoint) (t1 : OpticalDepthOctree),
      Counted t → InnerNonEmpty t → InsertF fl fuel t p = some t1 → InnerNonEmpty t1 := by
  induction fuel with
  | zero => intro t p t1 _ _ h; simp [InsertF] at h
  | succ f ih =>
    intro t p t1 hc hinv h
    have hcons := (InsertF_conserves fl (f + 1) t p t1 hc h).2
    cases t with
    | leaf O HD D tp =>
      cases D with
      | none =>
        rw [InsertF_leaf_none] at h
        cases h
        trivial
      | some old =>
        have htp : 1 ≤ tp := hc.2 (by simp)
        rw [InsertF_leaf_some _ _ _ _ _ _ htp] at h
        obtain ⟨c1, hc1, h⟩ := Option.bind_eq_some.1 h
        obtain ⟨c2, hc2, h⟩ := Option.bind_eq_some.1 h
        cases h
        have hkids : ∀ i : Fin 8, InnerNonEmpty
            ((fun i : Fin 8 => new (NewOriginF fl O HD i) (HD.scaleF fl 0.5)) i) :=
          fun i => trivial
        have hkc : Counted (inner O HD none tp
            fun i : Fin 8 => new (NewOriginF fl O HD i) (HD.scaleF fl 0.5)) :=
          fun i => Counted_new _ _
        have hi1 : InnerNonEmpty c1 := ih _ _ _ (Counted_new _ _) trivial hc1
        have hcc1 := (InsertF_conserves fl f _ _ _ (Counted_new _ _) hc1).1
        have hC1 : ∀ i : Fin 8, InnerNonEmpty
            (Function.update (fun i : Fin 8 => new (NewOriginF fl O HD i) (HD.scaleF fl 0.5))
              (octant O old.pos) c1 i) := by
          intro i
          by_cases hik : i = octant O old.pos
          · subst hik; simpa using hi1
          · simpa [Function.update_noteq hik] using hkids i
        have hCc := Counted_update O HD none none tp tp _ (octant O old.pos) c1 hkc hcc1
        have hi2 : InnerNonEmpty c2 := ih _ _ _ (hCc _) (hC1 _) hc2
        exact InnerNonEmpty_update O HD none (tp + 1) _ (octant O p.pos) c2 hC1 hi2
          (leafData_ne_nil_of_coe _ _ _ hcons)
    | inner O HD D tp C =>
      rw [InsertF_inner] at h
      obtain ⟨c, hc1, h⟩ := Option.bind_eq_some.1 h
      cases h
      exact InnerNonEmpty_update O HD D (tp + 1) C (octant O p.pos) c hinv.2
        (ih _ _ _ (hc _) (hinv.2 _) hc1) (leafData_ne_nil_of_coe _ _ _ hcons)

theorem InsertAllF_InnerNonEmpty (fl : ℚ → ℚ) (fuel : Nat) :
    ∀ (pts : List OpticalDepthPoint) (t t1 : OpticalDepthOctree),
      Counted t → InnerNonEmpty t → InsertAllF fl fuel t pts = some t1 → InnerNonEmpty t1 := by
  intro pts
  induction pts with
  | nil => intro t t1 _ hinv h; simp only [InsertAllF] at h; cases h; exact hinv
  | cons p ps ih =>
    intro t t1 hc hinv h
    simp only [InsertAllF] at h
    obtain ⟨t2, h2, h3⟩ := Option.bind_eq_some.1 h
    exact ih t2 t1 (InsertF_conserves fl fuel t p t2 hc h2).1
      (InsertF_InnerNonEmpty fl fuel t p t2 hc hinv h2) h3

/-- A second point put into an occupied leaf of exact cells: when the two
positions are separated at scale `n`, a recursion of depth `n + 1` returns. -/
theorem Insert_occupied_depth (n : Nat) :
    ∀ (O HD : Vec3) (old p : OpticalDepthPoint) (tp : Int),
      InBox O HD old.pos → InBox O HD p.pos → 1 ≤ tp → Separated n HD old.pos p.pos →
      ∃ t1 : OpticalDepthOctree, Insert (n + 1) (leaf O HD (some old) tp) p = some t1 := by
  induction n with
  | zero =>
    intro O HD old p tp ho hp _ hs
    exact absurd hs (not_Separated_zero O HD _ _ ho hp)
  | succ n ih =>
    intro O HD old p tp ho hp htp hs
    by_cases hk : octant O p.pos = octant O old.pos
    · have hp1 : InBox (NewOrigin O HD (octant O old.pos)) (HD.scale 0.5) p.pos := by
        rw [← hk]; exact InBox_child O HD _ hp
      obtain ⟨t2, hf⟩ :=
        ih (NewOrigin O HD (octant O old.pos)) (HD.scale 0.5) old p 1
          (InBox_child O HD _ ho) hp1 le_rfl (Separated_child n HD _ _ hs)
      apply Option.isSome_iff_exists.1
      rw [Insert_leaf_some _ _ _ _ _ htp, Insert_new, Option.some_bind, hk,
        Function.update_same, hf, Option.some_bind]
      rfl
    · apply Option.isSome_iff_exists.1
      rw [Insert_leaf_some _ _ _ _ _ htp, Insert_new, Option.some_bind,
        Function.update_noteq hk, Insert_new, Option.some_bind]
      rfl

/-- A point of the box of a tree of exact cells that is separated at scale `n`
from every stored point: a recursion of depth `n + 1` returns. -/
theorem Insert_depth :
    ∀ t : OpticalDepthOctree, Geom t → InnerNonEmpty t → ∀ (n : Nat) (p : OpticalDepthPoint),
      InBox t.Origin t.HalfDimension p.pos →
      (∀ q ∈ leafData t, Separated n t.HalfDimension q.pos p.pos) →
      ∃ t1 : OpticalDepthOctree, Insert (n + 1) t p = some t1 := by
  intro t
  induction t with
  | leaf O HD D tp =>
    intro hg _ n p hp hsep
    cases D with
    | none => exact ⟨_, Insert_leaf_none n O HD tp p⟩
    | some old =>
      obtain ⟨hbo, htp⟩ := hg.2 old rfl
      exact Insert_occupied_depth n O HD old p tp hbo hp htp (hsep old (by simp [leafData]))
  | inner O HD D tp C ih =>
    intro hg hinv n p hp hsep
    obtain ⟨q, hq⟩ := List.exists_mem_of_ne_nil _ hinv.1
    have hqb := Geom_leafData_InBox _ hg q hq
    have hn : n ≠ 0 := by
      intro h0
      subst h0
      exact not_Separated_zero O HD _ _ hqb hp (hsep q hq)
    obtain ⟨m, rfl⟩ := Nat.exists_eq_succ_of_ne_zero hn
    obtain ⟨hko, hkh, hkg⟩ := hg (octant O p.pos)
    have hpk : InBox (C (octant O p.pos)).Origin (C (octant O p.pos)).HalfDimension p.pos := by
      rw [hko, hkh]; exact InBox_child O HD _ hp
    have hsk : ∀ r ∈ leafData (C (octant O p.pos)),
        Separated m (C (octant O p.pos)).HalfDimension r.pos p.pos := by
      intro r hr
      rw [hkh]
      apply Separated_child
      apply hsep r
      simp only [leafData, List.mem_flatMap]
      exact ⟨octant O p.pos, List.mem_finRange _, hr⟩
    obtain ⟨c, hc⟩ := ih (octant O p.pos) hkg (hinv.2 _) m p hpk hsk
    apply Option.isSome_iff_exists.1
    rw [Insert_inner, hc, Option.some_bind]
    rfl

theorem Insert_conserves (fuel : Nat) (t : OpticalDepthOctree) (p : OpticalDepthPoint)
    (t1 : OpticalDepthOctree) (hg : Geom t) (h : Insert fuel t p = some t1) :
    InnerNonEmpty t → InnerNonEmpty t1 ∧
      ((leafData t1 : List OpticalDepthPoint) : Multiset OpticalDepthPoint) =
        p ::ₘ ((leafData t : List OpticalDepthPoint) : Multiset OpticalDepthPoint) := by
  intro hinv
  rw [← InsertF_id fuel t p (Geom_Octants t hg)] at h
  exact ⟨InsertF_InnerNonEmpty id fuel t p t1 (Geom_Counted t hg) hinv h,
    (InsertF_conserves id fuel t p t1 (Geom_Counted t hg) h).2⟩

/-- Points of the box of a tree of exact cells, separated at scale `n` from
each other and from every stored point: recursions of depth `n + 1` return. -/
theorem InsertAll_depth (n : Nat) :
    ∀ (pts : List OpticalDepthPoint) (t : OpticalDepthOctree), Geom t → InnerNonEmpty t →
      (∀ p ∈ pts, InBox t.Origin t.HalfDimension p.pos) →
      pts.Pairwise (fun a b => Separated n t.HalfDimension a.pos b.pos) →
      (∀ q ∈ leafData t, ∀ p ∈ pts, Separated n t.HalfDimension q.pos p.pos) →
      ∃ t1 : OpticalDepthOctree, InsertAll (n + 1) t pts = some t1 := by
  intro pts
  induction pts with
  | nil => intro t _ _ _ _ _; exact ⟨t, rfl⟩
  | cons p ps ih =>
    intro t hg hinv hbox hpw hsep
    rw [List.pairwise_cons] at hpw
    obtain ⟨t2, h2⟩ := Insert_depth t hg hinv n p (hbox p (List.mem_cons_self _ _))
      (fun q hq => hsep q hq p (List.mem_cons_self _ _))
    obtain ⟨ho, hh⟩ := Insert_Origin (n + 1) t p t2 h2
    have hg2 := Insert_Geom (n + 1) t p t2 hg (hbox p (List.mem_cons_self _ _)) h2
    obtain ⟨hinv2, hl2⟩ := Insert_conserves (n + 1) t p t2 hg h2 hinv
    have hmem : ∀ q, q ∈ leafData t2 ↔ q = p ∨ q ∈ leafData t := by
      intro q
      rw [← Multiset.mem_coe, hl2, Multiset.mem_cons, Multiset.mem_coe]
    obtain ⟨t1, h1⟩ := ih t2 hg2 hinv2
      (fun q hq => by rw [ho, hh]; exact hbox q (List.mem_cons_of_mem _ hq))
      (by rw [hh]; exact hpw.2)
      (fun q hq r hr => by
        rw [hh]
        rcases (hmem q).1 hq with rfl | hq1
        · exact hpw.1 r hr
        · exact hsep q hq1 r (List.mem_cons_of_mem _ hr))
    refine ⟨t1, ?_⟩
    simp only [InsertAll]
    rw [h2, Option.some_bind]
    exact h1

/-! ### `TraverseTree` in FLOAT arithmetic as a sum over the contributing leaves -/

theorem IntersectsF_eq_Intersects (fl : ℚ → ℚ) (n : OpticalDepthOctree) (q : Vec3)
    (h : ExactEdges fl n) : IntersectsF fl n q = Intersects n q := by
  obtain ⟨h1, h2, h3, h4⟩ := h
  simp only [IntersectsF, Intersects, h1, h2, h3, h4]

theorem TraverseTreeF_eq_fold (fl : ℚ → ℚ) (AU_TO_CM : ℚ) (GetKappar : ℚ → ℚ → ℚ) :
    ∀ (t : OpticalDepthOctree) (q : Vec3) (acc : ℚ × ℚ),
      TraverseTreeF fl AU_TO_CM GetKappar t q acc =
        ((ContributingF fl t q).foldl (fun s c => fl (s + sigmaTermF fl AU_TO_CM c)) acc.1,
         (ContributingF fl t q).foldl (fun s c => fl (s + tauTermF fl AU_TO_CM GetKappar c))
          acc.2) := by
  intro t
  induction t with
  | leaf O HD D tp =>
    rintro q ⟨S, T⟩
    simp only [TraverseTreeF, ContributingF]
    split_ifs with h1
    · simp
    · cases D with
      | none => simp
      | some d =>
        simp only
        split_ifs with h2
        · simp
        · simp [sigmaTermF, tauTermF]
  | inner O HD D tp C ih =>
    intro q acc
    simp only [TraverseTreeF, ContributingF]
    split_ifs with h1
    · simp
    · have key : ∀ (l : List (Fin 8)) (a : ℚ × ℚ),
          l.foldl (fun a i => TraverseTreeF fl AU_TO_CM GetKappar (C i) q a) a =
            ((l.flatMap fun i => ContributingF fl (C i) q).foldl
                (fun s c => fl (s + sigmaTermF fl AU_TO_CM c)) a.1,
             (l.flatMap fun i => ContributingF fl (C i) q).foldl
                (fun s c => fl (s + tauTermF fl AU_TO_CM GetKappar c)) a.2) := by
        intro l
        induction l with
        | nil => intro a; simp
        | cons i l ihl =>
          intro a
          simp only [List.foldl_cons, List.flatMap_cons, List.foldl_append]
          rw [ihl, ih i q a]
      exact key _ acc

theorem ContributingF_eq_Contributing (fl : ℚ → ℚ) :
    ∀ (t : OpticalDepthOctree) (q : Vec3), (∀ n ∈ LinkTree t, ExactEdges fl n) →
      ContributingF fl t q = Contributing t q := by
  intro t q
  induction t with
  | leaf O HD D tp =>
    intro h
    have he := IntersectsF_eq_Intersects fl (leaf O HD D tp) q (h _ (by simp [LinkTree]))
    simp only [ContributingF, Contributing, he]
  | inner O HD D tp C ih =>
    intro h
    have he := IntersectsF_eq_Intersects fl (inner O HD D tp C) q (h _ (by simp [LinkTree]))
    simp only [ContributingF, Contributing, he]
    split_ifs with h1
    · rfl
    · apply List.flatMap_congr
      intro i _
      apply ih i
      intro n hn
      apply h
      simp only [LinkTree, List.mem_cons, List.mem_flatMap]
      exact Or.inr ⟨i, List.mem_finRange _, hn⟩

end OpticalDepthOctree

/-! ## Helper lemmas: FindOpticalDepth in FLOAT arithmetic -/

theorem processedEvents_snoc (start : Int) (n : Nat) :
    processedEvents start (n + 1) =
      processedEvents start n ++
        [AnalyseEvent.Read (start + n), AnalyseEvent.Pipeline (start + n)] := by
  simp [processedEvents, List.range_succ]

theorem AnalyseStep_safe (N : Nat) (g : Bool) (Read : Int → Bool) (th : AnalyseThread) (c : Int)
    (hs : ThreadSafe N th) :
    ∃ r : AnalyseThread × Int, AnalyseStep N g Read th c = some r ∧ ThreadSafe N r.1 := by
  obtain ⟨h0, hN⟩ := hs
  unfold AnalyseStep
  by_cases hr : th.running = true
  · simp only [hr, Bool.not_true, Bool.false_eq_true, if_false]
    cases hl : th.loaded with
    | some v => exact ⟨_, rfl, by constructor <;> simp only <;> omega⟩
    | none =>
      simp only
      by_cases hlt : th.i < th.«end»
      · have hb : ¬ (th.i < 0 ∨ (N : Int) ≤ th.i) := by omega
        simp only [hlt, not_true_eq_false, if_false, hb]
        cases g
        · exact ⟨_, rfl, ⟨h0, hN⟩⟩
        · cases Read th.i
          · exact ⟨_, rfl, ⟨h0, hN⟩⟩
          · exact ⟨_, rfl, ⟨h0, hN⟩⟩
      · simp only [hlt, not_false_eq_true, if_true]
        exact ⟨_, rfl, ⟨h0, hN⟩⟩
  · have : th.running = false := by simpa using hr
    simp only [this, Bool.not_false, if_true]
    exact ⟨_, rfl, ⟨h0, hN⟩⟩

theorem AnalyseStep_ThreadOK (N : Nat) (Read : Int → Bool) (start stop k : Int)
    (hk2 : k ≤ stop) (hok : ∀ j, start ≤ j → j < k → Read j = true)
    (hfail : k < stop → Read k = false) (th : AnalyseThread) (c : Int)
    (r : AnalyseThread × Int) (hinv : ThreadOK start stop k th)
    (h : AnalyseStep N true Read th c = some r) : ThreadOK start stop k r.1 := by
  obtain ⟨he, hinv⟩ := hinv
  unfold AnalyseStep at h
  by_cases hr : th.running = true
  · simp only [hr, Bool.not_true, Bool.false_eq_true, if_false, if_true] at h hinv
    cases hl : th.loaded with
    | some v =>
      simp only [hl, Option.some.injEq] at h hinv
      subst h
      obtain ⟨h1, h2, h3⟩ := hinv
      refine ⟨he, ?_⟩
      simp only [hr, if_true]
      exact ⟨by omega, by omega, h3⟩
    | none =>
      simp only [hl] at h hinv
      obtain ⟨h1, h2, h3⟩ := hinv
      by_cases hlt : th.i < th.«end»
      · simp only [hlt, not_true_eq_false, if_false] at h
        by_cases hb : th.i < 0 ∨ (N : Int) ≤ th.i
        · simp only [hb, if_true] at h
          exact absurd h (by simp)
        · simp only [hb, if_false] at h
          cases hR : Read th.i with
          | false =>
            simp only [hR, Bool.not_false, if_true, Option.some.injEq] at h
            subst h
            have hik : th.i = k := by
              by_contra hne
              have := hok th.i h1 (by omega)
              rw [hR] at this
              exact Bool.false_ne_true this
            refine ⟨he, ?_⟩
            simp only [Bool.false_eq_true, if_false, hl, true_and]
            have hke : k < stop := by rw [← hik, ← he]; exact hlt
            simp only [finishedEvents, hke, if_true, h3, hik]
          | true =>
            simp only [hR, Bool.not_true, Bool.false_eq_true, if_false, Option.some.injEq] at h
            subst h
            have hik : th.i < k := by
              by_contra hne
              have hik : th.i = k := by omega
              have := hfail (by rw [← hik, ← he]; exact hlt)
              rw [← hik, hR] at this
              exact Bool.false_ne_true this.symm
            refine ⟨he, ?_⟩
            simp only [hr, if_true]
            refine ⟨h1, hik, ?_⟩
            have e1 : (th.i + 1 - start).toNat = (th.i - start).toNat + 1 := by omega
            have e2 : start + ((th.i - start).toNat : Int) = th.i := by omega
            rw [e1, processedEvents_snoc, e2, h3]
      · simp only [hlt, not_false_eq_true, if_true, Option.some.injEq] at h
        subst h
        refine ⟨he, ?_⟩
        simp only [Bool.false_eq_true, if_false, hl, true_and]
        have hik : th.i = k := by omega
        have hke : ¬ k < stop := by omega
        simp only [finishedEvents, hke, if_false, List.append_nil, h3, hik]
  · have hrf : th.running = false := by simpa using hr
    simp only [hrf, Bool.not_false, if_true, Option.some.injEq] at h
    subst h
    exact ⟨he, hinv⟩

theorem RunThreads_ThreadOK (N : Nat) (Read : Int → Bool) (w : Nat) (start stop k : Int)
    (hk2 : k ≤ stop) (hok : ∀ j, start ≤ j → j < k → Read j = true)
    (hfail : k < stop → Read k = false) :
    ∀ (schedule : List Nat) (threads : Nat → AnalyseThread) (c : Int),
      (∀ v, ThreadSafe N (threads v)) → ThreadOK start stop k (threads w) →
      ∃ (threads1 : Nat → AnalyseThread) (c1 : Int),
        RunThreads N true Read schedule (threads, c) = some (threads1, c1) ∧
          ThreadOK start stop k (threads1 w) := by
  intro schedule
  induction schedule with
  | nil => intro threads c _ hinv; exact ⟨threads, c, rfl, hinv⟩
  | cons v rest ih =>
    intro threads c hsafe hinv
    obtain ⟨r, hr, hrs⟩ := AnalyseStep_safe N true Read (threads v) c (hsafe v)
    have hsafe1 : ∀ u, ThreadSafe N (Function.update threads v r.1 u) := by
      intro u
      by_cases hu : u = v
      · subst hu; simpa using hrs
      · simpa [Function.update_noteq hu] using hsafe u
    have hinv1 : ThreadOK start stop k (Function.update threads v r.1 w) := by
      by_cases hwv : w = v
      · subst hwv
        simp only [Function.update_same]
        exact AnalyseStep_ThreadOK N Read start stop k hk2 hok hfail _ c r hinv hr
      · simpa [Function.update_noteq hwv] using hinv
    obtain ⟨threads1, c1, h1, h2⟩ := ih _ r.2 hsafe1 hinv1
    refine ⟨threads1, c1, ?_, h2⟩
    simp only [RunThreads]
    rw [hr, Option.some_bind]
    exact h1

theorem RunThreads_append (N : Nat) (g : Bool) (Read : Int → Bool) :
    ∀ (l1 l2 : List Nat) (s : (Nat → AnalyseThread) × Int),
      RunThreads N g Read (l1 ++ l2) s = (RunThreads N g Read l1 s).bind (RunThreads N g Read l2) := by
  intro l1
  induction l1 with
  | nil => intro l2 s; rfl
  | cons v rest ih =>
    rintro l2 ⟨threads, c⟩
    simp only [List.cons_append, RunThreads]
    cases AnalyseStep N g Read (threads v) c with
    | none => rfl
    | some r => simp only [Option.some_bind]; exact ih l2 _

theorem RunThreads_finished (N : Nat) (g : Bool) (Read : Int → Bool) (w : Nat) :
    ∀ (j : Nat) (threads : Nat → AnalyseThread) (c : Int), (threads w).running = false →
      RunThreads N g Read (List.replicate j w) (threads, c) = some (threads, c) := by
  intro j
  induction j with
  | zero => intro threads c _; rfl
  | succ j ih =>
    intro threads c hf
    simp only [List.replicate_succ, RunThreads, AnalyseStep, hf, Bool.not_false, if_true,
      Option.some_bind, Function.update_eq_self]
    exact ih threads c hf

theorem RunThreads_cons (N : Nat) (g : Bool) (Read : Int → Bool) (w : Nat) (schedule : List Nat)
    (threads : Nat → AnalyseThread) (c : Int) :
    RunThreads N g Read (w :: schedule) (threads, c) =
      (AnalyseStep N g Read (threads w) c).bind fun r =>
        RunThreads N g Read schedule (Function.update threads w r.1, r.2) := rfl

theorem AnalyseStep_begin (N : Nat) (Read : Int → Bool) (a stop c : Int) (E : List AnalyseEvent)
    (h0 : 0 ≤ a) (hlt : a < stop) (hN : stop ≤ N) (hR : Read a = true) :
    AnalyseStep N true Read ⟨a, stop, none, true, E⟩ c =
      some (⟨a, stop, some c, true, E ++ [AnalyseEvent.Read a, AnalyseEvent.Pipeline a]⟩, c) := by
  have hb : ¬ (a < 0 ∨ (N : Int) ≤ a) := by omega
  simp [AnalyseStep, hlt, hb, hR]

theorem AnalyseStep_store (N : Nat) (Read : Int → Bool) (a stop v c : Int)
    (E : List AnalyseEvent) :
    AnalyseStep N true Read ⟨a, stop, some v, true, E⟩ c = some (⟨a + 1, stop, none, true, E⟩, v + 1) := by
  simp [AnalyseStep]

theorem AnalyseStep_leave (N : Nat) (Read : Int → Bool) (k stop c : Int) (E : List AnalyseEvent)
    (h0 : 0 ≤ k) (hN : stop ≤ N) (hfail : k < stop → Read k = false) :
    AnalyseStep N true Read ⟨k, stop, none, true, E⟩ c =
      some (⟨k, stop, none, false, E ++ (if k < stop then [AnalyseEvent.Read k] else [])⟩, c) := by
  by_cases hlt : k < stop
  · have hb : ¬ (k < 0 ∨ (N : Int) ≤ k) := by omega
    simp [AnalyseStep, hlt, hb, hfail hlt]
  · simp [AnalyseStep, hlt]

/-- A worker that is alone in taking steps: after two steps for each file
before `k` and one more it has left the function, and the counter has gone up
by the number of files before `k`. -/
theorem RunThreads_alone (N : Nat) (Read : Int → Bool) (w : Nat) (stop k : Int) (hN : stop ≤ N)
    (hk2 : k ≤ stop) (hfail : k < stop → Read k = false) :
    ∀ (n : Nat) (threads : Nat → AnalyseThread) (c a : Int) (E : List AnalyseEvent),
      threads w = ⟨a, stop, none, true, E⟩ → 0 ≤ a → k - a = n →
      (∀ j, a ≤ j → j < k → Read j = true) →
      RunThreads N true Read (List.replicate (2 * n + 1) w) (threads, c) =
        some (Function.update threads w
          ⟨k, stop, none, false,
            E ++ processedEvents a n ++ (if k < stop then [AnalyseEvent.Read k] else [])⟩,
          c + n) := by
  intro n
  induction n with
  | zero =>
    intro threads c a E hth h0 hka hok
    have hak : a = k := by omega
    subst hak
    rw [show 2 * 0 + 1 = 1 from rfl, List.replicate_one, RunThreads_cons, hth,
      AnalyseStep_leave N Read a stop c E h0 hN hfail, Option.some_bind]
    simp [RunThreads, processedEvents]
  | succ n ih =>
    intro threads c a E hth h0 hka hok
    have hlt : a < stop := by omega
    have hR : Read a = true := hok a le_rfl (by omega)
    have e : 2 * (n + 1) + 1 = (2 * n + 1) + 1 + 1 := by ring
    rw [e, List.replicate_succ, List.replicate_succ, RunThreads_cons, hth,
      AnalyseStep_begin N Read a stop c E h0 hlt hN hR, Option.some_bind, RunThreads_cons,
      Function.update_same, AnalyseStep_store, Option.some_bind, Function.update_idem,
      ih _ (c + 1) (a + 1) (E ++ [AnalyseEvent.Read a, AnalyseEvent.Pipeline a])
        (by simp) (by omega) (by omega) (fun j h1 h2 => hok j (by omega) h2)]
    simp only [Function.update_idem, processedEvents_succ, List.append_assoc, Nat.cast_succ]
    congr 1
    congr 1
    ring

theorem ThreadSafe_startThreads (N : Nat) (ranges : List (Int × Int))
    (hranges : ∀ r ∈ ranges, 0 ≤ r.1 ∧ r.2 ≤ N) (v : Nat) :
    ThreadSafe N (startThreads ranges v) := by
  unfold startThreads
  cases h : ranges[v]? with
  | none => exact ⟨le_rfl, by simp⟩
  | some r => exact hranges r (List.getElem?_mem h)

/-! ## Helper lemmas: rounding to binary64 -/

theorem bitBound_spec (n : Nat) :
    ∀ (fuel B : Nat), n ≤ fuel + B → n < 2 ^ 2 ^ bitBound n fuel B := by
  intro fuel
  induction fuel with
  | zero =>
    intro B h
    simp only [bitBound]
    calc n ≤ B := by omega
      _ < 2 ^ B := Nat.lt_two_pow B
      _ ≤ 2 ^ 2 ^ B := Nat.pow_le_pow_right (by norm_num) (Nat.lt_two_pow B).le
  | succ fuel ih =>
    intro B h
    simp only [bitBound]
    cases hb : Nat.blt n (Nat.pow 2 (Nat.pow 2 B)) with
    | true =>
      simp only [cond_true]
      have hlt := hb
      rw [Nat.blt_eq] at hlt
      simpa using hlt
    | false =>
      simp only [cond_false]
      exact ih (B + 1) (by omega)

theorem log2Search_spec (n : Nat) :
    ∀ (b k : Nat), 2 ^ k ≤ n → n < 2 ^ (k + 2 ^ b) →
      2 ^ log2Search n b k ≤ n ∧ n < 2 ^ (log2Search n b k + 1) := by
  intro b
  induction b with
  | zero =>
    intro k h1 h2
    simp only [log2Search]
    exact ⟨h1, by simpa using h2⟩
  | succ b ih =>
    intro k h1 h2
    simp only [log2Search]
    cases hb : Nat.ble (Nat.pow 2 (Nat.add k (Nat.pow 2 b))) n with
    | true =>
      simp only [cond_true]
      have h3 : 2 ^ (k + 2 ^ b) ≤ n := by
        have hle := hb
        rw [Nat.ble_eq] at hle
        simpa using hle
      apply ih (Nat.add k (Nat.pow 2 b)) h3
      have e : Nat.add k (Nat.pow 2 b) + 2 ^ b = k + 2 ^ (b + 1) := by
        simp only [Nat.add_eq, Nat.pow_eq]; ring
      rw [e]; exact h2
    | false =>
      simp only [cond_false]
      apply ih k h1
      have h3 : ¬ 2 ^ (k + 2 ^ b) ≤ n := by
        intro hle
        have : Nat.ble (Nat.pow 2 (Nat.add k (Nat.pow 2 b))) n = true :=
          Nat.ble_eq_true_of_le (by simpa using hle)
        rw [hb] at this
        exact Bool.false_ne_true this
      omega

theorem log2_spec (n : Nat) (hn : 1 ≤ n) : 2 ^ log2 n ≤ n ∧ n < 2 ^ (log2 n + 1) := by
  unfold log2
  apply log2Search_spec n _ 0 (by simpa using hn)
  simpa using bitBound_spec n n 0 (by omega)

theorem floorLog2_eq (n d : Nat) :
    floorLog2 n d =
      if log2 d ≤ log2 n then
        if 2 ^ (log2 n - log2 d) * d ≤ n then ((log2 n - log2 d : Nat) : Int)
        else ((log2 n - log2 d : Nat) : Int) - 1
      else
        if d ≤ 2 ^ (log2 d - log2 n) * n then -((log2 d - log2 n : Nat) : Int)
        else -((log2 d - log2 n : Nat) : Int) - 1 := by
  simp only [floorLog2, cond_eq_if, Nat.ble_eq, Nat.pow_eq, Nat.sub_eq, Nat.mul_eq,
    Int.subNatNat_eq_coe, Int.negOfNat_eq, Int.ofNat_eq_coe, Nat.succ_eq_add_one]
  split_ifs <;> push_cast <;> ring

/-- The exponent of the binade: `2 ^ k ≤ n / d < 2 ^ (k + 1)`. -/
theorem floorLog2_spec (n d : Nat) (hn : 1 ≤ n) (hd : 1 ≤ d) :
    (2 : ℚ) ^ floorLog2 n d * d ≤ n ∧ (n : ℚ) < (2 : ℚ) ^ (floorLog2 n d + 1) * d := by
  obtain ⟨hA1, hA2⟩ := log2_spec n hn
  obtain ⟨hB1, hB2⟩ := log2_spec d hd
  have qA1 : (2 : ℚ) ^ log2 n ≤ n := by exact_mod_cast hA1
  have qA2 : (n : ℚ) < 2 * 2 ^ log2 n := by
    have : (n : ℚ) < 2 ^ (log2 n + 1) := by exact_mod_cast hA2
    rwa [pow_succ, mul_comm] at this
  have qB1 : (2 : ℚ) ^ log2 d ≤ d := by exact_mod_cast hB1
  have qB2 : (d : ℚ) < 2 * 2 ^ log2 d := by
    have : (d : ℚ) < 2 ^ (log2 d + 1) := by exact_mod_cast hB2
    rwa [pow_succ, mul_comm] at this
  have h2 : (2 : ℚ) ≠ 0 := by norm_num
  rw [floorLog2_eq]
  by_cases hab : log2 d ≤ log2 n
  · obtain ⟨j, hj⟩ : ∃ j, log2 n = log2 d + j := ⟨log2 n - log2 d, by omega⟩
    have hjj : log2 n - log2 d = j := by omega
    have qj : (2 : ℚ) ^ log2 n = 2 ^ log2 d * 2 ^ j := by rw [hj, pow_add]
    have pj : (0 : ℚ) < 2 ^ j := by positivity
    have pb : (0 : ℚ) < 2 ^ log2 d := by positivity
    simp only [hab, if_true, hjj]
    by_cases ht : 2 ^ j * d ≤ n
    · simp only [ht, if_true]
      have qt : (2 : ℚ) ^ j * d ≤ n := by exact_mod_cast ht
      rw [zpow_natCast, show ((j : Int) + 1) = ((j + 1 : Nat) : Int) by push_cast; ring,
        zpow_natCast, pow_succ]
      refine ⟨qt, ?_⟩
      nlinarith
    · simp only [ht, if_false]
      have qt : (n : ℚ) < (2 : ℚ) ^ j * d := by
        have : n < 2 ^ j * d := by omega
        exact_mod_cast this
      rw [zpow_sub_one₀ h2, show ((j : Int) - 1 + 1) = (j : Int) by ring, zpow_natCast]
      refine ⟨?_, qt⟩
      have : (2 : ℚ) ^ j * 2⁻¹ * d = (2 ^ j * d) / 2 := by ring
      rw [this, div_le_iff₀ (by norm_num : (0 : ℚ) < 2)]
      nlinarith
  · obtain ⟨j, hj⟩ : ∃ j, log2 d = log2 n + j := ⟨log2 d - log2 n, by omega⟩
    have hjj : log2 d - log2 n = j := by omega
    have qj : (2 : ℚ) ^ log2 d = 2 ^ log2 n * 2 ^ j := by rw [hj, pow_add]
    have pj : (0 : ℚ) < 2 ^ j := by positivity
    have pa : (0 : ℚ) < 2 ^ log2 n := by positivity
    simp only [hab, if_false, hjj]
    by_cases ht : d ≤ 2 ^ j * n
    · simp only [ht, if_true]
      have qt : (d : ℚ) ≤ (2 : ℚ) ^ j * n := by exact_mod_cast ht
      rw [zpow_neg, zpow_natCast, zpow_add_one₀ h2, zpow_neg, zpow_natCast]
      constructor
      · rw [inv_mul_le_iff₀ pj]; exact qt
      · have : ((2 : ℚ) ^ j)⁻¹ * 2 * d = (2 * d) / 2 ^ j := by field_simp
        rw [this, lt_div_iff₀ pj]
        nlinarith
    · simp only [ht, if_false]
      have qt : (2 : ℚ) ^ j * n < d := by
        have : 2 ^ j * n < d := by omega
        exact_mod_cast this
      rw [show (-(j : Int) - 1 + 1) = -(j : Int) by ring, zpow_sub_one₀ h2, zpow_neg, zpow_natCast]
      constructor
      · have : ((2 : ℚ) ^ j)⁻¹ * 2⁻¹ * d = d / (2 * 2 ^ j) := by
          rw [← mul_inv, mul_comm ((2 : ℚ) ^ j) 2, div_eq_inv_mul]
        rw [this, div_le_iff₀ (by positivity)]
        nlinarith
      · have : ((2 : ℚ) ^ j)⁻¹ * d = d / 2 ^ j := by field_simp
        rw [this, lt_div_iff₀ pj]
        linarith

theorem roundHalfEven_eq (n d : Nat) :
    roundHalfEven n d =
      if 2 * (n % d) < d then n / d
      else if d < 2 * (n % d) then n / d + 1
      else if n / d % 2 = 0 then n / d else n / d + 1 := by
  simp only [roundHalfEven, cond_eq_if, Nat.blt_eq, Nat.beq_eq, Nat.mul_eq,
    Nat.succ_eq_add_one]
  rfl

theorem roundHalfEven_nat (n d : Nat) (hd : 1 ≤ d) :
    (2 * (roundHalfEven n d * d) ≤ 2 * n + d ∧ 2 * n ≤ 2 * (roundHalfEven n d * d) + d) ∧
    ((2 * (roundHalfEven n d * d) = 2 * n + d ∨ 2 * n = 2 * (roundHalfEven n d * d) + d) →
      roundHalfEven n d % 2 = 0) := by
  have hdiv : d * (n / d) + n % d = n := Nat.div_add_mod n d
  have hr : n % d < d := Nat.mod_lt n (by omega)
  have e1 : n / d * d = d * (n / d) := Nat.mul_comm _ _
  have e2 : (n / d + 1) * d = d * (n / d) + d := by ring
  rw [roundHalfEven_eq]
  split_ifs with h1 h2 h3
  · rw [e1]; refine ⟨⟨by omega, by omega⟩, fun h => ?_⟩
    omega
  · rw [e2]; refine ⟨⟨by omega, by omega⟩, fun h => ?_⟩
    omega
  · rw [e1]; exact ⟨⟨by omega, by omega⟩, fun _ => h3⟩
  · rw [e2]; refine ⟨⟨by omega, by omega⟩, fun _ => ?_⟩
    omega

/-- The rounded quotient is nearest to the quotient, and even on a tie. -/
theorem roundHalfEven_spec (n d : Nat) (hd : 1 ≤ d) :
    |(roundHalfEven n d : ℚ) - (n : ℚ) / d| ≤ 1 / 2 ∧
    (|(roundHalfEven n d : ℚ) - (n : ℚ) / d| = 1 / 2 → roundHalfEven n d % 2 = 0) := by
  obtain ⟨⟨h1, h2⟩, h3⟩ := roundHalfEven_nat n d hd
  have pd : (0 : ℚ) < d := by exact_mod_cast hd
  have q1 : 2 * ((roundHalfEven n d : ℚ) * d) ≤ 2 * n + d := by exact_mod_cast h1
  have q2 : 2 * (n : ℚ) ≤ 2 * ((roundHalfEven n d : ℚ) * d) + d := by exact_mod_cast h2
  have key : (roundHalfEven n d : ℚ) - (n : ℚ) / d = ((roundHalfEven n d : ℚ) * d - n) / d := by
    field_simp
  constructor
  · rw [key, abs_le]
    constructor
    · rw [le_div_iff₀ pd]; linarith
    · rw [div_le_iff₀ pd]; linarith
  · intro htie
    apply h3
    rw [key, abs_eq (by norm_num : (0 : ℚ) ≤ 1 / 2)] at htie
    rcases htie with h | h
    · left
      rw [div_eq_iff pd.ne'] at h
      have : 2 * ((roundHalfEven n d : ℚ) * d) = 2 * n + d := by linarith
      exact_mod_cast this
    · right
      rw [div_eq_iff pd.ne'] at h
      have : 2 * (n : ℚ) = 2 * ((roundHalfEven n d : ℚ) * d) + d := by linarith
      exact_mod_cast this

/-- The rounding of a positive quotient: a whole number of units `2 ^ e`,
nearest to the quotient and even on a tie, with `e` the exponent of the
binade less 52 and not below `-1074`. -/
theorem binary64Abs_spec (n d : Nat) (hd : 1 ≤ d) :
    ∃ m : Nat,
      binary64Abs n d = (m : ℚ) * (2 : ℚ) ^ max (floorLog2 n d - 52) (-1074) ∧
      |(m : ℚ) - (n : ℚ) / d / (2 : ℚ) ^ max (floorLog2 n d - 52) (-1074)| ≤ 1 / 2 ∧
      (|(m : ℚ) - (n : ℚ) / d / (2 : ℚ) ^ max (floorLog2 n d - 52) (-1074)| = 1 / 2 →
        m % 2 = 0) := by
  unfold binary64Abs
  generalize max (floorLog2 n d - 52) (-1074) = e
  have pd : (0 : ℚ) < d := by exact_mod_cast hd
  cases e with
  | ofNat s =>
    have hD : 1 ≤ d * 2 ^ s := Nat.one_le_iff_ne_zero.2 (by positivity)
    obtain ⟨h1, h2⟩ := roundHalfEven_spec n (d * 2 ^ s) hD
    have ey : (n : ℚ) / d / (2 : ℚ) ^ (Int.ofNat s) = (n : ℚ) / ((d * 2 ^ s : Nat) : ℚ) := by
      rw [Int.ofNat_eq_coe, zpow_natCast]; push_cast; rw [div_div]
    refine ⟨roundHalfEven n (d * 2 ^ s), ?_, ?_, ?_⟩
    · simp only [Nat.mul_eq, Nat.pow_eq, Int.ofNat_eq_coe, zpow_natCast]
      push_cast; ring
    · rw [ey]; exact h1
    · rw [ey]; exact h2
  | negSucc s =>
    obtain ⟨h1, h2⟩ := roundHalfEven_spec (n * 2 ^ (s + 1)) d hd
    have p2 : (0 : ℚ) < 2 ^ (s + 1) := by positivity
    have ez : (2 : ℚ) ^ (Int.negSucc s) = ((2 : ℚ) ^ (s + 1))⁻¹ := by
      rw [zpow_negSucc]
    have ey : (n : ℚ) / d / (2 : ℚ) ^ (Int.negSucc s) = ((n * 2 ^ (s + 1) : Nat) : ℚ) / d := by
      rw [ez]; push_cast; field_simp
    refine ⟨roundHalfEven (n * 2 ^ (s + 1)) d, ?_, ?_, ?_⟩
    · simp only [Nat.mul_eq, Nat.pow_eq, Nat.succ_eq_add_one]
      rw [Rat.mkRat_eq_div, ez]
      push_cast
      rw [div_eq_mul_inv]
    · rw [ey]; exact h1
    · rw [ey]; exact h2

theorem binary64_zero : binary64 0 = 0 := rfl

theorem binary64_of_pos (x : ℚ) (hx : 0 < x) : binary64 x = binary64Abs x.num.natAbs x.den := by
  have hnum : 0 < x.num := Rat.num_pos.2 hx
  unfold binary64
  cases h : x.num with
  | ofNat k =>
    cases k with
    | zero => rw [h] at hnum; exact absurd hnum (by simp)
    | succ k => simp [Int.natAbs]
  | negSucc k => rw [h] at hnum; exact absurd hnum (by simp)

theorem binary64_neg (x : ℚ) : binary64 (-x) = -binary64 x := by
  unfold binary64
  rw [Rat.neg_num, Rat.neg_den]
  cases h : x.num with
  | ofNat k =>
    cases k with
    | zero => simp
    | succ k =>
      have : -Int.ofNat (k + 1) = Int.negSucc k := rfl
      simp only [this]
  | negSucc k =>
    have : -Int.negSucc k = Int.ofNat (k + 1) := rfl
    simp only [this, neg_neg]

/-- The rounding of a positive number: a whole number `m` of units `2 ^ e`,
nearest to the number and even on a tie; `e` is the exponent `k` of the binade
of the number less 52, and not below `-1074`. -/
theorem binary64_pos_spec (x : ℚ) (hx : 0 < x) :
    ∃ (k : Int) (m : Nat),
      (2 : ℚ) ^ k ≤ x ∧ x < (2 : ℚ) ^ (k + 1) ∧
      binary64 x = (m : ℚ) * (2 : ℚ) ^ max (k - 52) (-1074) ∧
      |(m : ℚ) - x / (2 : ℚ) ^ max (k - 52) (-1074)| ≤ 1 / 2 ∧
      (|(m : ℚ) - x / (2 : ℚ) ^ max (k - 52) (-1074)| = 1 / 2 → m % 2 = 0) := by
  have hnum : 0 < x.num := Rat.num_pos.2 hx
  have hn : 1 ≤ x.num.natAbs := by omega
  have hd : 1 ≤ x.den := x.den_pos
  have pd : (0 : ℚ) < x.den := by exact_mod_cast hd
  have hxe : ((x.num.natAbs : Nat) : ℚ) / x.den = x := by
    have h2 : ((x.num.natAbs : Nat) : ℚ) = (x.num : ℚ) := by
      rw [← Int.cast_natCast, Int.natAbs_of_nonneg hnum.le]
    rw [h2]; exact Rat.num_div_den x
  obtain ⟨hk1, hk2⟩ := floorLog2_spec x.num.natAbs x.den hn hd
  obtain ⟨m, hm1, hm2, hm3⟩ := binary64Abs_spec x.num.natAbs x.den hd
  refine ⟨floorLog2 x.num.natAbs x.den, m, ?_, ?_, ?_, ?_, ?_⟩
  · rw [← le_div_iff₀ pd, hxe] at hk1; exact hk1
  · rw [← div_lt_iff₀ pd, hxe] at hk2; exact hk2
  · rw [binary64_of_pos x hx]; exact hm1
  · rw [hxe] at hm2; exact hm2
  · rw [hxe] at hm3; exact hm3

theorem binade_le (k j : Int) (x : ℚ) (h1 : (2 : ℚ) ^ k ≤ x) (h2 : x < (2 : ℚ) ^ (j + 1)) :
    k ≤ j := by
  have : (2 : ℚ) ^ k < (2 : ℚ) ^ (j + 1) := lt_of_le_of_lt h1 h2
  have := (zpow_lt_zpow_iff_right₀ (by norm_num : (1 : ℚ) < 2)).1 this
  omega

theorem nat_eq_of_abs_sub_le_half (m Y : Nat) (h : |(m : ℚ) - (Y : ℚ)| ≤ 1 / 2) : m = Y := by
  rw [abs_le] at h
  obtain ⟨h1, h2⟩ := h
  have a1 : ((Y : Int) : ℚ) - 1 < ((m : Int) : ℚ) := by push_cast; linarith
  have a2 : ((m : Int) : ℚ) < ((Y : Int) : ℚ) + 1 := by push_cast; linarith
  have b1 : (Y : Int) - 1 < (m : Int) := by exact_mod_cast a1
  have b2 : (m : Int) < (Y : Int) + 1 := by exact_mod_cast a2
  omega

/-- Rounding does not cross a power of two from `2 ^ -1074` on. -/
theorem binary64_le_two_zpow (i : Int) (hi : -1074 ≤ i) (x : ℚ) (hx0 : 0 ≤ x)
    (hx : x ≤ (2 : ℚ) ^ i) : 0 ≤ binary64 x ∧ binary64 x ≤ (2 : ℚ) ^ i := by
  rcases hx0.eq_or_lt with h0 | hpos
  · rw [← h0, binary64_zero]; exact ⟨le_rfl, by positivity⟩
  obtain ⟨k, m, hk1, _, hm1, hm2, _⟩ := binary64_pos_spec x hpos
  have h2 : (2 : ℚ) ≠ 0 := by norm_num
  have hki : k ≤ i := by
    have : (2 : ℚ) ^ k ≤ (2 : ℚ) ^ i := le_trans hk1 hx
    exact (zpow_le_zpow_iff_right₀ (by norm_num : (1 : ℚ) < 2)).1 this
  set e := max (k - 52) (-1074) with he
  have hei : e ≤ i := by rw [he]; exact max_le (by omega) hi
  have pe : (0 : ℚ) < (2 : ℚ) ^ e := by positivity
  obtain ⟨j, hj⟩ : ∃ j : Nat, (j : Int) = i - e := ⟨(i - e).toNat, Int.toNat_of_nonneg (by omega)⟩
  have hP : (2 : ℚ) ^ i = ((2 ^ j : Nat) : ℚ) * (2 : ℚ) ^ e := by
    push_cast
    rw [← zpow_natCast, hj, ← zpow_add₀ h2]
    congr 1; ring
  have hy : x / (2 : ℚ) ^ e ≤ ((2 ^ j : Nat) : ℚ) := by
    rw [div_le_iff₀ pe, ← hP]; exact hx
  have hmP : m ≤ 2 ^ j := by
    rw [abs_le] at hm2
    have a1 : ((m : Int) : ℚ) < (((2 ^ j : Nat) : Int) : ℚ) + 1 := by push_cast; push_cast at hy; linarith [hm2.2]
    have b1 : (m : Int) < ((2 ^ j : Nat) : Int) + 1 := by exact_mod_cast a1
    omega
  rw [hm1]
  constructor
  · positivity
  · rw [hP]
    apply mul_le_mul_of_nonneg_right _ pe.le
    exact_mod_cast hmP

theorem binary64_abs_le_two_zpow (i : Int) (hi : -1074 ≤ i) (x : ℚ) (hx : |x| ≤ (2 : ℚ) ^ i) :
    |binary64 x| ≤ (2 : ℚ) ^ i := by
  rcases le_total 0 x with h0 | h0
  · rw [abs_of_nonneg h0] at hx
    obtain ⟨h1, h2⟩ := binary64_le_two_zpow i hi x h0 hx
    rw [abs_of_nonneg h1]; exact h2
  · rw [abs_of_nonpos h0] at hx
    obtain ⟨h1, h2⟩ := binary64_le_two_zpow i hi (-x) (by linarith) hx
    rw [binary64_neg] at h1 h2
    rw [abs_of_nonpos (by linarith)]; exact h2

/-- A number within half a unit in the last place of a `double` in `[1, 2)`
with an even significand `M` is rounded to that `double`. -/
theorem binary64_near_even (M : Nat) (hM1 : 2 ^ 52 < M) (hM2 : M < 2 ^ 53) (hMe : M % 2 = 0)
    (d : ℚ) (hd : |d| ≤ 1 / 2 ^ 53) :
    binary64 ((M : ℚ) / 2 ^ 52 + d) = (M : ℚ) / 2 ^ 52 := by
  rw [abs_le] at hd
  obtain ⟨hd1, hd2⟩ := hd
  have qM1 : (2 : ℚ) ^ 52 + 1 ≤ M := by exact_mod_cast hM1
  have qM2 : (M : ℚ) + 1 ≤ 2 ^ 53 := by exact_mod_cast hM2
  have hx1 : (1 : ℚ) ≤ (M : ℚ) / 2 ^ 52 + d := by
    have : (1 : ℚ) + 1 / 2 ^ 52 ≤ (M : ℚ) / 2 ^ 52 := by
      rw [le_div_iff₀ (by positivity)]; linarith
    have : (1 : ℚ) / 2 ^ 53 ≤ 1 / 2 ^ 52 := by norm_num
    linarith
  have hx2 : (M : ℚ) / 2 ^ 52 + d < 2 := by
    have : (M : ℚ) / 2 ^ 52 ≤ 2 - 1 / 2 ^ 52 := by
      rw [div_le_iff₀ (by positivity)]; norm_num; linarith
    have : (1 : ℚ) / 2 ^ 53 < 1 / 2 ^ 52 := by norm_num
    linarith
  obtain ⟨k, m, hk1, hk2, hm1, hm2, hm3⟩ := binary64_pos_spec _ (by linarith : (0 : ℚ) < (M : ℚ) / 2 ^ 52 + d)
  have hk0 : k = 0 := by
    have a := binade_le k 0 _ hk1 (by simpa using hx2)
    have b := binade_le 0 k _ (by simpa using hx1) hk2
    omega
  subst hk0
  have he : max ((0 : Int) - 52) (-1074) = -52 := by decide
  rw [he] at hm1 hm2 hm3
  have hz : (2 : ℚ) ^ (-52 : Int) = 1 / 2 ^ 52 := by
    rw [zpow_neg, one_div]; norm_cast
  rw [hz] at hm1 hm2 hm3
  have hy : ((M : ℚ) / 2 ^ 52 + d) / (1 / 2 ^ 52) = (M : ℚ) + d * 2 ^ 52 := by
    field_simp
  rw [hy] at hm2 hm3
  have hδ1 : -(1 / 2 : ℚ) ≤ d * 2 ^ 52 := by
    have : d * 2 ^ 52 ≥ -(1 / 2 ^ 53) * 2 ^ 52 := by nlinarith
    norm_num at this ⊢; linarith
  have hδ2 : d * 2 ^ 52 ≤ (1 / 2 : ℚ) := by
    have : d * 2 ^ 52 ≤ (1 / 2 ^ 53) * 2 ^ 52 := by nlinarith
    norm_num at this ⊢; linarith
  have hmM : m = M := by
    have hm2' := abs_le.1 hm2
    have a1 : ((M : Int) : ℚ) - 1 ≤ ((m : Int) : ℚ) := by push_cast; linarith [hm2'.1]
    have a2 : ((m : Int) : ℚ) ≤ ((M : Int) : ℚ) + 1 := by push_cast; linarith [hm2'.2]
    have b1 : (M : Int) - 1 ≤ (m : Int) := by exact_mod_cast a1
    have b2 : (m : Int) ≤ (M : Int) + 1 := by exact_mod_cast a2
    by_contra hne
    have hcase : m = M + 1 ∨ m + 1 = M := by omega
    have hodd : m % 2 = 1 := by omega
    have htie : |(m : ℚ) - ((M : ℚ) + d * 2 ^ 52)| = 1 / 2 := by
      rcases hcase with h | h
      · have hq : (m : ℚ) = (M : ℚ) + 1 := by exact_mod_cast h
        have : d * 2 ^ 52 = 1 / 2 := by linarith [hm2'.2]
        rw [hq, this]; norm_num
      · have hq : (m : ℚ) + 1 = (M : ℚ) := by exact_mod_cast h
        have : d * 2 ^ 52 = -(1 / 2) := by linarith [hm2'.1]
        rw [← hq, this]
        rw [show (m : ℚ) - ((m : ℚ) + 1 + -(1 / 2)) = -(1 / 2) by ring]
        norm_num [abs_of_nonneg]
    have := hm3 htie
    omega
  rw [hm1, hmM]
  ring

/-- A whole multiple `z * 2 ^ i` of a power of two from `2 ^ -1074` on with
`|z| < 2 ^ 53` is a `double`: rounding leaves it as it is. -/
theorem binary64_exact (z i : Int) (hz : |z| < 2 ^ 53) (hi : -1074 ≤ i) :
    binary64 ((z : ℚ) * (2 : ℚ) ^ i) = (z : ℚ) * (2 : ℚ) ^ i := by
  have h2 : (2 : ℚ) ≠ 0 := by norm_num
  have key : ∀ w : Nat, 0 < w → w < 2 ^ 53 →
      binary64 ((w : ℚ) * (2 : ℚ) ^ i) = (w : ℚ) * (2 : ℚ) ^ i := by
    intro w hw0 hw
    have pw : (0 : ℚ) < w := by exact_mod_cast hw0
    have pi : (0 : ℚ) < (2 : ℚ) ^ i := by positivity
    obtain ⟨k, m, hk1, _, hm1, hm2, _⟩ := binary64_pos_spec _ (mul_pos pw pi)
    have hki : k ≤ i + 52 := by
      apply binade_le k (i + 52) _ hk1
      have : (w : ℚ) < 2 ^ 53 := by exact_mod_cast hw
      have e : (2 : ℚ) ^ (i + 52 + 1) = 2 ^ 53 * (2 : ℚ) ^ i := by
        rw [show i + 52 + 1 = (53 : Int) + i by ring, zpow_add₀ h2]; norm_cast
      rw [e]
      exact mul_lt_mul_of_pos_right this pi
    set e := max (k - 52) (-1074) with he
    have hei : e ≤ i := by rw [he]; exact max_le (by omega) hi
    have pe : (0 : ℚ) < (2 : ℚ) ^ e := by positivity
    obtain ⟨j, hj⟩ : ∃ j : Nat, (j : Int) = i - e := ⟨(i - e).toNat, Int.toNat_of_nonneg (by omega)⟩
    have hP : (2 : ℚ) ^ i = ((2 ^ j : Nat) : ℚ) * (2 : ℚ) ^ e := by
      push_cast
      rw [← zpow_natCast, hj, ← zpow_add₀ h2]
      congr 1; ring
    have hy : (w : ℚ) * (2 : ℚ) ^ i / (2 : ℚ) ^ e = ((w * 2 ^ j : Nat) : ℚ) := by
      rw [hP]; push_cast; field_simp; ring
    rw [hy] at hm2
    have := nat_eq_of_abs_sub_le_half m (w * 2 ^ j) hm2
    rw [hm1, this, hP]
    push_cast; ring
  rcases lt_trichotomy z 0 with hneg | hzero | hpos
  · have hw := key (-z).toNat (by omega) (by
      have : ((-z).toNat : Int) = -z := Int.toNat_of_nonneg (by omega)
      have h3 : |z| = -z := abs_of_neg hneg
      have : ((-z).toNat : Int) < 2 ^ 53 := by rw [this, ← h3]; exact hz
      exact_mod_cast this)
    have hc : (((-z).toNat : Nat) : ℚ) = -(z : ℚ) := by
      have : ((-z).toNat : Int) = -z := Int.toNat_of_nonneg (by omega)
      have : ((((-z).toNat : Nat) : Int) : ℚ) = ((-z : Int) : ℚ) := by rw [this]
      push_cast at this; exact this
    rw [hc, neg_mul, binary64_neg] at hw
    exact neg_injective hw
  · subst hzero; simp [binary64_zero]
  · have hw := key z.toNat (by omega) (by
      have : (z.toNat : Int) = z := Int.toNat_of_nonneg (by omega)
      have h3 : |z| = z := abs_of_pos hpos
      have : (z.toNat : Int) < 2 ^ 53 := by rw [this, ← h3]; exact hz
      exact_mod_cast this)
    have hc : ((z.toNat : Nat) : ℚ) = (z : ℚ) := by
      have : (z.toNat : Int) = z := Int.toNat_of_nonneg (by omega)
      have : (((z.toNat : Nat) : Int) : ℚ) = ((z : Int) : ℚ) := by rw [this]
      push_cast at this; exact this
    rw [hc] at hw
    exact hw

namespace OpticalDepthOctree

/-- Two points that fall in the same octant of every cell of the descent down
to a cell where `Insert` returns for no fuel: `Insert` returns for no fuel. -/
theorem InsertF_descend (fl : ℚ → ℚ) (old p : OpticalDepthPoint) :
    ∀ (n : Nat) (O HD O1 HD1 : Vec3),
      descendF fl old.pos p.pos n (O, HD) = some (O1, HD1) →
      (∀ (fuel : Nat) (tp : Int), 1 ≤ tp →
        InsertF fl fuel (leaf O1 HD1 (some old) tp) p = none) →
      ∀ (fuel : Nat) (tp : Int), 1 ≤ tp → InsertF fl fuel (leaf O HD (some old) tp) p = none := by
  intro n
  induction n with
  | zero =>
    intro O HD O1 HD1 h hend
    simp only [descendF, Option.some.injEq, Prod.mk.injEq] at h
    obtain ⟨rfl, rfl⟩ := h
    exact hend
  | succ n ih =>
    intro O HD O1 HD1 h hend fuel tp htp
    simp only [descendF] at h
    split_ifs at h with hk
    exact InsertF_same_octant fl O HD old p tp htp hk
      (fun f => ih _ _ O1 HD1 h hend f 1 le_rfl) fuel

/-- A property of cells that `Insert`'s descent keeps and under which the
payload and the new point fall in the same octant: from a leaf with that
property `Insert` returns for no fuel. -/
theorem InsertF_invariant (fl : ℚ → ℚ) (old p : OpticalDepthPoint) (Inv : Vec3 → Vec3 → Prop)
    (hoct : ∀ O HD, Inv O HD → octant O p.pos = octant O old.pos)
    (hstep : ∀ O HD, Inv O HD → Inv (NewOriginF fl O HD (octant O old.pos)) (HD.scaleF fl 0.5)) :
    ∀ (fuel : Nat) (O HD : Vec3) (tp : Int), Inv O HD → 1 ≤ tp →
      InsertF fl fuel (leaf O HD (some old) tp) p = none := by
  intro fuel
  induction fuel with
  | zero => intro _ _ _ _ _; rfl
  | succ f ih =>
    intro O HD tp hinv htp
    rw [InsertF_leaf_some _ _ _ _ _ _ htp]
    cases f with
    | zero => rfl
    | succ g =>
      rw [InsertF_new, Option.some_bind, hoct O HD hinv, Function.update_same,
        ih _ _ 1 (hstep O HD hinv) le_rfl]
      rfl

/-- In `double` arithmetic, a cell whose origin has x = 1 + 2^-51 and whose
half-extent in x is at most 2^-53 has a child of the same kind: the shift of
the origin is below half a unit in the last place of 1 + 2^-51, whose
significand is even. -/
theorem binary64_stuck_cell (O HD : Vec3) (i : Nat)
    (hO : O.x = 1 + 1 / 2 ^ 51) (hH : |HD.x| ≤ 1 / 2 ^ 53) :
    (NewOriginF binary64 O HD i).x = 1 + 1 / 2 ^ 51 ∧
      |(HD.scaleF binary64 0.5).x| ≤ 1 / 2 ^ 53 := by
  have hz : (2 : ℚ) ^ (-53 : Int) = 1 / 2 ^ 53 := by
    rw [zpow_neg, one_div]; norm_cast
  have hb : ∀ s : ℚ, |s| ≤ 1 → |binary64 (HD.x * s)| ≤ 1 / 2 ^ 53 := by
    intro s hs
    rw [← hz]
    apply binary64_abs_le_two_zpow _ (by decide)
    rw [hz, abs_mul]
    calc |HD.x| * |s| ≤ 1 / 2 ^ 53 * 1 := mul_le_mul hH hs (abs_nonneg _) (by positivity)
      _ = 1 / 2 ^ 53 := mul_one _
  have hc : (1 : ℚ) + 1 / 2 ^ 51 = ((2 ^ 52 + 2 : Nat) : ℚ) / 2 ^ 52 := by norm_num
  constructor
  · show binary64 (O.x + binary64 (HD.x * (if i &&& 4 ≠ 0 then 0.5 else -0.5))) = _
    rw [hO, hc]
    apply binary64_near_even _ (by decide) (by decide) (by decide)
    apply hb
    split_ifs <;> norm_num [abs_of_nonneg]
  · show |binary64 (HD.x * 0.5)| ≤ _
    apply hb
    norm_num [abs_of_nonneg]

/-- One coordinate of `Insert`'s step from a cell of half-extent `2 ^ j` whose
origin is the multiple `a * 2 ^ j`, `|a| < 2 ^ D`, `D < 53`: in `double`
arithmetic the halved half-extent and the shifted origin are exact, and the
new origin is a multiple of `2 ^ (j - 1)` below `2 ^ (D + 1)`. -/
theorem binary64_dyadic_step (D : Nat) (j a : Int) (c : ℚ) (hc : c = 0.5 ∨ c = -0.5)
    (hD : D + 1 ≤ 53) (hj : -1074 ≤ j - 1) (ha : |a| < 2 ^ D) :
    (2 : ℚ) ^ j * 0.5 = (2 : ℚ) ^ (j - 1) ∧
    binary64 ((2 : ℚ) ^ j * 0.5) = (2 : ℚ) ^ j * 0.5 ∧
    binary64 ((a : ℚ) * (2 : ℚ) ^ j + binary64 ((2 : ℚ) ^ j * c)) =
      (a : ℚ) * (2 : ℚ) ^ j + (2 : ℚ) ^ j * c ∧
    ∃ a1 : Int, |a1| < 2 ^ (D + 1) ∧
      (a : ℚ) * (2 : ℚ) ^ j + (2 : ℚ) ^ j * c = (a1 : ℚ) * (2 : ℚ) ^ (j - 1) := by
  have h2 : (2 : ℚ) ≠ 0 := by norm_num
  have hjj : (2 : ℚ) ^ j = 2 * (2 : ℚ) ^ (j - 1) := by
    rw [show j = 1 + (j - 1) by ring, zpow_add₀ h2]; simp
  have hhalf : (2 : ℚ) ^ j * 0.5 = (2 : ℚ) ^ (j - 1) := by
    rw [show (0.5 : ℚ) = 1 / 2 by norm_num, hjj]; ring
  have hpow : (2 : Int) ^ D * 2 ≤ 2 ^ 53 := by
    calc (2 : Int) ^ D * 2 = 2 ^ (D + 1) := by ring
      _ ≤ 2 ^ 53 := pow_le_pow_right₀ (by norm_num) hD
  have hpos : (0 : Int) < 2 ^ D := by positivity
  have ha2 := abs_lt.1 ha
  obtain ⟨s, hs, hcs⟩ : ∃ s : Int, (s = 1 ∨ s = -1) ∧ (2 : ℚ) ^ j * c = (s : ℚ) * (2 : ℚ) ^ (j - 1) := by
    rcases hc with rfl | rfl
    · exact ⟨1, Or.inl rfl, by rw [hhalf]; simp⟩
    · refine ⟨-1, Or.inr rfl, ?_⟩
      rw [show (-0.5 : ℚ) = -(1 / 2) by norm_num, hjj]; push_cast; ring
  have hsabs : |s| < 2 ^ 53 := by rcases hs with rfl | rfl <;> decide
  have hsum : (a : ℚ) * (2 : ℚ) ^ j + (2 : ℚ) ^ j * c = ((2 * a + s : Int) : ℚ) * (2 : ℚ) ^ (j - 1) := by
    rw [hcs, hjj]; push_cast; ring
  have hbound : |2 * a + s| < 2 ^ (D + 1) := by
    rw [abs_lt, pow_succ]
    rcases hs with rfl | rfl <;> constructor <;> omega
  refine ⟨hhalf, ?_, ?_, 2 * a + s, hbound, hsum⟩
  · rw [hhalf]
    have := binary64_exact 1 (j - 1) (by decide) hj
    simpa using this
  · have e1 : binary64 ((2 : ℚ) ^ j * c) = (2 : ℚ) ^ j * c := by
      rw [hcs]; exact binary64_exact s (j - 1) hsabs hj
    rw [e1, hsum]
    apply binary64_exact _ _ _ hj
    calc |2 * a + s| < 2 ^ (D + 1) := hbound
      _ ≤ 2 ^ 53 := pow_le_pow_right₀ (by norm_num) hD

/-- In `double` arithmetic the cells of a tree whose root has a power of two
`2 ^ j` as half-extent and a multiple `a * 2 ^ j`, `|a| < 2 ^ D`, of it as each
coordinate of the origin are computed without rounding down to depth `n`, as
long as `D + n ≤ 53` and `2 ^ (j - n)` is not below the least `double`. -/
theorem ExactCells_binary64_dyadic (P : Vec3) :
    ∀ (n D : Nat) (j a b c : Int), D + n ≤ 53 → -1074 ≤ j - n →
      |a| < 2 ^ D → |b| < 2 ^ D → |c| < 2 ^ D →
      ExactCells binary64 n ⟨a * (2 : ℚ) ^ j, b * (2 : ℚ) ^ j, c * (2 : ℚ) ^ j⟩
        ⟨(2 : ℚ) ^ j, (2 : ℚ) ^ j, (2 : ℚ) ^ j⟩ P := by
  intro n
  induction n with
  | zero => intro _ _ _ _ _ _ _ _ _ _; trivial
  | succ n ih =>
    intro D j a b c hD hj ha hb hc
    have hD1 : D + 1 ≤ 53 := by omega
    have hj1 : -1074 ≤ j - 1 := by push_cast at hj; omega
    have hsgn : ∀ (i m : Nat), (if i &&& m ≠ 0 then (0.5 : ℚ) else -0.5) = 0.5 ∨
        (if i &&& m ≠ 0 then (0.5 : ℚ) else -0.5) = -0.5 := by
      intro i m; split_ifs
      · exact Or.inl rfl
      · exact Or.inr rfl
    have hscale : (⟨(2 : ℚ) ^ j, (2 : ℚ) ^ j, (2 : ℚ) ^ j⟩ : Vec3).scale 0.5 =
        ⟨(2 : ℚ) ^ (j - 1), (2 : ℚ) ^ (j - 1), (2 : ℚ) ^ (j - 1)⟩ := by
      have := (binary64_dyadic_step D j a 0.5 (Or.inl rfl) hD1 hj1 ha).1
      simp only [Vec3.scale, this]
    refine ⟨?_, ?_, ?_⟩
    · have := (binary64_dyadic_step D j a 0.5 (Or.inl rfl) hD1 hj1 ha).2.1
      simp only [Vec3.scaleF, Vec3.scale, this]
    · intro i
      simp only [NewOriginF, NewOrigin]
      rw [(binary64_dyadic_step D j a _ (hsgn i 4) hD1 hj1 ha).2.2.1,
        (binary64_dyadic_step D j b _ (hsgn i 2) hD1 hj1 hb).2.2.1,
        (binary64_dyadic_step D j c _ (hsgn i 1) hD1 hj1 hc).2.2.1]
    · obtain ⟨a1, ha1, ea⟩ := (binary64_dyadic_step D j a _
        (hsgn (octant ⟨a * (2 : ℚ) ^ j, b * (2 : ℚ) ^ j, c * (2 : ℚ) ^ j⟩ P) 4) hD1 hj1 ha).2.2.2
      obtain ⟨b1, hb1, eb⟩ := (binary64_dyadic_step D j b _
        (hsgn (octant ⟨a * (2 : ℚ) ^ j, b * (2 : ℚ) ^ j, c * (2 : ℚ) ^ j⟩ P) 2) hD1 hj1 hb).2.2.2
      obtain ⟨c1, hc1, ec⟩ := (binary64_dyadic_step D j c _
        (hsgn (octant ⟨a * (2 : ℚ) ^ j, b * (2 : ℚ) ^ j, c * (2 : ℚ) ^ j⟩ P) 1) hD1 hj1 hc).2.2.2
      rw [hscale]
      have hO : NewOrigin ⟨a * (2 : ℚ) ^ j, b * (2 : ℚ) ^ j, c * (2 : ℚ) ^ j⟩
          ⟨(2 : ℚ) ^ j, (2 : ℚ) ^ j, (2 : ℚ) ^ j⟩
          (octant ⟨a * (2 : ℚ) ^ j, b * (2 : ℚ) ^ j, c * (2 : ℚ) ^ j⟩ P) =
          ⟨a1 * (2 : ℚ) ^ (j - 1), b1 * (2 : ℚ) ^ (j - 1), c1 * (2 : ℚ) ^ (j - 1)⟩ := by
        simp only [NewOrigin]
        rw [ea, eb, ec]
      rw [hO]
      exact ih (D + 1) (j - 1) a1 b1 c1 (by omega) (by push_cast at hj; omega) ha1 hb1 hc1

/-- In `double` arithmetic the cells of the octree of
`Application::FindOpticalDepth`, root `(0, 0, 0) ± 1024`, are computed without
rounding down to depth 53, on the way of every point. -/
theorem ExactCells_binary64_root (P : Vec3) (n : Nat) (hn : n ≤ 53) :
    ExactCells binary64 n ⟨0, 0, 0⟩ ⟨1024, 1024, 1024⟩ P := by
  have h := ExactCells_binary64_dyadic P n 0 10 0 0 0 (by omega) (by omega) (by decide)
    (by decide) (by decide)
  have e1 : ((0 : Int) : ℚ) * (2 : ℚ) ^ (10 : Int) = 0 := by simp
  have e2 : (2 : ℚ) ^ (10 : Int) = 1024 := by norm_num
  rw [e1, e2] at h
  exact h

end OpticalDepthOctree

/-! ## Properties: Application -/

/-- C1 (partition completeness).  For `N >= 1` files and an effective worker
count `W` with `1 <= W <= N`, `Run` dispatches `W` ranges: the first starts at
0, each next one starts where the previous one ends, the last ends at `N`, and
every file index in `0 .. N-1` lies in the range of exactly one worker. -/
theorem Run_partition (N : Nat) (W : Int) (hN : 1 ≤ N) (hW1 : 1 ≤ W) (hWN : W ≤ N) :
    ∃ ranges : List (Int × Int), Run N W = some ranges ∧ (ranges.length : Int) = W ∧
      ranges.head?.map Prod.fst = some 0 ∧
      (∀ (i : Nat) (a b : Int × Int), ranges[i]? = some a → ranges[i + 1]? = some b → b.1 = a.2) ∧
      ranges.getLast?.map Prod.snd = some (N : Int) ∧
      (∀ x : Int, 0 ≤ x → x < N →
        ∃! i : Nat, ∃ rg : Int × Int, ranges[i]? = some rg ∧ rg.1 ≤ x ∧ x < rg.2) := by
  have hWc : ((W.toNat : Nat) : Int) = W := Int.toNat_of_nonneg (by omega)
  have hpos : 0 < W.toNat := by omega
  have hdm : W * ((N : Int) / W) + (N : Int) % W = N := Int.ediv_add_emod _ _
  have hq : 0 ≤ (N : Int) / W := Int.ediv_nonneg (by omega) (by omega)
  refine ⟨_, Run_eq N W hW1 hWN, ?_, ?_, ?_, ?_, ?_⟩
  · rw [RunLoop_length]; exact hWc
  · rw [List.head?_eq_getElem?, RunLoop_getElem? _ _ _ _ 0 hpos]
    simp [extraBefore]
  · intro i a b ha hb
    have hi : i + 1 < W.toNat := by
      have := (List.getElem?_eq_some_iff.1 hb).1
      simpa [RunLoop_length] using this
    rw [RunLoop_getElem? _ _ _ _ i (by omega)] at ha
    rw [RunLoop_getElem? _ _ _ _ (i + 1) hi] at hb
    cases ha; cases hb
    simp only; push_cast; ring
  · rw [List.getLast?_eq_getElem?, RunLoop_length,
      RunLoop_getElem? _ _ _ _ (W.toNat - 1) (by omega)]
    simp only [Option.map_some', Option.some.injEq]
    have e : W.toNat - 1 + 1 = W.toNat := by omega
    rw [e, extraBefore_rem N W hW1]
    have : (((W.toNat - 1 : Nat) : Int) + 1) = W := by omega
    rw [this]; linarith
  · intro x hx0 hxN
    refine RunLoop_cover W.toNat _ hq 0 _ x hx0 ?_
    rw [extraBefore_rem N W hW1, hWc]; linarith

theorem Run_partition_witness :
    (1 ≤ 10 ∧ (1 : Int) ≤ 4 ∧ (4 : Int) ≤ ((10 : Nat) : Int)) ∧
    ∃ ranges : List (Int × Int), Run 10 4 = some ranges ∧ (ranges.length : Int) = 4 ∧
      ranges.head?.map Prod.fst = some 0 ∧
      (∀ (i : Nat) (a b : Int × Int), ranges[i]? = some a → ranges[i + 1]? = some b → b.1 = a.2) ∧
      ranges.getLast?.map Prod.snd = some ((10 : Nat) : Int) ∧
      (∀ x : Int, 0 ≤ x → x < ((10 : Nat) : Int) →
        ∃! i : Nat, ∃ rg : Int × Int, ranges[i]? = some rg ∧ rg.1 ≤ x ∧ x < rg.2) :=
  ⟨⟨by decide, by decide, by decide⟩, Run_partition 10 4 (by decide) (by decide) (by decide)⟩

/-- C2 (partition balance).  With `base = N / W` and `remainder = N % W`
(`1 <= W <= N`), worker `i` gets `base + 1` files when `i < remainder` and
`base` files otherwise, so no worker gets fewer than `floor(N/W)` or more than
`ceil(N/W)` files. -/
theorem Run_counts (N : Nat) (W : Int) (hN : 1 ≤ N) (hW1 : 1 ≤ W) (hWN : W ≤ N) :
    ∃ ranges : List (Int × Int), Run N W = some ranges ∧ (ranges.length : Int) = W ∧
      ∀ (i : Nat) (rg : Int × Int), ranges[i]? = some rg →
        rg.2 - rg.1 = (N : Int) / W + (if (i : Int) < (N : Int) % W then 1 else 0) ∧
        ⌊((N : ℚ) / (W : ℚ))⌋ ≤ rg.2 - rg.1 ∧ rg.2 - rg.1 ≤ ⌈((N : ℚ) / (W : ℚ))⌉ := by
  have _hN := hN
  have hWc : ((W.toNat : Nat) : Int) = W := Int.toNat_of_nonneg (by omega)
  have hdm : W * ((N : Int) / W) + (N : Int) % W = N := Int.ediv_add_emod _ _
  have hr0 := Int.emod_nonneg (N : Int) (show W ≠ 0 by omega)
  have hrW := Int.emod_lt_of_pos (N : Int) (show 0 < W by omega)
  have hWq : (0 : ℚ) < (W : ℚ) := by exact_mod_cast (show (0 : Int) < W by omega)
  have hNq : (N : ℚ) = (W : ℚ) * (((N : Int) / W : Int) : ℚ) + (((N : Int) % W : Int) : ℚ) := by
    exact_mod_cast hdm.symm
  refine ⟨_, Run_eq N W hW1 hWN, ?_, ?_⟩
  · rw [RunLoop_length]; exact hWc
  · intro i rg hrg
    have hi : i < W.toNat := by
      have := (List.getElem?_eq_some_iff.1 hrg).1
      simpa [RunLoop_length] using this
    rw [RunLoop_getElem? _ _ _ _ i hi] at hrg
    cases hrg
    have hcnt : (0 + ((i : Int) + 1) * ((N : Int) / W) + extraBefore ((N : Int) % W) (i + 1))
        - (0 + (i : Int) * ((N : Int) / W) + extraBefore ((N : Int) % W) i)
        = (N : Int) / W + (if (i : Int) < (N : Int) % W then 1 else 0) := by
      have : extraBefore ((N : Int) % W) (i + 1) - extraBefore ((N : Int) % W) i
          = (if (i : Int) < (N : Int) % W then 1 else 0) := by
        simp only [extraBefore]; push_cast; split_ifs with h <;> omega
      linear_combination this
    refine ⟨hcnt, ?_, ?_⟩
    · simp only [hcnt]
      rw [← Int.lt_add_one_iff, Int.floor_lt, div_lt_iff₀ hWq]
      have hrq : (((N : Int) % W : Int) : ℚ) < (W : ℚ) := by exact_mod_cast hrW
      have hite : (0 : ℚ) ≤ ((if (i : Int) < (N : Int) % W then (1 : Int) else 0 : Int) : ℚ) := by
        split_ifs <;> simp
      push_cast at hite ⊢
      rw [hNq]
      nlinarith
    · simp only [hcnt]
      rw [← Int.sub_one_lt_iff, Int.lt_ceil, lt_div_iff₀ hWq]
      have hr0q : (0 : ℚ) ≤ (((N : Int) % W : Int) : ℚ) := by exact_mod_cast hr0
      rw [hNq]
      split_ifs with h
      · have : (0 : ℚ) < (((N : Int) % W : Int) : ℚ) := by
          have : (0 : Int) < (N : Int) % W := by omega
          exact_mod_cast this
        push_cast; nlinarith
      · push_cast; nlinarith

theorem Run_counts_witness :
    (1 ≤ 10 ∧ (1 : Int) ≤ 4 ∧ (4 : Int) ≤ ((10 : Nat) : Int)) ∧
    ∃ ranges : List (Int × Int), Run 10 4 = some ranges ∧ (ranges.length : Int) = 4 ∧
      ∀ (i : Nat) (rg : Int × Int), ranges[i]? = some rg →
        rg.2 - rg.1 = ((10 : Nat) : Int) / 4 + (if (i : Int) < ((10 : Nat) : Int) % 4 then 1 else 0) ∧
        ⌊(((10 : Nat) : ℚ) / ((4 : Int) : ℚ))⌋ ≤ rg.2 - rg.1 ∧
        rg.2 - rg.1 ≤ ⌈(((10 : Nat) : ℚ) / ((4 : Int) : ℚ))⌉ :=
  ⟨⟨by decide, by decide, by decide⟩, Run_counts 10 4 (by decide) (by decide) (by decide)⟩

/-- C3, as stated, fails for a negative `THREADS`: with `THREADS = -1`, 4
hardware threads and 10 files, 4 workers are dispatched, not
`min(-1, 4, 10)`. -/
theorem Run_workers_negative_THREADS :
    ∃ ranges : List (Int × Int), (Initialise (-1) 4).bind (Run 10) = some ranges ∧
      (ranges.length : Int) = 4 ∧ (ranges.length : Int) ≠ min (-1) (min 4 ((10 : Nat) : Int)) := by
  refine ⟨[(0, 3), (3, 6), (6, 8), (8, 10)], by decide, by decide, by decide⟩

/-- C3, amended.  For hardware concurrency `h > 0`, `N >= 1` files and a
configured thread count `c` other than 0, the number of workers dispatched is
`min(c, h, N)` when `c >= 1` and `min(h, N)` when `c < 0` (a negative count
is replaced by the hardware concurrency). -/
theorem Run_workers (c h : Int) (N : Nat) (hh : 0 < h) (hN : 1 ≤ N) (hc : c ≠ 0) :
    ∃ ranges : List (Int × Int), (Initialise c h).bind (Run N) = some ranges ∧
      (ranges.length : Int) = if c < 0 then min h (N : Int) else min c (min h (N : Int)) := by
  have hI : Initialise c h = some (if c < 0 ∨ c > h then h else c) := by
    have : ¬ h ≤ 0 := by omega
    simp [Initialise, this]
  set m : Int := if c < 0 ∨ c > h then h else c with hm
  have hm1 : 1 ≤ m := by simp only [hm]; split_ifs <;> omega
  set w : Int := if (N : Int) < m then (N : Int) else m with hw
  have hw1 : 1 ≤ w := by simp only [hw]; split_ifs <;> omega
  have hR : Run N m = some (RunLoop w.toNat 0 ((N : Int) / w) ((N : Int) % w)) := by
    have : w ≠ 0 := by omega
    simp only [Run]
    rw [← hw]
    simp [this]
  refine ⟨_, by rw [hI]; exact hR, ?_⟩
  rw [RunLoop_length, Int.toNat_of_nonneg (by omega)]
  simp only [hw, hm]
  split_ifs <;> omega

theorem Run_workers_witness :
    ((0 : Int) < 4 ∧ 1 ≤ 10 ∧ (3 : Int) ≠ 0) ∧
    ∃ ranges : List (Int × Int), (Initialise 3 4).bind (Run 10) = some ranges ∧
      (ranges.length : Int) =
        if (3 : Int) < 0 then min 4 ((10 : Nat) : Int) else min 3 (min 4 ((10 : Nat) : Int)) :=
  ⟨⟨by decide, by decide, by decide⟩, Run_workers 3 4 10 (by decide) (by decide) (by decide)⟩

/-! ## Properties: OpticalDepthOctree -/

namespace OpticalDepthOctree

/-- C4, as stated, fails in `double` arithmetic.  The root box is
`(3 * 2^-52, 0, 0) ± 1`, and the two points `(1 + 2^-51, 0, 0)` and
`(1 + 3 * 2^-52, 0, 0)` are distinct points inside it with `double`
coordinates.  The second `Insert` sends both to the same child at each of
the first 53 levels and reaches a cell whose origin has x = 1 + 2^-51 and
whose half-extent is 2^-53.  From there on the shift of the origin is at
most half a unit in the last place of 1 + 2^-51, whose significand is even,
and is rounded away: every child has the same x of the origin, both points
fall in its upper half again, `Insert` returns for no fuel and no tree is
obtained. -/
theorem InsertF_count_conservation_fails_binary64 :
    (∀ p ∈ [(⟨⟨1 + 1 / 2 ^ 51, 0, 0⟩, 1, 10⟩ : OpticalDepthPoint),
        ⟨⟨1 + 3 / 2 ^ 52, 0, 0⟩, 2, 20⟩],
      InBox ⟨3 / 2 ^ 52, 0, 0⟩ ⟨1, 1, 1⟩ p.pos ∧
        p.pos = ⟨binary64 p.pos.x, binary64 p.pos.y, binary64 p.pos.z⟩) ∧
    binary64 (3 / 2 ^ 52) = 3 / 2 ^ 52 ∧
    [(⟨⟨1 + 1 / 2 ^ 51, 0, 0⟩, 1, 10⟩ : OpticalDepthPoint),
        ⟨⟨1 + 3 / 2 ^ 52, 0, 0⟩, 2, 20⟩].Pairwise (fun a b => a.pos ≠ b.pos) ∧
    ¬ ∃ (fuel : Nat) (t : OpticalDepthOctree),
      InsertAllF binary64 fuel (new ⟨3 / 2 ^ 52, 0, 0⟩ ⟨1, 1, 1⟩)
        [(⟨⟨1 + 1 / 2 ^ 51, 0, 0⟩, 1, 10⟩ : OpticalDepthPoint),
          ⟨⟨1 + 3 / 2 ^ 52, 0, 0⟩, 2, 20⟩] = some t := by
  refine ⟨by decide!, by decide!, by decide!, ?_⟩
  rintro ⟨fuel, t, h⟩
  have hd : descendF binary64 (⟨⟨1 + 1 / 2 ^ 51, 0, 0⟩, 1, 10⟩ : OpticalDepthPoint).pos
      (⟨⟨1 + 3 / 2 ^ 52, 0, 0⟩, 2, 20⟩ : OpticalDepthPoint).pos 53
      (⟨3 / 2 ^ 52, 0, 0⟩, ⟨1, 1, 1⟩) =
      some (⟨1 + 1 / 2 ^ 51, 1 / 2 ^ 53, 1 / 2 ^ 53⟩, ⟨1 / 2 ^ 53, 1 / 2 ^ 53, 1 / 2 ^ 53⟩) := by
    decide!
  have hstuck := InsertF_invariant binary64 ⟨⟨1 + 1 / 2 ^ 51, 0, 0⟩, 1, 10⟩
    ⟨⟨1 + 3 / 2 ^ 52, 0, 0⟩, 2, 20⟩
    (fun O HD => O.x = 1 + 1 / 2 ^ 51 ∧ |HD.x| ≤ 1 / 2 ^ 53)
    (fun O HD hinv => by
      apply Fin.ext
      rw [octant_val, octant_val, GetOctantContainingPoint_eq_sum,
        GetOctantContainingPoint_eq_sum]
      have h1 : (1 + 3 / 2 ^ 52 : ℚ) ≥ O.x := by rw [hinv.1]; norm_num
      have h2 : (1 + 1 / 2 ^ 51 : ℚ) ≥ O.x := by rw [hinv.1]
      simp only [h1, h2, if_true])
    (fun O HD hinv => binary64_stuck_cell O HD _ hinv.1 hinv.2)
  have hnone := InsertF_descend binary64 ⟨⟨1 + 1 / 2 ^ 51, 0, 0⟩, 1, 10⟩
    ⟨⟨1 + 3 / 2 ^ 52, 0, 0⟩, 2, 20⟩ 53 _ _ _ _ hd
    (fun f tp htp => hstuck f _ _ tp ⟨rfl, by norm_num [abs_of_nonneg]⟩ htp)
  cases fuel with
  | zero => simp [InsertAllF, InsertF] at h
  | succ f =>
    simp only [InsertAllF] at h
    rw [InsertF_new, Option.some_bind, hnone (f + 1) 1 le_rfl] at h
    simp at h

/-- C4, amended.  Points of the closed root box `O ± HD` are inserted one by one
into the empty tree `new O HD` in FLOAT arithmetic with rounding `fl`.  When
the points are pairwise separated at scale `n` (on some axis two points are
further apart than the side of the box halved `n` times) and the cells on the
way of each point are computed without rounding down to depth `n + 1`, every
`Insert` returns within a recursion of depth `n + 1`, and walking the leaves
of the final tree finds exactly the inserted points, each once.  (In `double`
arithmetic on the root `(0, 0, 0) ± 1024` the cells are computed without
rounding down to depth 53, `ExactCells_binary64_root`.)  Whatever the
rounding and the points, a sequence of `Insert` calls that returns leaves
exactly the inserted points in the leaves, each once. -/
theorem InsertF_count_conservation (fl : ℚ → ℚ) (O HD : Vec3) (pts : List OpticalDepthPoint)
    (n : Nat) (hexact : ∀ p ∈ pts, ExactCells fl (n + 1) O HD p.pos)
    (hbox : ∀ p ∈ pts, InBox O HD p.pos)
    (hsep : pts.Pairwise (fun a b => Separated n HD a.pos b.pos)) :
    (∀ fuel : Nat, n + 1 ≤ fuel →
      ∃ t : OpticalDepthOctree, InsertAllF fl fuel (new O HD) pts = some t ∧
        (LeafPayloads t).Perm pts ∧ (LeafPayloads t).length = pts.length) ∧
    (∀ (fl1 : ℚ → ℚ) (pts1 : List OpticalDepthPoint) (fuel : Nat) (t : OpticalDepthOctree),
      InsertAllF fl1 fuel (new O HD) pts1 = some t →
        (LeafPayloads t).Perm pts1 ∧ (LeafPayloads t).length = pts1.length) := by
  have hpart : ∀ (fl1 : ℚ → ℚ) (pts1 : List OpticalDepthPoint) (fuel : Nat)
      (t : OpticalDepthOctree), InsertAllF fl1 fuel (new O HD) pts1 = some t →
        (LeafPayloads t).Perm pts1 ∧ (LeafPayloads t).length = pts1.length := by
    intro fl1 pts1 fuel t h
    have hl := (InsertAllF_conserves fl1 fuel pts1 (new O HD) t (Counted_new O HD) h).2
    have hperm : (LeafPayloads t).Perm pts1 := by
      rw [LeafPayloads_eq_leafData]
      apply Multiset.coe_eq_coe.1
      rw [hl]
      simp [new, leafData]
    exact ⟨hperm, hperm.length_eq⟩
  refine ⟨fun fuel hle => ?_, hpart⟩
  obtain ⟨t, ht⟩ := InsertAll_depth n pts (new O HD) (Geom_new O HD) trivial hbox hsep
    (fun q hq => by simp [new, leafData] at hq)
  rw [← InsertAllF_eq_InsertAll fl (n + 1) pts (new O HD) trivial hexact] at ht
  have ht1 := InsertAllF_mono_le fl hle pts _ _ ht
  exact ⟨t, ht1, hpart fl pts fuel t ht1⟩

theorem InsertF_count_conservation_witness :
    ((∀ p ∈ [(⟨⟨0, 0, 1⟩, 1, 10⟩ : OpticalDepthPoint), ⟨⟨0, 0, 1 / 2⟩, 2, 20⟩,
          ⟨⟨0, 0, -1 / 2⟩, 3, 30⟩],
        ExactCells binary64 (13 + 1) ⟨0, 0, 0⟩ ⟨1024, 1024, 1024⟩ p.pos) ∧
      (∀ p ∈ [(⟨⟨0, 0, 1⟩, 1, 10⟩ : OpticalDepthPoint), ⟨⟨0, 0, 1 / 2⟩, 2, 20⟩,
          ⟨⟨0, 0, -1 / 2⟩, 3, 30⟩], InBox ⟨0, 0, 0⟩ ⟨1024, 1024, 1024⟩ p.pos) ∧
      [(⟨⟨0, 0, 1⟩, 1, 10⟩ : OpticalDepthPoint), ⟨⟨0, 0, 1 / 2⟩, 2, 20⟩,
          ⟨⟨0, 0, -1 / 2⟩, 3, 30⟩].Pairwise
        (fun a b => Separated 13 ⟨1024, 1024, 1024⟩ a.pos b.pos)) ∧
    ∃ t : OpticalDepthOctree,
      InsertAllF binary64 14 (new ⟨0, 0, 0⟩ ⟨1024, 1024, 1024⟩)
        [(⟨⟨0, 0, 1⟩, 1, 10⟩ : OpticalDepthPoint), ⟨⟨0, 0, 1 / 2⟩, 2, 20⟩,
          ⟨⟨0, 0, -1 / 2⟩, 3, 30⟩] = some t ∧
      (LeafPayloads t).Perm [(⟨⟨0, 0, 1⟩, 1, 10⟩ : OpticalDepthPoint), ⟨⟨0, 0, 1 / 2⟩, 2, 20⟩,
          ⟨⟨0, 0, -1 / 2⟩, 3, 30⟩] ∧
      (LeafPayloads t).length =
        [(⟨⟨0, 0, 1⟩, 1, 10⟩ : OpticalDepthPoint), ⟨⟨0, 0, 1 / 2⟩, 2, 20⟩,
          ⟨⟨0, 0, -1 / 2⟩, 3, 30⟩].length :=
  ⟨⟨fun p _ => ExactCells_binary64_root p.pos (13 + 1) (by decide), by decide!, by decide!⟩,
    (InsertF_count_conservation binary64 ⟨0, 0, 0⟩ ⟨1024, 1024, 1024⟩ _ 13
      (fun p _ => ExactCells_binary64_root p.pos (13 + 1) (by decide))
      (by decide!) (by decide!)).1 14 le_rfl⟩

/-- C5 (leaf invariant).  After any sequence of `Insert` calls on an empty tree
that returns, no node of the tree (in `LinkTree` order) has both a payload and
a child: a node with a payload has all eight `Children` slots `NULL`, and a
node with a child has no payload. -/
theorem Insert_leaf_invariant (fuel : Nat) (O HD : Vec3) (pts : List OpticalDepthPoint)
    (t : OpticalDepthOctree) (h : InsertAll fuel (new O HD) pts = some t) :
    ∀ n ∈ LinkTree t,
      (n.Data ≠ none → ∀ i : Fin 8, n.Children i = none) ∧
      ((∃ i : Fin 8, n.Children i ≠ none) → n.Data = none) := by
  have hinv : NoPayloadInside t :=
    InsertAll_NoPayloadInside fuel pts (new O HD) t (by simp [new, NoPayloadInside]) h
  intro n hn
  have h1 := NoPayloadInside_LinkTree t hinv n hn
  refine ⟨h1, ?_⟩
  rintro ⟨i, hi⟩
  by_contra hD
  exact hi (h1 hD i)

theorem Insert_leaf_invariant_witness :
    ∃ t : OpticalDepthOctree,
      InsertAll 12 (new ⟨0, 0, 0⟩ ⟨1024, 1024, 1024⟩)
        [(⟨⟨0, 0, 1⟩, 1, 10⟩ : OpticalDepthPoint), ⟨⟨0, 0, 1 / 2⟩, 2, 20⟩, ⟨⟨0, 0, -1 / 2⟩, 3, 30⟩]
        = some t ∧
      ∀ n ∈ LinkTree t,
        (n.Data ≠ none → ∀ i : Fin 8, n.Children i = none) ∧
        ((∃ i : Fin 8, n.Children i ≠ none) → n.Data = none) := by
  have h : (InsertAll 12 (new ⟨0, 0, 0⟩ ⟨1024, 1024, 1024⟩)
      [(⟨⟨0, 0, 1⟩, 1, 10⟩ : OpticalDepthPoint), ⟨⟨0, 0, 1 / 2⟩, 2, 20⟩,
        ⟨⟨0, 0, -1 / 2⟩, 3, 30⟩]).isSome = true := by decide!
  obtain ⟨t, ht⟩ := Option.isSome_iff_exists.1 h
  exact ⟨t, ht, Insert_leaf_invariant 12 _ _ _ t ht⟩

/-- C6 (octant code).  `GetOctantContainingPoint` returns, for every point and
origin, a code below 8 that is the sum of 4 if `x >= Origin.x`, 2 if
`y >= Origin.y` and 1 if `z >= Origin.z` (a coordinate equal to the origin's is
on the high side), and for `d > 0` the eight points `O + (±d, ±d, ±d)` get
eight different codes. -/
theorem GetOctantContainingPoint_spec (O : Vec3) (d : ℚ) (hd : 0 < d) :
    (∀ P : Vec3, GetOctantContainingPoint O P < 8 ∧
      GetOctantContainingPoint O P =
        (if P.x ≥ O.x then 4 else 0) + (if P.y ≥ O.y then 2 else 0) +
          (if P.z ≥ O.z then 1 else 0)) ∧
    GetOctantContainingPoint O O = 7 ∧
    Function.Injective (fun s : Bool × Bool × Bool => GetOctantContainingPoint O (corner O d s)) := by
  refine ⟨fun P => ⟨GetOctantContainingPoint_lt O P, GetOctantContainingPoint_eq_sum O P⟩, ?_, ?_⟩
  · rw [GetOctantContainingPoint_eq_sum]; simp
  · have hcode : ∀ s : Bool × Bool × Bool, GetOctantContainingPoint O (corner O d s) =
        (if s.1 then 4 else 0) + (if s.2.1 then 2 else 0) + (if s.2.2 then 1 else 0) := by
      rintro ⟨a, b, c⟩
      rw [GetOctantContainingPoint_eq_sum]
      have hpos : ∀ u : ℚ, u + d ≥ u := fun u => by linarith
      have hneg : ∀ u : ℚ, ¬ (u + -d ≥ u) := fun u => by
        intro h
        have : u + -d < u := by linarith
        exact absurd h (not_le.2 this)
      cases a <;> cases b <;> cases c <;> simp [corner, hpos, hneg]
    intro s s1 h
    simp only [hcode] at h
    revert h
    revert s s1
    decide

theorem GetOctantContainingPoint_spec_witness :
    (0 : ℚ) < 3 ∧
    ((∀ P : Vec3, GetOctantContainingPoint ⟨1, 2, 3⟩ P < 8 ∧
      GetOctantContainingPoint ⟨1, 2, 3⟩ P =
        (if P.x ≥ (⟨1, 2, 3⟩ : Vec3).x then 4 else 0) +
          (if P.y ≥ (⟨1, 2, 3⟩ : Vec3).y then 2 else 0) +
          (if P.z ≥ (⟨1, 2, 3⟩ : Vec3).z then 1 else 0)) ∧
    GetOctantContainingPoint ⟨1, 2, 3⟩ ⟨1, 2, 3⟩ = 7 ∧
    Function.Injective
      (fun s : Bool × Bool × Bool => GetOctantContainingPoint ⟨1, 2, 3⟩ (corner ⟨1, 2, 3⟩ 3 s))) :=
  ⟨by norm_num, GetOctantContainingPoint_spec ⟨1, 2, 3⟩ 3 (by norm_num)⟩

/-- C7 (footprint containment).  When the `(x, y)` of the query is not
strictly inside the rectangle `Origin ± HalfDimension` of a node, leaf or
internal, `TraverseTree` on that node returns `Sigma` and `Tau` unchanged. -/
theorem TraverseTree_outside_footprint (AU_TO_CM : ℚ) (GetKappar : ℚ → ℚ → ℚ)
    (t : OpticalDepthOctree) (q : Vec3) (Sigma Tau : ℚ)
    (h : ¬ (t.Origin.x - t.HalfDimension.x < q.x ∧ q.x < t.Origin.x + t.HalfDimension.x ∧
          t.Origin.y - t.HalfDimension.y < q.y ∧ q.y < t.Origin.y + t.HalfDimension.y)) :
    TraverseTree AU_TO_CM GetKappar t q (Sigma, Tau) = (Sigma, Tau) :=
  TraverseTree_not_Intersects AU_TO_CM GetKappar t q (Sigma, Tau)
    ((Intersects_eq_false_iff t q).2 h)

theorem TraverseTree_outside_footprint_witness :
    ¬ ((leaf ⟨1000, 0, 0⟩ ⟨1, 1, 1⟩ (some ⟨⟨1000, 0, 1⟩, 5, 10⟩) 1).Origin.x
          - (leaf ⟨1000, 0, 0⟩ ⟨1, 1, 1⟩ (some ⟨⟨1000, 0, 1⟩, 5, 10⟩) 1).HalfDimension.x
            < (⟨0, 0, 0⟩ : Vec3).x ∧
        (⟨0, 0, 0⟩ : Vec3).x < (leaf ⟨1000, 0, 0⟩ ⟨1, 1, 1⟩ (some ⟨⟨1000, 0, 1⟩, 5, 10⟩) 1).Origin.x
          + (leaf ⟨1000, 0, 0⟩ ⟨1, 1, 1⟩ (some ⟨⟨1000, 0, 1⟩, 5, 10⟩) 1).HalfDimension.x ∧
        (leaf ⟨1000, 0, 0⟩ ⟨1, 1, 1⟩ (some ⟨⟨1000, 0, 1⟩, 5, 10⟩) 1).Origin.y
          - (leaf ⟨1000, 0, 0⟩ ⟨1, 1, 1⟩ (some ⟨⟨1000, 0, 1⟩, 5, 10⟩) 1).HalfDimension.y
            < (⟨0, 0, 0⟩ : Vec3).y ∧
        (⟨0, 0, 0⟩ : Vec3).y < (leaf ⟨1000, 0, 0⟩ ⟨1, 1, 1⟩ (some ⟨⟨1000, 0, 1⟩, 5, 10⟩) 1).Origin.y
          + (leaf ⟨1000, 0, 0⟩ ⟨1, 1, 1⟩ (some ⟨⟨1000, 0, 1⟩, 5, 10⟩) 1).HalfDimension.y) ∧
    TraverseTree 1 (fun _ _ => 1) (leaf ⟨1000, 0, 0⟩ ⟨1, 1, 1⟩ (some ⟨⟨1000, 0, 1⟩, 5, 10⟩) 1)
      ⟨0, 0, 0⟩ (0, 0) = (0, 0) :=
  ⟨by decide!, TraverseTree_outside_footprint 1 (fun _ _ => 1) _ _ 0 0 (by decide!)⟩

/-- C8 (below-particle exclusion).  On a leaf whose payload has `z` strictly
below the `z` of the query, `TraverseTree` returns `Sigma` and `Tau`
unchanged, whatever the density, the temperature and the box of the leaf. -/
theorem TraverseTree_below_particle (AU_TO_CM : ℚ) (GetKappar : ℚ → ℚ → ℚ)
    (O HD : Vec3) (d : OpticalDepthPoint) (tp : Int) (q : Vec3) (Sigma Tau : ℚ)
    (h : d.pos.z < q.z) :
    TraverseTree AU_TO_CM GetKappar (leaf O HD (some d) tp) q (Sigma, Tau) = (Sigma, Tau) := by
  simp only [TraverseTree, h, if_true]
  split_ifs <;> rfl

theorem TraverseTree_below_particle_witness :
    (⟨⟨0, 0, -1 / 2⟩, 3, 30⟩ : OpticalDepthPoint).pos.z < (⟨0, 0, 0⟩ : Vec3).z ∧
    TraverseTree 1 (fun _ _ => 1) (leaf ⟨0, 0, 0⟩ ⟨1, 1, 1⟩ (some ⟨⟨0, 0, -1 / 2⟩, 3, 30⟩) 1)
      ⟨0, 0, 0⟩ (0, 0) = (0, 0) :=
  ⟨by decide!, TraverseTree_below_particle 1 (fun _ _ => 1) _ _ _ 1 _ 0 0 (by decide!)⟩

/-- C9, as stated, fails: in the end-to-end scenario with `(x, y) = (0, 0)`
`TraverseTree` for the query `(0, 0, 0)` leaves `Sigma = 0`, although the
leaves of the `z = 1` and `z = 1/2` points have half-height `1/2` and the sum
of their terms `density * half-height * 2 * AU_TO_CM` is not zero (here with
`AU_TO_CM = 1` and opacity 1). -/
theorem EndToEnd_boundary_query_accumulates_nothing :
    (Construct 12 FindOpticalDepth_octree (scenarioParticles 0 0)).map
        (fun t => (TraverseTree 1 (fun _ _ => 1) t ⟨0, 0, 0⟩ (0, 0),
          (PayloadCells t).map fun c => (c.1.pos.z, c.1.dens, c.2)))
      = some ((0, 0), [(-1 / 2, 3, 512), (1 / 2, 2, 1 / 2), (1, 1, 1 / 2)]) ∧
    (2 * (1 / 2) * 2 * 1 + 1 * (1 / 2) * 2 * 1 : ℚ) ≠ 0 := by
  constructor
  · decide!
  · norm_num

/-- C9, amended.  In the end-to-end scenario built by `Construct` in the tree
of `FindOpticalDepth`, a query at `(0, 0, 0)` accumulates nothing, neither from
the `z = -1/2` point nor from the two points above it: `(x, y) = (0, 0)` is on
the edge of the rectangle of every child of the root and the footprint test is
strict.  With the common `(x, y)` of particles and query at `(1/4, 1/4)`,
strictly inside the cells on the way, `Sigma` and `Tau` are the sums over the
leaves of the `z = 1` and `z = 1/2` points (both of half-height `1/2`), and
the `z = -1/2` point adds nothing. -/
theorem EndToEnd_three_particles (AU_TO_CM : ℚ) (GetKappar : ℚ → ℚ → ℚ) :
    (Construct 12 FindOpticalDepth_octree (scenarioParticles 0 0)).map
        (fun t => TraverseTree AU_TO_CM GetKappar t ⟨0, 0, 0⟩ (0, 0)) = some (0, 0) ∧
    (Construct 12 FindOpticalDepth_octree (scenarioParticles (1 / 4) (1 / 4))).map
        (fun t => TraverseTree AU_TO_CM GetKappar t ⟨1 / 4, 1 / 4, 0⟩ (0, 0)) =
      some (1 * (1 / 2) * 2 * AU_TO_CM + 2 * (1 / 2) * 2 * AU_TO_CM,
        1 * GetKappar 1 10 * (1 / 2) * 2 * AU_TO_CM + 2 * GetKappar 2 20 * (1 / 2) * 2 * AU_TO_CM) := by
  have h0 : (Construct 12 FindOpticalDepth_octree (scenarioParticles 0 0)).map
      (fun t => Contributing t ⟨0, 0, 0⟩) = some [] := by decide!
  have h1 : (Construct 12 FindOpticalDepth_octree (scenarioParticles (1 / 4) (1 / 4))).map
      (fun t => Contributing t ⟨1 / 4, 1 / 4, 0⟩) =
        some [(⟨⟨1 / 4, 1 / 4, 1 / 2⟩, 2, 20⟩, 1 / 2), (⟨⟨1 / 4, 1 / 4, 1⟩, 1, 10⟩, 1 / 2)] := by
    decide!
  obtain ⟨t0, ht0, hc0⟩ := Option.map_eq_some'.1 h0
  obtain ⟨t1, ht1, hc1⟩ := Option.map_eq_some'.1 h1
  constructor
  · rw [ht0, Option.map_some', TraverseTree_eq_sum, hc0]
    simp
  · rw [ht1, Option.map_some', TraverseTree_eq_sum, hc1]
    simp only [List.map_cons, List.map_nil, List.sum_cons, List.sum_nil, sigmaTerm, tauTerm]
    congr 1
    refine Prod.ext ?_ ?_
    · norm_num; ring
    · norm_num; ring

/-- C10: `Construct` on a tree that an earlier `Construct` populated keeps the
earlier points.  After `Construct` with the particle at `(1, 1, 1)` and then
`Construct` with the particle at `(-2, 2, 2)` (the reflection of `(-2, 2, -2)`),
the leaves hold two payloads, not only the point of the second list. -/
theorem Construct_keeps_earlier_points :
    ((Construct 3 FindOpticalDepth_octree
        [{ ID := 1, X := ⟨1, 1, 1⟩, V := ⟨0, 0, 0⟩, M := 1, D := 5, T := 10, R := 0,
           RealSigma := 0, RealTau := 0 }]).bind
      fun t => Construct 3 t
        [{ ID := 2, X := ⟨-2, 2, 2⟩, V := ⟨0, 0, 0⟩, M := 1, D := 7, T := 20, R := 0,
           RealSigma := 0, RealTau := 0 }]).map LeafPayloads
      = some [⟨⟨-2, 2, 2⟩, 7, 20⟩, ⟨⟨1, 1, 1⟩, 5, 10⟩] := by
  decide!

end OpticalDepthOctree

/-! ## Properties: FindOpticalDepth, Analyse, Generator, Center, thread count -/

/-- C12, as stated, fails for the processed-file counter.  `Run` with two files
and two workers starts the workers of the ranges `(0, 1)` and `(1, 2)` on the
same object.  When every `Read` succeeds and both workers read
`mFilesAnalysed` before either writes it back, both have left `Analyse` with
their file read and passed through the pipeline, and the counter, started at
0, is 1: two files are processed and one is counted. -/
theorem Analyse_counter_loses_increment :
    (Run 2 2).bind (fun ranges =>
        (RunThreads 2 true (fun _ => true) [0, 1, 0, 1, 0, 1] (startThreads ranges, 0)).map
          fun s => ((s.1 0).running, (s.1 0).events, (s.1 1).running, (s.1 1).events, s.2)) =
      some (false, [AnalyseEvent.Read 0, AnalyseEvent.Pipeline 0],
        false, [AnalyseEvent.Read 1, AnalyseEvent.Pipeline 1], 1) := by
  decide

/-- C12, amended (read failure in a worker).  `Run` starts one worker per range,
each range inside `0 .. N-1`, with no generator; the worker `w` has the range
`start .. end-1`, the reads of `start .. k-1` succeed and `k` is `end` or the
read of `k < end` fails.  Whatever the other workers do and however the steps
of the workers interleave, no worker throws, and when the worker `w` has left
`Analyse` it has read and processed exactly the files `start .. k-1` in order,
called `Read` on `k` once when `k < end` and done nothing with the files after
`k` or outside its range; before that it has read and processed the first
files of `start .. k-1`.  The processed-file counter goes up by `k - start`
when the worker is alone in taking steps, as in a call of `Analyse` that is
not run side by side with another; between concurrent workers an increment
can be lost. -/
theorem AnalyseThreads_read_failure (N : Nat) (Read : Int → Bool) (ranges : List (Int × Int))
    (w : Nat) (mFilesAnalysed start stop k : Int)
    (hranges : ∀ r ∈ ranges, 0 ≤ r.1 ∧ r.2 ≤ N) (hw : ranges[w]? = some (start, stop))
    (hk1 : start ≤ k) (hk2 : k ≤ stop)
    (hok : ∀ j, start ≤ j → j < k → Read j = true)
    (hfail : k < stop → Read k = false) :
    (∀ schedule : List Nat,
      ∃ (threads : Nat → AnalyseThread) (c : Int),
        RunThreads N true Read schedule (startThreads ranges, mFilesAnalysed) = some (threads, c) ∧
        ((threads w).running = true →
          ∃ m : Nat, (m : Int) ≤ k - start ∧ (threads w).events = processedEvents start m) ∧
        ((threads w).running = false → (threads w).events = finishedEvents start stop k)) ∧
    (∀ m : Nat, 2 * (stop - start).toNat + 1 ≤ m →
      ∃ threads : Nat → AnalyseThread,
        RunThreads N true Read (List.replicate m w) (startThreads ranges, mFilesAnalysed) =
          some (threads, mFilesAnalysed + (k - start)) ∧
        (threads w).running = false ∧ (threads w).events = finishedEvents start stop k) ∧
    Analyse N true Read mFilesAnalysed start stop =
      some (finishedEvents start stop k, mFilesAnalysed + (k - start)) := by
  obtain ⟨h0, hN⟩ := hranges (start, stop) (List.getElem?_mem hw)
  simp only at h0 hN
  have hstart : startThreads ranges w = ⟨start, stop, none, true, []⟩ := by
    simp [startThreads, hw]
  have hks : ((k - start).toNat : Int) = k - start := Int.toNat_of_nonneg (by omega)
  refine ⟨fun schedule => ?_, fun m hm => ?_, ?_⟩
  · obtain ⟨threads, c, hrun, he, hinv⟩ :=
      RunThreads_ThreadOK N Read w start stop k hk2 hok hfail schedule (startThreads ranges)
        mFilesAnalysed (ThreadSafe_startThreads N ranges hranges)
        (by
          rw [hstart]
          refine ⟨rfl, ?_⟩
          simp only [if_true]
          exact ⟨le_rfl, hk1, by simp [processedEvents]⟩)
    refine ⟨threads, c, hrun, fun hr => ?_, fun hr => ?_⟩
    · simp only [hr, if_true] at hinv
      cases hl : (threads w).loaded with
      | none =>
        simp only [hl] at hinv
        exact ⟨((threads w).i - start).toNat, by omega, hinv.2.2⟩
      | some v =>
        simp only [hl] at hinv
        exact ⟨((threads w).i + 1 - start).toNat, by omega, hinv.2.2⟩
    · simp only [hr, Bool.false_eq_true, if_false] at hinv
      exact hinv.2
  · have hsplit : m = (2 * (k - start).toNat + 1) + (m - (2 * (k - start).toNat + 1)) := by omega
    have halone := RunThreads_alone N Read w stop k hN hk2 hfail (k - start).toNat
      (startThreads ranges) mFilesAnalysed start [] hstart h0 hks.symm hok
    rw [hsplit, List.replicate_add, RunThreads_append, halone, Option.some_bind,
      RunThreads_finished N true Read w _ _ _ (by simp), hks]
    exact ⟨_, rfl, by simp, by simp [finishedEvents]⟩
  · have hsplit : (stop - start).toNat = (k - start).toNat + (stop - k).toNat := by omega
    simp only [Analyse, finishedEvents]
    rw [hsplit, AnalyseLoop_reads_succeed N Read (k - start).toNat (stop - k).toNat start [] _ h0
      (by rw [hks]; omega) (fun j h1 h2 => hok j h1 (by rw [hks] at h2; omega))]
    rw [hks, show start + (k - start) = k by ring]
    by_cases hlt : k < stop
    · obtain ⟨m, hm⟩ : ∃ m, (stop - k).toNat = m + 1 := ⟨(stop - k).toNat - 1, by omega⟩
      have hb : ¬ (k < 0 ∨ (N : Int) ≤ k) := by omega
      rw [hm]
      simp [AnalyseLoop, hb, hfail hlt, hlt]
    · have hz : (stop - k).toNat = 0 := by omega
      rw [hz]
      simp [AnalyseLoop, hlt]

theorem AnalyseThreads_read_failure_witness :
    ((∀ r ∈ [((0 : Int), (1 : Int)), (1, 5)], 0 ≤ r.1 ∧ r.2 ≤ ((5 : Nat) : Int)) ∧
      [((0 : Int), (1 : Int)), (1, 5)][1]? = some (1, 5) ∧ (1 : Int) ≤ 3 ∧ (3 : Int) ≤ 5) ∧
    (∀ schedule : List Nat,
      ∃ (threads : Nat → AnalyseThread) (c : Int),
        RunThreads 5 true (fun j => decide (j ≠ 3)) schedule
          (startThreads [(0, 1), (1, 5)], 10) = some (threads, c) ∧
        ((threads 1).running = true →
          ∃ m : Nat, (m : Int) ≤ 3 - 1 ∧ (threads 1).events = processedEvents 1 m) ∧
        ((threads 1).running = false → (threads 1).events = finishedEvents 1 5 3)) ∧
    (∀ m : Nat, 2 * ((5 : Int) - 1).toNat + 1 ≤ m →
      ∃ threads : Nat → AnalyseThread,
        RunThreads 5 true (fun j => decide (j ≠ 3)) (List.replicate m 1)
          (startThreads [(0, 1), (1, 5)], 10) = some (threads, 10 + (3 - 1)) ∧
        (threads 1).running = false ∧ (threads 1).events = finishedEvents 1 5 3) ∧
    Analyse 5 true (fun j => decide (j ≠ 3)) 10 1 5 = some (finishedEvents 1 5 3, 10 + (3 - 1)) :=
  ⟨by decide,
    AnalyseThreads_read_failure 5 (fun j => decide (j ≠ 3)) [(0, 1), (1, 5)] 1 10 1 5 3
      (by decide) (by decide) (by decide) (by decide) (fun j _ h2 => by simp; omega)
      (fun _ => by decide)⟩

/-- C13: the sink loop of `CalculateVelocity` writes the sinks over the first
points of the array.  With one particle and one sink the array of two points
holds the sink at index 0 and an unset point at index 1 when the first query
is made, and the pointer to index 0 was inserted twice: the point of the
particle is overwritten and no point `N + j` is written. -/
theorem CalculateVelocity_sink_overwrites_particle (init : OctreePoint) (P : Particle)
    (S : Sink) :
    CalculateVelocity_points init [P] [S] =
      ([{ position := S.X, mass := S.M }, init], [0, 0]) := by
  rfl

/-- C14: centering on a sink leaves every velocity as it was.  With a valid
sink index, a zero `posCenter` and `densest` off, `Center` subtracts the
position of that sink from every particle and every sink, and subtracts the
zero vector from every velocity: `dV` is set only in the `densest` branch. -/
theorem Center_on_sink_keeps_velocity (Norm : Vec3 → ℚ)
    (sort : (Particle → Particle → Bool) → List Particle → List Particle)
    (CENTER_DENSEST_NUM : Int) (part : List Particle) (sink : List Sink) (k : Int) (s : Sink)
    (hNorm : Norm ⟨0, 0, 0⟩ = 0) (hk : index? sink k = some s) :
    Center Norm sort CENTER_DENSEST_NUM part sink k ⟨0, 0, 0⟩ 0 =
      some (part.map (fun p => { p with X := p.X.sub s.X, R := Norm (p.X.sub s.X), V := p.V }),
        sink.map (fun t => { t with X := t.X.sub s.X, R := Norm (t.X.sub s.X) })) := by
  have hk0 : ¬ k < 0 := by
    intro hlt
    simp [index?, hlt] at hk
  have hklen : k.toNat < sink.length := by
    simp only [index?, hk0, if_false] at hk
    exact (List.getElem?_eq_some_iff.1 hk).1
  have hearly : CenterReturnsEarly Norm sink k ⟨0, 0, 0⟩ 0 = false := by
    have : ¬ ((sink.length : Int) ≤ k) := by omega
    simp [CenterReturnsEarly, hk0, this]
  have hne : index? (sink.map fun t : Sink =>
      { t with X := t.X.sub s.X, R := Norm (t.X.sub s.X) }) 0 ≠ none := by
    cases sink with
    | nil => simp at hklen
    | cons a l => simp [index?]
  obtain ⟨s0, hs0⟩ := Option.ne_none_iff_exists'.1 hne
  have hz : ∀ v : Vec3, ({ v with z := v.z } : Vec3) = v := fun v => by cases v; rfl
  have hsub : ∀ v : Vec3, v.sub ⟨0, 0, 0⟩ = v := fun v => by
    have := Vec3.sub_zero_vec v
    rwa [zero_literal] at this
  simp only [Center, hearly, Bool.false_eq_true, if_false, ne_eq, not_true_eq_false, hk,
    Option.map_some', Option.some_bind, zero_literal, hNorm, if_true, hz, ite_self, hsub, hs0]

theorem Center_on_sink_keeps_velocity_witness :
    (Vec3.norm1 ⟨0, 0, 0⟩ = 0 ∧
      index? [({ ID := 1, X := ⟨1, 2, 3⟩, V := ⟨5, 0, 0⟩, M := 1, R := 0 } : Sink)] 0 =
        some { ID := 1, X := ⟨1, 2, 3⟩, V := ⟨5, 0, 0⟩, M := 1, R := 0 }) ∧
    Center Vec3.norm1 insertionSortBy 1
        [{ ID := 1, X := ⟨4, 4, 4⟩, V := ⟨1, 0, 0⟩, M := 1, D := 1, T := 10, R := 0,
           RealSigma := 0, RealTau := 0 }]
        [{ ID := 1, X := ⟨1, 2, 3⟩, V := ⟨5, 0, 0⟩, M := 1, R := 0 }] 0 ⟨0, 0, 0⟩ 0 =
      some (([{ ID := 1, X := ⟨4, 4, 4⟩, V := ⟨1, 0, 0⟩, M := 1, D := 1, T := 10, R := 0,
                RealSigma := 0, RealTau := 0 }] : List Particle).map
            (fun p => { p with X := p.X.sub ⟨1, 2, 3⟩, R := Vec3.norm1 (p.X.sub ⟨1, 2, 3⟩), V := p.V }),
        ([{ ID := 1, X := ⟨1, 2, 3⟩, V := ⟨5, 0, 0⟩, M := 1, R := 0 }] : List Sink).map
            (fun t => { t with X := t.X.sub ⟨1, 2, 3⟩, R := Vec3.norm1 (t.X.sub ⟨1, 2, 3⟩) })) :=
  ⟨⟨by decide!, by decide!⟩,
    Center_on_sink_keeps_velocity Vec3.norm1 insertionSortBy 1 _ _ 0
      { ID := 1, X := ⟨1, 2, 3⟩, V := ⟨5, 0, 0⟩, M := 1, R := 0 } (by decide!) (by decide!)⟩

/-- C18: the divisions in `Run` can divide by zero.  `THREADS = 0` passes the
clamp of `Initialise` (which replaces only a negative or too large value), is
not changed by the clamp to the file count, and reaches
`mFiles.size() / mNumThreads` with `mNumThreads = 0`. -/
theorem Run_divides_by_zero :
    Initialise 0 4 = some 0 ∧ Run 1 0 = none ∧ (Initialise 0 4).bind (Run 1) = none := by
  decide

/-- C19: `Center` can index the sink list out of range.  With `densest` off, a
non-zero `posCenter` whose `z` is 0 and a sink index outside the sink list,
the early return is not taken and the fallback `dX.z = sink[sinkIndex]` reads
outside the list. -/
theorem Center_fallback_out_of_range (Norm : Vec3 → ℚ)
    (sort : (Particle → Particle → Bool) → List Particle → List Particle)
    (CENTER_DENSEST_NUM : Int) (part : List Particle) (sink : List Sink) (sinkIndex : Int)
    (posCenter : Vec3) (hNorm : Norm posCenter ≠ 0) (hz : posCenter.z = 0)
    (hidx : sinkIndex < 0 ∨ (sink.length : Int) ≤ sinkIndex) :
    CenterReturnsEarly Norm sink sinkIndex posCenter 0 = false ∧
    Center Norm sort CENTER_DENSEST_NUM part sink sinkIndex posCenter 0 = none := by
  have hearly : CenterReturnsEarly Norm sink sinkIndex posCenter 0 = false := by
    simp [CenterReturnsEarly, hNorm, zero_literal]
  have hnone : index? sink sinkIndex = none := by
    simp only [index?]
    split_ifs with h
    · rfl
    · exact List.getElem?_eq_none (by omega)
  refine ⟨hearly, ?_⟩
  simp [Center, hearly, hNorm, hz, hnone, zero_literal]

theorem Center_fallback_out_of_range_witness :
    (Vec3.norm1 ⟨10, 0, 0⟩ ≠ 0 ∧ (⟨10, 0, 0⟩ : Vec3).z = 0 ∧
      ((-1 : Int) < 0 ∨
        (([{ ID := 1, X := ⟨1, 2, 3⟩, V := ⟨5, 0, 0⟩, M := 1, R := 0 }] : List Sink).length : Int)
          ≤ -1)) ∧
    CenterReturnsEarly Vec3.norm1
        [{ ID := 1, X := ⟨1, 2, 3⟩, V := ⟨5, 0, 0⟩, M := 1, R := 0 }] (-1) ⟨10, 0, 0⟩ 0 = false ∧
    Center Vec3.norm1 insertionSortBy 1
        [{ ID := 1, X := ⟨4, 4, 4⟩, V := ⟨1, 0, 0⟩, M := 1, D := 1, T := 10, R := 0,
           RealSigma := 0, RealTau := 0 }]
        [{ ID := 1, X := ⟨1, 2, 3⟩, V := ⟨5, 0, 0⟩, M := 1, R := 0 }] (-1) ⟨10, 0, 0⟩ 0 = none :=
  ⟨⟨by decide!, by decide!, by decide!⟩,
    Center_fallback_out_of_range Vec3.norm1 insertionSortBy 1 _ _ (-1) ⟨10, 0, 0⟩
      (by decide!) (by decide!) (by decide!)⟩

namespace OpticalDepthOctree

/-- C15, as stated, fails in `double` arithmetic.  In the root box
`(0, 0, 0) ± 1000` the points `(109, 1/2, 1)` and `(109 + 2^-46, 1/2, 1)` of
density 1 are inserted and `Walk` is run for the first of them.  The leaf
that holds it passes the footprint test for its own position, its rectangle
strictly contains `(109, 1/2)` and its payload is not below the query, so the
claimed `Sigma` is `1 * (125 / 2^53) * 2 * 1`; but `Walk` writes back
`Sigma = Tau = 0`: an ancestor of the leaf fails its footprint test and the
subtree is pruned. -/
theorem WalkF_prunes_leaf_of_column_binary64 :
    (ConstructF binary64 57 (new ⟨0, 0, 0⟩ ⟨1000, 1000, 1000⟩)
        [{ ID := 1, X := ⟨109, 1 / 2, 1⟩, V := ⟨0, 0, 0⟩, M := 1, D := 1, T := 10, R := 0,
           RealSigma := 0, RealTau := 0 },
         { ID := 2, X := ⟨109 + 1 / 2 ^ 46, 1 / 2, 1⟩, V := ⟨0, 0, 0⟩, M := 1, D := 1, T := 10,
           R := 0, RealSigma := 0, RealTau := 0 }]).map
      (fun t =>
        ((WalkF binary64 1 (fun _ _ => 1) t
            [{ ID := 1, X := ⟨109, 1 / 2, 1⟩, V := ⟨0, 0, 0⟩, M := 1, D := 1, T := 10, R := 0,
               RealSigma := 0, RealTau := 0 }]).map fun P => (P.RealSigma, P.RealTau),
          (SpecColumnCells t ⟨109, 1 / 2, 1⟩).map (fun c => (c.1.pos, c.1.dens, c.2)),
          ((LinkTree t).filter IsLeafNode).filterMap fun n =>
            n.Data.map fun d => (d.pos.x, IntersectsF binary64 n ⟨109, 1 / 2, 1⟩)))
      = some ([(0, 0)], [(⟨109, 1 / 2, 1⟩, 1, 125 / 2 ^ 53)],
          [(109, true), (109 + 1 / 2 ^ 46, false)]) ∧
    (1 * (125 / 2 ^ 53) * 2 * 1 : ℚ) ≠ 0 := by
  constructor
  · decide!
  · norm_num

/-- C15, amended.  For a tree made by `Insert` calls on an empty root in FLOAT
arithmetic with rounding `fl`, when the cells on the way of each inserted
point and the four rectangle edges of every node are computed without
rounding, `Walk` writes back, for every particle, the sums in FLOAT
arithmetic (each product and each addition rounded, in `LinkTree` order,
starting from 0) over exactly the payload-bearing leaves whose `(x, y)`
rectangle strictly contains the particle's `(x, y)` and whose payload `z` is
at least the particle's `z`, of `density * HalfDimension.z * 2 * AU_TO_CM` for
`Sigma` and of
`density * GetKappar(density, temperature) * HalfDimension.z * 2 * AU_TO_CM`
for `Tau`: pruning at internal nodes loses no such leaf. -/
theorem WalkF_eq_sum_over_column (fl : ℚ → ℚ) (fuel : Nat) (O HD : Vec3)
    (pts : List OpticalDepthPoint) (t : OpticalDepthOctree)
    (hexact : ∀ p ∈ pts, ExactCells fl fuel O HD p.pos)
    (ht : InsertAllF fl fuel (new O HD) pts = some t)
    (hedges : ∀ n ∈ LinkTree t, ExactEdges fl n)
    (AU_TO_CM : ℚ) (GetKappar : ℚ → ℚ → ℚ) (Particles : List Particle) :
    WalkF fl AU_TO_CM GetKappar t Particles =
      Particles.map fun P =>
        { P with
          RealSigma :=
            (SpecColumnCells t P.X).foldl
              (fun s c => fl (s + fl (fl (fl (c.1.dens * c.2) * 2) * AU_TO_CM))) 0
          RealTau :=
            (SpecColumnCells t P.X).foldl
              (fun s c =>
                fl (s + fl (fl (fl (fl (c.1.dens * GetKappar c.1.dens c.1.temp) * c.2) * 2) *
                  AU_TO_CM))) 0 } := by
  have hI : InsertAll fuel (new O HD) pts = some t := by
    rw [← InsertAllF_eq_InsertAll fl fuel pts (new O HD) trivial hexact]; exact ht
  have hoct : Octants t := InsertAll_Octants fuel pts (new O HD) t trivial hI
  have e2 : (2.0 : ℚ) = 2 := by norm_num
  have hs : sigmaTermF fl AU_TO_CM = fun c => fl (fl (fl (c.1.dens * c.2) * 2) * AU_TO_CM) := by
    funext c; simp only [sigmaTermF, e2]
  have hta : tauTermF fl AU_TO_CM GetKappar =
      fun c => fl (fl (fl (fl (c.1.dens * GetKappar c.1.dens c.1.temp) * c.2) * 2) *
        AU_TO_CM) := by
    funext c; simp only [tauTermF, e2]
  simp only [WalkF]
  apply List.map_congr_left
  intro P _
  rw [TraverseTreeF_eq_fold, ContributingF_eq_Contributing fl t P.X hedges,
    Contributing_eq_specCells t P.X hoct, ← SpecColumnCells_eq_specCells, hs, hta]
  simp only [zero_literal]

theorem WalkF_eq_sum_over_column_witness :
    ∃ t : OpticalDepthOctree,
      ((∀ p ∈ [(⟨⟨1 / 4, 1 / 4, 1⟩, 1, 10⟩ : OpticalDepthPoint), ⟨⟨1 / 4, 1 / 4, 1 / 2⟩, 2, 20⟩,
          ⟨⟨1 / 4, 1 / 4, -1 / 2⟩, 3, 30⟩],
          ExactCells binary64 12 ⟨0, 0, 0⟩ ⟨1024, 1024, 1024⟩ p.pos) ∧
        InsertAllF binary64 12 (new ⟨0, 0, 0⟩ ⟨1024, 1024, 1024⟩)
          [(⟨⟨1 / 4, 1 / 4, 1⟩, 1, 10⟩ : OpticalDepthPoint), ⟨⟨1 / 4, 1 / 4, 1 / 2⟩, 2, 20⟩,
            ⟨⟨1 / 4, 1 / 4, -1 / 2⟩, 3, 30⟩] = some t ∧
        ∀ n ∈ LinkTree t, ExactEdges binary64 n) ∧
      WalkF binary64 1 (fun _ _ => 1) t (scenarioParticles (1 / 4) (1 / 4)) =
        (scenarioParticles (1 / 4) (1 / 4)).map fun P =>
          { P with
            RealSigma :=
              (SpecColumnCells t P.X).foldl
                (fun s c => binary64 (s + binary64 (binary64 (binary64 (c.1.dens * c.2) * 2) * 1)))
                0
            RealTau :=
              (SpecColumnCells t P.X).foldl
                (fun s c =>
                  binary64 (s + binary64 (binary64 (binary64 (binary64
                    (c.1.dens * (fun _ _ => (1 : ℚ)) c.1.dens c.1.temp) * c.2) * 2) * 1))) 0 } := by
  have h : (InsertAllF binary64 12 (new ⟨0, 0, 0⟩ ⟨1024, 1024, 1024⟩)
      [(⟨⟨1 / 4, 1 / 4, 1⟩, 1, 10⟩ : OpticalDepthPoint), ⟨⟨1 / 4, 1 / 4, 1 / 2⟩, 2, 20⟩,
        ⟨⟨1 / 4, 1 / 4, -1 / 2⟩, 3, 30⟩]).map
        (fun t => decide (∀ n ∈ LinkTree t, ExactEdges binary64 n)) = some true := by decide!
  obtain ⟨t, ht, hd⟩ := Option.map_eq_some'.1 h
  exact ⟨t, ⟨fun p _ => ExactCells_binary64_root p.pos 12 (by decide), ht,
      of_decide_eq_true hd⟩,
    WalkF_eq_sum_over_column binary64 12 _ _ _ t
      (fun p _ => ExactCells_binary64_root p.pos 12 (by decide)) ht (of_decide_eq_true hd) 1
      (fun _ _ => 1) _⟩

/-- C16, as stated, fails in `double` arithmetic.  The root box
`(0, 0, 0) ± 2^-1074` has a positive half-extent on each axis and contains the
distinct points `(0, 0, 0)` and `(2^-1074, 0, 0)`.  With the first one stored,
`Insert` of the second returns for no fuel: both go to the child of octant 7,
whose half-extent `2^-1074 * 0.5` rounds to 0 and whose origin is again
`(0, 0, 0)`, and the same holds in every cell below, so the points are never
routed to different children. -/
theorem InsertF_never_returns_binary64 :
    0 < minSubnormal ∧
    InBox ⟨0, 0, 0⟩ ⟨minSubnormal, minSubnormal, minSubnormal⟩
      (⟨⟨0, 0, 0⟩, 1, 10⟩ : OpticalDepthPoint).pos ∧
    InBox ⟨0, 0, 0⟩ ⟨minSubnormal, minSubnormal, minSubnormal⟩
      (⟨⟨minSubnormal, 0, 0⟩, 2, 20⟩ : OpticalDepthPoint).pos ∧
    (⟨⟨minSubnormal, 0, 0⟩, 2, 20⟩ : OpticalDepthPoint).pos ≠
      (⟨⟨0, 0, 0⟩, 1, 10⟩ : OpticalDepthPoint).pos ∧
    InsertAllF binary64 1 (new ⟨0, 0, 0⟩ ⟨minSubnormal, minSubnormal, minSubnormal⟩)
        [⟨⟨0, 0, 0⟩, 1, 10⟩] =
      some (leaf ⟨0, 0, 0⟩ ⟨minSubnormal, minSubnormal, minSubnormal⟩ (some ⟨⟨0, 0, 0⟩, 1, 10⟩) 1) ∧
    ¬ ∃ (fuel : Nat) (t1 : OpticalDepthOctree),
      InsertF binary64 fuel
        (leaf ⟨0, 0, 0⟩ ⟨minSubnormal, minSubnormal, minSubnormal⟩ (some ⟨⟨0, 0, 0⟩, 1, 10⟩) 1)
        ⟨⟨minSubnormal, 0, 0⟩, 2, 20⟩ = some t1 := by
  refine ⟨by decide!, by decide!, by decide!, by decide!, rfl, ?_⟩
  rintro ⟨fuel, t1, h⟩
  have hk : octant ⟨0, 0, 0⟩ (⟨⟨minSubnormal, 0, 0⟩, 2, 20⟩ : OpticalDepthPoint).pos =
      octant ⟨0, 0, 0⟩ (⟨⟨0, 0, 0⟩, 1, 10⟩ : OpticalDepthPoint).pos := by decide!
  have hO : NewOriginF binary64 ⟨0, 0, 0⟩ ⟨minSubnormal, minSubnormal, minSubnormal⟩
      (octant ⟨0, 0, 0⟩ (⟨⟨0, 0, 0⟩, 1, 10⟩ : OpticalDepthPoint).pos) = ⟨0, 0, 0⟩ := by decide!
  have hH : (⟨minSubnormal, minSubnormal, minSubnormal⟩ : Vec3).scaleF binary64 0.5 = ⟨0, 0, 0⟩ := by
    decide!
  have hO0 : NewOriginF binary64 ⟨0, 0, 0⟩ ⟨0, 0, 0⟩
      (octant ⟨0, 0, 0⟩ (⟨⟨0, 0, 0⟩, 1, 10⟩ : OpticalDepthPoint).pos) = ⟨0, 0, 0⟩ := by decide!
  have hH0 : (⟨0, 0, 0⟩ : Vec3).scaleF binary64 0.5 = ⟨0, 0, 0⟩ := by decide!
  have hnone := InsertF_same_octant binary64 ⟨0, 0, 0⟩ ⟨minSubnormal, minSubnormal, minSubnormal⟩
    ⟨⟨0, 0, 0⟩, 1, 10⟩ ⟨⟨minSubnormal, 0, 0⟩, 2, 20⟩ 1 le_rfl hk
    (fun f => by
      rw [hO, hH]
      exact InsertF_fixed_cell binary64 ⟨0, 0, 0⟩ ⟨0, 0, 0⟩ _ _ hk hO0 hH0 f 1 le_rfl)
  rw [hnone fuel] at h
  simp at h

/-- C16, amended.  In a tree made in FLOAT arithmetic with rounding `fl` by
inserting points of the closed root box `O ± HD` into the empty root, `Insert`
of a further point of the box returns within a recursion of depth `n + 1`,
and adds exactly that point to the payloads of the leaves, when the point is
separated at scale `n` from every stored point (on some axis the two are
further apart than the side of the root box halved `n` times) and the cells
on the way of the stored points and, down to depth `n + 1`, of the new point
are computed without rounding.  Nothing is asked of the sign of the
half-extent. -/
theorem InsertF_terminates (fl : ℚ → ℚ) (O HD : Vec3) (pts : List OpticalDepthPoint)
    (fuel0 : Nat) (t : OpticalDepthOctree) (p : OpticalDepthPoint) (n : Nat)
    (hbox : ∀ q ∈ pts, InBox O HD q.pos)
    (hexact0 : ∀ q ∈ pts, ExactCells fl fuel0 O HD q.pos)
    (ht : InsertAllF fl fuel0 (new O HD) pts = some t)
    (hp : InBox O HD p.pos) (hexact : ExactCells fl (n + 1) O HD p.pos)
    (hsep : ∀ q ∈ LeafPayloads t, Separated n HD q.pos p.pos) :
    ∀ fuel : Nat, n + 1 ≤ fuel →
      ∃ t1 : OpticalDepthOctree, InsertF fl fuel t p = some t1 ∧
        (LeafPayloads t1).Perm (p :: LeafPayloads t) := by
  have hI0 : InsertAll fuel0 (new O HD) pts = some t := by
    rw [← InsertAllF_eq_InsertAll fl fuel0 pts (new O HD) trivial hexact0]; exact ht
  have hg : Geom t := InsertAll_Geom fuel0 pts (new O HD) t (Geom_new O HD) hbox hI0
  obtain ⟨ho, hh⟩ := InsertAll_Origin fuel0 pts (new O HD) t hI0
  have ho1 : t.Origin = O := ho
  have hh1 : t.HalfDimension = HD := hh
  have hinv : InnerNonEmpty t :=
    InsertAllF_InnerNonEmpty fl fuel0 pts (new O HD) t (Counted_new O HD) trivial ht
  obtain ⟨t1, h1⟩ := Insert_depth t hg hinv n p (by rw [ho1, hh1]; exact hp)
    (fun q hq => by
      rw [hh1]
      exact hsep q (by rw [LeafPayloads_eq_leafData]; exact hq))
  have hF : InsertF fl (n + 1) t p = some t1 := by
    rw [InsertF_eq_Insert fl (n + 1) t p (Geom_Octants t hg) (by rw [ho1, hh1]; exact hexact)]
    exact h1
  intro fuel hle
  have hF1 := InsertF_mono_le fl hle t p t1 hF
  refine ⟨t1, hF1, ?_⟩
  rw [LeafPayloads_eq_leafData, LeafPayloads_eq_leafData]
  exact Multiset.coe_eq_coe.1
    (by rw [(InsertF_conserves fl fuel t p t1 (Geom_Counted t hg) hF1).2]; rfl)

theorem InsertF_terminates_witness :
    ∃ t : OpticalDepthOctree,
      ((∀ q ∈ [(⟨⟨0, 0, 1⟩, 1, 10⟩ : OpticalDepthPoint), ⟨⟨0, 0, 1 / 2⟩, 2, 20⟩],
          InBox ⟨0, 0, 0⟩ ⟨1024, 1024, 1024⟩ q.pos) ∧
        (∀ q ∈ [(⟨⟨0, 0, 1⟩, 1, 10⟩ : OpticalDepthPoint), ⟨⟨0, 0, 1 / 2⟩, 2, 20⟩],
          ExactCells binary64 12 ⟨0, 0, 0⟩ ⟨1024, 1024, 1024⟩ q.pos) ∧
        InsertAllF binary64 12 (new ⟨0, 0, 0⟩ ⟨1024, 1024, 1024⟩)
          [(⟨⟨0, 0, 1⟩, 1, 10⟩ : OpticalDepthPoint), ⟨⟨0, 0, 1 / 2⟩, 2, 20⟩] = some t ∧
        InBox ⟨0, 0, 0⟩ ⟨1024, 1024, 1024⟩ (⟨⟨0, 0, -1 / 2⟩, 3, 30⟩ : OpticalDepthPoint).pos ∧
        ExactCells binary64 (12 + 1) ⟨0, 0, 0⟩ ⟨1024, 1024, 1024⟩
          (⟨⟨0, 0, -1 / 2⟩, 3, 30⟩ : OpticalDepthPoint).pos ∧
        ∀ q ∈ LeafPayloads t, Separated 12 ⟨1024, 1024, 1024⟩ q.pos
          (⟨⟨0, 0, -1 / 2⟩, 3, 30⟩ : OpticalDepthPoint).pos) ∧
      ∀ fuel : Nat, 12 + 1 ≤ fuel →
        ∃ t1 : OpticalDepthOctree, InsertF binary64 fuel t ⟨⟨0, 0, -1 / 2⟩, 3, 30⟩ = some t1 ∧
          (LeafPayloads t1).Perm (⟨⟨0, 0, -1 / 2⟩, 3, 30⟩ :: LeafPayloads t) := by
  have h : (InsertAllF binary64 12 (new ⟨0, 0, 0⟩ ⟨1024, 1024, 1024⟩)
      [(⟨⟨0, 0, 1⟩, 1, 10⟩ : OpticalDepthPoint), ⟨⟨0, 0, 1 / 2⟩, 2, 20⟩]).map
        (fun t => decide (∀ q ∈ LeafPayloads t, Separated 12 ⟨1024, 1024, 1024⟩ q.pos
          (⟨⟨0, 0, -1 / 2⟩, 3, 30⟩ : OpticalDepthPoint).pos)) = some true := by decide!
  obtain ⟨t, ht, hd⟩ := Option.map_eq_some'.1 h
  exact ⟨t, ⟨by decide!, fun q _ => ExactCells_binary64_root q.pos 12 (by decide), ht,
      by decide!, ExactCells_binary64_root _ (12 + 1) (by decide), of_decide_eq_true hd⟩,
    InsertF_terminates binary64 ⟨0, 0, 0⟩ ⟨1024, 1024, 1024⟩ _ 12 t _ 12 (by decide!)
      (fun q _ => ExactCells_binary64_root q.pos 12 (by decide)) ht (by decide!)
      (ExactCells_binary64_root _ (12 + 1) (by decide)) (of_decide_eq_true hd)⟩

/-- C17, as stated, fails in `double` arithmetic on the tree that
`FindOpticalDepth` creates (root box `(0, 0, 0) ± 1024`).  After the points
`(1000, 0, 0)` and `(1000 + 2^-43, 0, 0)`, both inside the root box, the
second one is the payload of a leaf of origin `x = 1000 + 2^-42` and
half-extent `2^-44`, whose closed box does not contain it; the leaf of the
first has origin `x = 1000`.  The two leaves are children of one parent and
`x = 1000` and `x = 1000 + 2^-42` are four half-extents apart, so they are not
the parent's origin plus and minus half of its half-extent. -/
theorem InsertF_geometry_fails_binary64 :
    (∀ p ∈ [(⟨⟨1000, 0, 0⟩, 1, 10⟩ : OpticalDepthPoint), ⟨⟨1000 + 1 / 2 ^ 43, 0, 0⟩, 2, 20⟩],
      InBox FindOpticalDepth_octree.Origin FindOpticalDepth_octree.HalfDimension p.pos) ∧
    (InsertAllF binary64 55 FindOpticalDepth_octree
        [⟨⟨1000, 0, 0⟩, 1, 10⟩, ⟨⟨1000 + 1 / 2 ^ 43, 0, 0⟩, 2, 20⟩]).map
      (fun t => ((LinkTree t).filter IsLeafNode).filterMap fun n =>
        n.Data.map fun d => (d.pos.x, n.Origin.x, n.HalfDimension.x,
          decide (InBox n.Origin n.HalfDimension d.pos)))
      = some [(1000, 1000, 1 / 2 ^ 44, true),
              (1000 + 1 / 2 ^ 43, 1000 + 1 / 2 ^ 42, 1 / 2 ^ 44, false)] := by
  constructor
  · decide!
  · decide!

/-- C17, amended.  Points of the closed root box `O ± HD` are inserted into the
empty root in FLOAT arithmetic with rounding `fl`.  When the cells on the way
of each inserted point are computed without rounding, then in the tree after
any returning sequence of `Insert` calls every payload of a leaf lies in the
closed box of that leaf, and every child has half the half-extent of its
parent and its origin offset by plus or minus half the parent's half-extent,
plus exactly when the bit of its index is set (bit 4 for x, bit 2 for y,
bit 1 for z); a point of the parent's box whose `GetOctantContainingPoint`
code is the child's index lies in the child's box. -/
theorem InsertF_geometry (fl : ℚ → ℚ) (fuel : Nat) (O HD : Vec3) (pts : List OpticalDepthPoint)
    (t : OpticalDepthOctree) (hexact : ∀ p ∈ pts, ExactCells fl fuel O HD p.pos)
    (hbox : ∀ p ∈ pts, InBox O HD p.pos)
    (ht : InsertAllF fl fuel (new O HD) pts = some t) :
    ∀ n ∈ LinkTree t,
      (n.IsLeafNode = true → ∀ q, n.Data = some q → InBox n.Origin n.HalfDimension q.pos) ∧
      (∀ (i : Fin 8) (c : OpticalDepthOctree), n.Children i = some c →
        c.HalfDimension = n.HalfDimension.scale (1 / 2) ∧
        c.Origin =
          { x := n.Origin.x + (if (i : Nat) / 4 % 2 = 1 then 1 else -1) * (n.HalfDimension.x / 2)
            y := n.Origin.y + (if (i : Nat) / 2 % 2 = 1 then 1 else -1) * (n.HalfDimension.y / 2)
            z := n.Origin.z + (if (i : Nat) % 2 = 1 then 1 else -1) * (n.HalfDimension.z / 2) } ∧
        ∀ P : Vec3, InBox n.Origin n.HalfDimension P →
          GetOctantContainingPoint n.Origin P = (i : Nat) → InBox c.Origin c.HalfDimension P) := by
  have hI : InsertAll fuel (new O HD) pts = some t := by
    rw [← InsertAllF_eq_InsertAll fl fuel pts (new O HD) trivial hexact]; exact ht
  have hg : Geom t := InsertAll_Geom fuel pts (new O HD) t (Geom_new O HD) hbox hI
  intro n hn
  obtain ⟨h1, h2⟩ := Geom_LinkTree t hg n hn
  refine ⟨h1, fun i c hc => ?_⟩
  obtain ⟨ho, hh⟩ := h2 i c hc
  have e : (0.5 : ℚ) = 1 / 2 := by norm_num
  refine ⟨by rw [hh, e], by rw [ho, NewOrigin_eq], ?_⟩
  intro P hP hcode
  have hi : octant n.Origin P = i := Fin.ext (by rw [octant_val, hcode])
  rw [ho, hh, ← hi]
  exact InBox_child n.Origin n.HalfDimension P hP

theorem InsertF_geometry_witness :
    ∃ t : OpticalDepthOctree,
      ((∀ p ∈ [(⟨⟨0, 0, 1⟩, 1, 10⟩ : OpticalDepthPoint), ⟨⟨0, 0, 1 / 2⟩, 2, 20⟩,
          ⟨⟨0, 0, -1 / 2⟩, 3, 30⟩],
          ExactCells binary64 12 ⟨0, 0, 0⟩ ⟨1024, 1024, 1024⟩ p.pos) ∧
        (∀ p ∈ [(⟨⟨0, 0, 1⟩, 1, 10⟩ : OpticalDepthPoint), ⟨⟨0, 0, 1 / 2⟩, 2, 20⟩,
          ⟨⟨0, 0, -1 / 2⟩, 3, 30⟩], InBox ⟨0, 0, 0⟩ ⟨1024, 1024, 1024⟩ p.pos) ∧
        InsertAllF binary64 12 (new ⟨0, 0, 0⟩ ⟨1024, 1024, 1024⟩)
          [(⟨⟨0, 0, 1⟩, 1, 10⟩ : OpticalDepthPoint), ⟨⟨0, 0, 1 / 2⟩, 2, 20⟩,
            ⟨⟨0, 0, -1 / 2⟩, 3, 30⟩] = some t) ∧
      ∀ n ∈ LinkTree t,
        (n.IsLeafNode = true → ∀ q, n.Data = some q → InBox n.Origin n.HalfDimension q.pos) ∧
        (∀ (i : Fin 8) (c : OpticalDepthOctree), n.Children i = some c →
          c.HalfDimension = n.HalfDimension.scale (1 / 2) ∧
          c.Origin =
            { x := n.Origin.x + (if (i : Nat) / 4 % 2 = 1 then 1 else -1) * (n.HalfDimension.x / 2)
              y := n.Origin.y + (if (i : Nat) / 2 % 2 = 1 then 1 else -1) * (n.HalfDimension.y / 2)
              z := n.Origin.z + (if (i : Nat) % 2 = 1 then 1 else -1) * (n.HalfDimension.z / 2) } ∧
          ∀ P : Vec3, InBox n.Origin n.HalfDimension P →
            GetOctantContainingPoint n.Origin P = (i : Nat) →
              InBox c.Origin c.HalfDimension P) := by
  have h : (InsertAllF binary64 12 (new ⟨0, 0, 0⟩ ⟨1024, 1024, 1024⟩)
      [(⟨⟨0, 0, 1⟩, 1, 10⟩ : OpticalDepthPoint), ⟨⟨0, 0, 1 / 2⟩, 2, 20⟩,
        ⟨⟨0, 0, -1 / 2⟩, 3, 30⟩]).isSome = true := by decide!
  obtain ⟨t, ht⟩ := Option.isSome_iff_exists.1 h
  exact ⟨t, ⟨fun p _ => ExactCells_binary64_root p.pos 12 (by decide), by decide!, ht⟩,
    InsertF_geometry binary64 12 _ _ _ t
      (fun p _ => ExactCells_binary64_root p.pos 12 (by decide)) (by decide!) ht⟩

end OpticalDepthOctree

end SParGeL
